import Mathlib

/-!
# GoDistributeFS: the naming server (metadata coordinator)

A shallow embedding of `src/utils.go`, `src/naming_server/naming_server.go` and
`src/naming_server/naming_server_imp.go`, and of `ReadFile`, `WriteFile` and `Sync` of
`src/storage_server`.

* Go strings are Lean `String`s; `strings.Split`, `strings.LastIndex` and slicing work on
  the character list.  The separator `/` is one byte of UTF-8 that never occurs inside a
  longer encoding, so cutting at a character position of `/` and cutting at its byte
  position give the same pieces.
* `*Node` is an index into `NamingServer.heap`, the list of every `Node` allocated so far;
  `nil` is `none`.  Mutating a node through a pointer is `List.set` at that index, so
  sharing (two parents holding the same pointer) is represented as it is in Go.
* A handler returns a `Result`: `ok` with the new server state and the response, `panic`
  where the Go code faults at run time (slice bounds out of range, nil dereference,
  `rand.Intn` on 0), `hang` where a loop does not stop on the given inputs.
* Calls to the replicas are inputs of the handlers: `CreateFile` takes the answer of each
  replica as the function `reply`; the answers to `Move` and `Remove` are discarded by the
  Go code and do not appear.  Dialing (`GetStorageServer`) is transport and is not
  modelled.  The random source is the list `rands` of its successive results, and Go's
  unspecified map iteration order is the enumeration `keys`.
* A replica's host file system is a `Disk`, the list of its regular files with their
  bytes (naturals); `os.File.ReadAt` and `os.File.WriteAt` follow the Go library.  The
  calls a replica sends out are returned as a list of `Rpc`.
-/

namespace GoDFS

/-! ## Outcomes -/

/-- Outcome of running a handler. -/
inductive Result (α : Type) where
  | ok (a : α)
  | panic
  | hang
deriving DecidableEq, Repr

/-! ## utils.go -/

/-- Pieces of `strings.Split(s, "/")` on a character list. -/
def splitChars : List Char → List (List Char)
  | [] => [[]]
  | c :: cs =>
    if c = '/' then [] :: splitChars cs
    else match splitChars cs with
      | [] => [[c]]
      | x :: xs => (c :: x) :: xs

/-- Go `strings.Split(s, "/")`. -/
def Split (s : String) : List String := (splitChars s.data).map String.mk

/-- Position of the last `/` in a character list, if there is one. -/
def lastSlash : List Char → Option Nat
  | [] => none
  | c :: cs =>
    match lastSlash cs with
    | some i => some (i + 1)
    | none => if c = '/' then some 0 else none

/-- Go `strings.LastIndex(path, "/")`: the index of the last `/`, or `-1`. -/
def LastIndex (path : String) : Int :=
  match lastSlash path.data with
  | some i => (i : Int)
  | none => -1

/-- Go `Contains(slice, val)`. -/
def Contains (slice : List String) (val : String) : Bool :=
  match slice with
  | [] => false
  | item :: rest => if item = val then true else Contains rest val

/-- Go `DirPart`: `path[:strings.LastIndex(path, "/")]`; slicing to `-1` is a run-time
fault (`none`). -/
def DirPart (path : String) : Option String :=
  let i := LastIndex path
  if i < 0 then none else some (String.mk (path.data.take i.toNat))

/-- Go `NamePart`: `path[strings.LastIndex(path, "/")+1:]`. -/
def NamePart (path : String) : String :=
  String.mk (path.data.drop (LastIndex path + 1).toNat)

/-! ## naming_server.go: the data model -/

structure StorageInfo where
  Alias : String
deriving DecidableEq, Repr

abbrev NodeType := Int

def DIR : NodeType := 1
def FILE : NodeType := 2

/-- A `*Node`: an index into the heap of allocated nodes. -/
abbrev Ptr := Nat

/-- Go `Node`; the field `Type` is spelled `Typ`. -/
structure Node where
  Name : String
  Typ : NodeType
  Children : List Ptr
  Storages : List StorageInfo
deriving DecidableEq, Repr

structure StorageServerInfo where
  privateAddress : String
  publicAddress : String
deriving DecidableEq, Repr

/-- Go `pb.DiscoveredStorage`. -/
structure DiscoveredStorage where
  Alias : String
  Address : String
  PublicAddress : String
deriving DecidableEq, Repr

/-- Go `pb.ErrorStatus`. -/
structure ErrorStatus where
  Code : Nat
  Description : String
deriving DecidableEq, Repr

/-- Go `NamingServer`: the node heap, the root pointer and the registry
`map[string]*StorageServerInfo` as an association list with one entry per key. -/
structure NamingServer where
  heap : List Node
  RootIndexNode : Ptr
  StorageAddresses : List (String × StorageServerInfo)
deriving DecidableEq, Repr

/-- Go `syscall.ENOENT` (2 on every host Go supports). -/
def ENOENT : Nat := 2

/-! ## The registry map -/

/-- Go `m[key]` on the registry: the entry, or `nil`. -/
def mapGet (m : List (String × StorageServerInfo)) (key : String) : Option StorageServerInfo :=
  match m with
  | [] => none
  | (k, v) :: rest => if k = key then some v else mapGet rest key

/-- Go `m[key] = value` on the registry. -/
def mapSet (m : List (String × StorageServerInfo)) (key : String) (value : StorageServerInfo) :
    List (String × StorageServerInfo) :=
  match m with
  | [] => [(key, value)]
  | (k, v) :: rest => if k = key then (k, value) :: rest else (k, v) :: mapSet rest key value

/-- Go `SetAddressMap`. -/
def SetAddressMap (server : NamingServer) (newKey : String) (newValue : StorageServerInfo) :
    NamingServer :=
  { server with StorageAddresses := mapSet server.StorageAddresses newKey newValue }

/-- Keys of the registry in the order of the association list.  Go's
`StorageServerInfoKeys` returns them in the map's iteration order, which is unspecified:
the handlers below take that enumeration as the argument `keys`. -/
def mapKeys (m : List (String × StorageServerInfo)) : List String := m.map Prod.fst

/-! ## Node operations through pointers -/

/-- The `Children` slice of the node behind a pointer. -/
def childrenOf (heap : List Node) (n : Ptr) : List Ptr :=
  match heap[n]? with
  | some nd => nd.Children
  | none => []

/-- The `Storages` slice of the node behind a pointer. -/
def storagesOf (heap : List Node) (n : Ptr) : List StorageInfo :=
  match heap[n]? with
  | some nd => nd.Storages
  | none => []

/-- The test `child.Name == name` for a child pointer.  Every pointer stored in a Go node
points to an allocated node; an index outside the heap matches nothing. -/
def nameIs (heap : List Node) (name : String) (child : Ptr) : Bool :=
  match heap[child]? with
  | some ch => decide (ch.Name = name)
  | none => false

/-- Go `GetChild`: the first child with the given name, or `nil`.  The inner loops of
`FindNode` and `CreateNodeIfNotExists` are this same search. -/
def GetChild (heap : List Node) (n : Ptr) (name : String) : Option Ptr :=
  (childrenOf heap n).find? (nameIs heap name)

/-- The loop of Go `RemoveChild`: `index` starts at `-1` and is overwritten by every
position whose child has the name, so it ends at the last one. -/
def removeIndex (heap : List Node) (name : String) : List Ptr → Nat → Int → Int
  | [], _, index => index
  | child :: rest, i, index =>
    removeIndex heap name rest (i + 1) (if nameIs heap name child then (i : Int) else index)

/-- Go `RemoveChild`: no change when `index == -1`, else
`append(Children[:index], Children[index+1:]...)`. -/
def RemoveChild (heap : List Node) (n : Ptr) (name : String) : List Node :=
  match heap[n]? with
  | none => heap
  | some nd =>
    let index := removeIndex heap name nd.Children 0 (-1)
    if index = -1 then heap
    else heap.set n { nd with
      Children := nd.Children.take index.toNat ++ nd.Children.drop (index.toNat + 1) }

/-- Go `AddChild`: `n.Children = append(n.Children, node)`. -/
def AddChild (heap : List Node) (n : Ptr) (node : Ptr) : List Node :=
  match heap[n]? with
  | none => heap
  | some nd => heap.set n { nd with Children := nd.Children ++ [node] }

/-- The assignment `node.Name = name`. -/
def setName (heap : List Node) (node : Ptr) (name : String) : List Node :=
  match heap[node]? with
  | none => heap
  | some nd => heap.set node { nd with Name := name }

/-- The assignment `node.Storages = append(node.Storages, &StorageInfo{Alias: alias})`. -/
def addStorage (heap : List Node) (node : Ptr) (serverAlias : String) : List Node :=
  match heap[node]? with
  | none => heap
  | some nd => heap.set node { nd with Storages := nd.Storages ++ [⟨serverAlias⟩] }

/-! ## FindNode and CreateNodeIfNotExists -/

/-- `strings.Split(path, "/")[1:]`. -/
def segmentsOf (path : String) : List String := (Split path).drop 1

/-- The segment loop of `FindNode`, started at `node`. -/
def walk (heap : List Node) : Ptr → List String → Option Ptr
  | node, [] => some node
  | node, s :: segments =>
    match GetChild heap node s with
    | some child => walk heap child segments
    | none => none

/-- Go `FindNode`: `(node, true)` is `some node`, `(nil, false)` is `none`. -/
def FindNode (server : NamingServer) (path : String) : Option Ptr :=
  walk server.heap server.RootIndexNode (segmentsOf path)

/-- The segment loop of `CreateNodeIfNotExists`, started at `node`; `last` is
`segments[len(segments)-1]` of the whole path.  A missing segment allocates a node at the
end of the heap and appends the new pointer to the current node's children. -/
def createLoop (lastNodeIsFile : Bool) (last : String) :
    List Node → Ptr → List String → List Node × Ptr
  | heap, node, [] => (heap, node)
  | heap, node, s :: segments =>
    match GetChild heap node s with
    | some child => createLoop lastNodeIsFile last heap child segments
    | none =>
      let t : NodeType := if lastNodeIsFile && decide (s = last) then FILE else DIR
      let n : Ptr := heap.length
      let heap1 := heap ++ [{ Name := s, Typ := t, Children := [], Storages := [] }]
      let heap2 := AddChild heap1 node n
      createLoop lastNodeIsFile last heap2 n segments

/-- Go `CreateNodeIfNotExists`. -/
def CreateNodeIfNotExists (server : NamingServer) (path : String) (lastNodeIsFile : Bool) :
    NamingServer × Ptr :=
  let segments := segmentsOf path
  let r := createLoop lastNodeIsFile (segments.getLastD "") server.heap server.RootIndexNode
    segments
  ({ server with heap := r.1 }, r.2)

/-- Go `initNamingServer`: a root node with empty name, no `Type` set (the zero value),
and an empty registry. -/
def initNamingServer : NamingServer :=
  { heap := [{ Name := "", Typ := 0, Children := [], Storages := [] }]
    RootIndexNode := 0
    StorageAddresses := [] }

/-! ## Placement -/

/-- The selection loop of `Get2RandomStorageServers`.  Each element of `rands` is one
result of the random source, turned into `rand.Intn(n)` by `% n`; `none` when the draws run
out before two distinct aliases are collected (the loop has not stopped), `some none` when
`keys[index]` is out of range. -/
def selectLoop (keys : List String) (n : Nat) : List Nat → List String →
    Option (Option (List String))
  | [], _ => none
  | r :: rands, aliases =>
    match keys[r % n]? with
    | none => some none
    | some a =>
      if Contains aliases a then selectLoop keys n rands aliases
      else
        let aliases1 := aliases ++ [a]
        if aliases1.length = 2 then some (some aliases1)
        else selectLoop keys n rands aliases1

/-- The second loop of `Get2RandomStorageServers`: resolves every chosen alias in the
registry; `servers[alias]` being `nil` faults at `serverInfo.privateAddress`. -/
def resolveLoop (servers : List (String × StorageServerInfo)) :
    List String → Option (List DiscoveredStorage)
  | [] => some []
  | a :: rest =>
    match mapGet servers a, resolveLoop servers rest with
    | some serverInfo, some result =>
      some ({ Alias := a, Address := serverInfo.privateAddress,
              PublicAddress := serverInfo.publicAddress } :: result)
    | _, _ => none

/-- Go `Get2RandomStorageServers`; `keys` is the enumeration `StorageServerInfoKeys`
returned, `rands` the draws of the random source.  `rand.Intn(0)` panics. -/
def Get2RandomStorageServers (server : NamingServer) (keys : List String) (rands : List Nat) :
    Result (List DiscoveredStorage) :=
  let servers := server.StorageAddresses
  if servers.length = 0 then Result.panic
  else
    match selectLoop keys servers.length rands [] with
    | none => Result.hang
    | some none => Result.panic
    | some (some aliases) =>
      match resolveLoop servers aliases with
      | none => Result.panic
      | some result => Result.ok result

/-! ## naming_server_imp.go: the handlers -/

/-- Go `Register`, after the peer address has been derived: the registry entry is set. -/
def Register (server : NamingServer) (ServerAlias : String) (info : StorageServerInfo) :
    NamingServer :=
  SetAddressMap server ServerAlias info

/-- The loop of `Discover` over `node.Storages`; an alias missing from the registry
faults at `info.privateAddress`. -/
def discoverLoop (servers : List (String × StorageServerInfo)) (exclude : String) :
    List StorageInfo → Option (List DiscoveredStorage)
  | [] => some []
  | storage :: rest =>
    if exclude = storage.Alias then discoverLoop servers exclude rest
    else
      match mapGet servers storage.Alias, discoverLoop servers exclude rest with
      | some info, some storages =>
        some ({ Alias := storage.Alias, Address := info.privateAddress,
                PublicAddress := info.publicAddress } :: storages)
      | _, _ => none

/-- Go `Discover`.  For the empty path every registered replica is returned, here in the
order of the association list (Go's map order is unspecified). -/
def Discover (server : NamingServer) (Path : String) (ExcludeStorageName : String) :
    Result (List DiscoveredStorage) :=
  if Path = "" then
    Result.ok (server.StorageAddresses.map fun e =>
      { Alias := e.1, Address := e.2.privateAddress, PublicAddress := e.2.publicAddress })
  else
    match FindNode server Path with
    | none => Result.ok []
    | some node =>
      match discoverLoop server.StorageAddresses ExcludeStorageName
          (storagesOf server.heap node) with
      | none => Result.panic
      | some storages => Result.ok storages

/-- The loop of `CreateFile` over the chosen servers.  `reply s` is what the replica at
`s` answers to `CreateFile`: `none` for a transport error, else the status code. -/
def placeLoop (reply : DiscoveredStorage → Option Nat) (node : Ptr) :
    List Node → List DiscoveredStorage → List Node
  | heap, [] => heap
  | heap, s :: rest =>
    match reply s with
    | some 0 => placeLoop reply node (addStorage heap node s.Alias) rest
    | _ => placeLoop reply node heap rest

/-- Go `CreateFile`. -/
def CreateFile (server : NamingServer) (keys : List String) (rands : List Nat)
    (reply : DiscoveredStorage → Option Nat) (Path : String) :
    Result (NamingServer × ErrorStatus) :=
  let r := CreateNodeIfNotExists server Path true
  match Get2RandomStorageServers r.1 keys rands with
  | Result.panic => Result.panic
  | Result.hang => Result.hang
  | Result.ok servers =>
    Result.ok ({ r.1 with heap := placeLoop reply r.2 r.1.heap servers },
      { Code := 0, Description := "" })

/-- The replica loop of `Move`: `true` when every alias of the moved node is in the
registry, so that `info.privateAddress` does not fault. -/
def moveDispatch (servers : List (String × StorageServerInfo)) : List StorageInfo → Bool
  | [] => true
  | storage :: rest =>
    match mapGet servers storage.Alias with
    | some _ => moveDispatch servers rest
    | none => false

/-- Go `Move`.  Faults: `DirPart` of a path without `/`, `node.Name = newName` when
`GetChild` returned `nil`, a replica alias missing from the registry. -/
def Move (server : NamingServer) (Path NewPath : String) :
    Result (NamingServer × ErrorStatus) :=
  match DirPart Path with
  | none => Result.panic
  | some oldParentPath =>
    match FindNode server oldParentPath with
    | none => Result.ok (server, { Code := 1, Description := "Old parent node does not exist" })
    | some oldParent =>
      let oldName := NamePart Path
      let newName := NamePart NewPath
      match GetChild server.heap oldParent oldName with
      | none => Result.panic
      | some node =>
        let heap1 := RemoveChild server.heap oldParent oldName
        let heap2 := setName heap1 node newName
        match DirPart NewPath with
        | none => Result.panic
        | some newParentPath =>
          let r := CreateNodeIfNotExists { server with heap := heap2 } newParentPath false
          let heap4 := AddChild r.1.heap r.2 node
          if moveDispatch server.StorageAddresses (storagesOf heap4 node) then
            Result.ok ({ r.1 with heap := heap4 }, { Code := 0, Description := "" })
          else Result.panic

/-- Go `DeleteFile`. -/
def DeleteFile (server : NamingServer) (Path : String) : Result (NamingServer × ErrorStatus) :=
  match DirPart Path with
  | none => Result.panic
  | some parentPath =>
    match FindNode server parentPath with
    | none => Result.ok (server, { Code := ENOENT, Description := "No parent directory found" })
    | some parent =>
      Result.ok ({ server with heap := RemoveChild server.heap parent (NamePart Path) },
        { Code := 0, Description := "" })

/-- Go `DeleteDirectory`. -/
def DeleteDirectory (server : NamingServer) (Path : String) :
    Result (NamingServer × ErrorStatus) :=
  match DirPart Path with
  | none => Result.panic
  | some parentPath =>
    match FindNode server parentPath with
    | none => Result.ok (server, { Code := ENOENT, Description := "No parent directory found" })
    | some parent =>
      Result.ok ({ server with heap := RemoveChild server.heap parent (NamePart Path) },
        { Code := 0, Description := "" })

/-- Go `MakeDirectory`. -/
def MakeDirectory (server : NamingServer) (Path : String) : NamingServer × ErrorStatus :=
  ((CreateNodeIfNotExists server Path false).1, { Code := 0, Description := "" })

/-- Go `pb.NodeMode`. -/
inductive NodeMode where
  | DIRECTORY
  | REGULAR_FILE
deriving DecidableEq, Repr

/-- Go `ListDirectory`: the status and, for each child, its mode and name. -/
def ListDirectory (server : NamingServer) (Path : String) :
    ErrorStatus × List (NodeMode × String) :=
  match FindNode server Path with
  | none => ({ Code := ENOENT, Description := "No such directory" }, [])
  | some node =>
    ({ Code := 0, Description := "" },
      (childrenOf server.heap node).filterMap fun child =>
        match server.heap[child]? with
        | some ch => some (if ch.Typ = DIR then NodeMode.DIRECTORY else NodeMode.REGULAR_FILE,
            ch.Name)
        | none => none)

/-! ## Reachable states -/

/-- States of the naming server reachable from `initNamingServer` by handler calls that
return.  A handler that panics takes the process down.  A `CreateFile` whose selection loop
never stops has already run `CreateNodeIfNotExists`, and that state stays visible to the
other requests (`createFileStuck`). -/
inductive Reachable : NamingServer → Prop where
  | init : Reachable initNamingServer
  | register (s : NamingServer) (a : String) (info : StorageServerInfo) :
      Reachable s → Reachable (Register s a info)
  | makeDirectory (s : NamingServer) (p : String) :
      Reachable s → Reachable (MakeDirectory s p).1
  | createFile (s : NamingServer) (keys : List String) (rands : List Nat)
      (reply : DiscoveredStorage → Option Nat) (p : String) (r : NamingServer × ErrorStatus) :
      Reachable s → keys.Perm (mapKeys s.StorageAddresses) →
      CreateFile s keys rands reply p = Result.ok r → Reachable r.1
  | createFileStuck (s : NamingServer) (p : String) :
      Reachable s → Reachable (CreateNodeIfNotExists s p true).1
  | move (s : NamingServer) (a b : String) (r : NamingServer × ErrorStatus) :
      Reachable s → Move s a b = Result.ok r → Reachable r.1
  | deleteFile (s : NamingServer) (p : String) (r : NamingServer × ErrorStatus) :
      Reachable s → DeleteFile s p = Result.ok r → Reachable r.1
  | deleteDirectory (s : NamingServer) (p : String) (r : NamingServer × ErrorStatus) :
      Reachable s → DeleteDirectory s p = Result.ok r → Reachable r.1

/-- The slice that `RemoveChild` leaves in `n.Children`, as a function of the old slice. -/
def removedChildren (heap : List Node) (name : String) (children : List Ptr) : List Ptr :=
  let index := removeIndex heap name children 0 (-1)
  if index = -1 then children
  else children.take index.toNat ++ children.drop (index.toNat + 1)

/-! ## Predicates on states -/

/-- Every pointer held by the server points to an allocated node: the root pointer and
every entry of every `Children` slice.  Go's memory safety gives this for free. -/
def WellFormed (s : NamingServer) : Prop :=
  s.RootIndexNode < s.heap.length ∧
  ∀ x < s.heap.length, ∀ c ∈ childrenOf s.heap x, c < s.heap.length

/-- The name stored in the node behind a pointer. -/
def nameOf (heap : List Node) (n : Ptr) : Option String :=
  match heap[n]? with
  | some nd => some nd.Name
  | none => none

/-- No node has two children with the same name. -/
def UniqueSiblings (s : NamingServer) : Prop :=
  ∀ x < s.heap.length, ((childrenOf s.heap x).map (nameOf s.heap)).Nodup

/-- The pointer graph is a tree: no node is a child of two different nodes, and the root is
nobody's child. -/
def TreeShaped (s : NamingServer) : Prop :=
  (∀ x < s.heap.length, ∀ y < s.heap.length, ∀ c ∈ childrenOf s.heap x,
      c ∈ childrenOf s.heap y → x = y) ∧
  ∀ x < s.heap.length, s.RootIndexNode ∉ childrenOf s.heap x

/-- Every alias in a node's `Storages` is a key of the registry. -/
def AliasesRegistered (s : NamingServer) : Prop :=
  ∀ x < s.heap.length, ∀ st ∈ storagesOf s.heap x, mapGet s.StorageAddresses st.Alias ≠ none

/-- Every child pointer of the heap points into the heap. -/
def HeapOK (h : List Node) : Prop :=
  ∀ (x c : Nat), c ∈ childrenOf h x → c < h.length

/-- The heap `h2` keeps every node of `h` under the same pointer with the same name, kind
and replicas, and its children slice is the old one with pointers appended. -/
def Ext (h h2 : List Node) : Prop :=
  ∀ (i : Nat) (nd : Node), h[i]? = some nd →
    ∃ nd2 : Node, h2[i]? = some nd2 ∧ nd2.Name = nd.Name ∧ nd2.Typ = nd.Typ ∧
      nd2.Storages = nd.Storages ∧ nd.Children <+: nd2.Children

/-- Every alias stored in a node of the heap `h` is a key of the registry `m`. -/
def RegOK (m : List (String × StorageServerInfo)) (h : List Node) : Prop :=
  ∀ (x : Nat) (st : StorageInfo), st ∈ storagesOf h x → mapGet m st.Alias ≠ none

instance (s : NamingServer) : Decidable (WellFormed s) := by
  unfold WellFormed; exact inferInstance

instance (s : NamingServer) : Decidable (UniqueSiblings s) := by
  unfold UniqueSiblings; exact inferInstance

instance (s : NamingServer) : Decidable (TreeShaped s) := by
  unfold TreeShaped; exact inferInstance

instance (s : NamingServer) : Decidable (AliasesRegistered s) := by
  unfold AliasesRegistered; exact inferInstance

/-! ## Example states -/

/-- The state after `MakeDirectory("/x")` on the initial server. -/
def oneDir : NamingServer := (MakeDirectory initNamingServer "/x").1

/-- The state after `MakeDirectory("/a")` and `MakeDirectory("/b")` on the initial
server. -/
def twoDirs : NamingServer :=
  (MakeDirectory (MakeDirectory initNamingServer "/a").1 "/b").1

/-- Two replicas `A` and `B` registered on the initial server. -/
def twoReplicas : NamingServer :=
  Register
    (Register initNamingServer "A" { privateAddress := "10.0.0.1:7000",
                                     publicAddress := "a.example:7000" })
    "B" { privateAddress := "10.0.0.2:7000", publicAddress := "b.example:7000" }

/-- A replica that answers every `CreateFile` with status 0. -/
def replyOK : DiscoveredStorage → Option Nat := fun _ => some 0

/-- The state after `CreateFile("/f")` on `twoReplicas`, placed on `A` and `B`. -/
def fileOnce : NamingServer :=
  { heap := [{ Name := "", Typ := 0, Children := [1], Storages := [] },
             { Name := "f", Typ := FILE, Children := [],
               Storages := [{ Alias := "A" }, { Alias := "B" }] }]
    RootIndexNode := 0
    StorageAddresses := twoReplicas.StorageAddresses }

/-- The state after a second `CreateFile("/f")`. -/
def fileTwice : NamingServer :=
  { heap := [{ Name := "", Typ := 0, Children := [1], Storages := [] },
             { Name := "f", Typ := FILE, Children := [],
               Storages := [{ Alias := "A" }, { Alias := "B" }, { Alias := "A" },
                            { Alias := "B" }] }]
    RootIndexNode := 0
    StorageAddresses := twoReplicas.StorageAddresses }

/-- The state after `Move("/b", "/a")` on `twoDirs`: the root holds two children named
`a`. -/
def twoNamedA : NamingServer :=
  { heap := [{ Name := "", Typ := 0, Children := [1, 2], Storages := [] },
             { Name := "a", Typ := DIR, Children := [], Storages := [] },
             { Name := "a", Typ := DIR, Children := [], Storages := [] }]
    RootIndexNode := 0
    StorageAddresses := [] }

/-- The namespace part of Go `Move`: the statements before the loop over the replicas.
`ok none` is the early return with code 1 (no old parent); `ok (some (server, node))` is
the state in which the replica loop starts, with the moved node. -/
def MoveNamespace (server : NamingServer) (Path NewPath : String) :
    Result (Option (NamingServer × Ptr)) :=
  match DirPart Path with
  | none => Result.panic
  | some oldParentPath =>
    match FindNode server oldParentPath with
    | none => Result.ok none
    | some oldParent =>
      let oldName := NamePart Path
      let newName := NamePart NewPath
      match GetChild server.heap oldParent oldName with
      | none => Result.panic
      | some node =>
        let heap1 := RemoveChild server.heap oldParent oldName
        let heap2 := setName heap1 node newName
        match DirPart NewPath with
        | none => Result.panic
        | some newParentPath =>
          let r := CreateNodeIfNotExists { server with heap := heap2 } newParentPath false
          Result.ok (some ({ r.1 with heap := AddChild r.1.heap r.2 node }, node))

/-! ## storage_server: the local disk -/

/-- Go `StoragePath`. -/
def StoragePath : String := "storage"

/-- The regular files of a replica's host file system: host path and content, one entry
per path.  Directories are not tracked, so `os.MkdirAll` leaves a `Disk` as it is. -/
abbrev Disk := List (String × List Nat)

/-- The content of the file at a host path, `none` when there is no such file:
`os.OpenFile` without `O_CREATE` succeeds exactly on `some`. -/
def diskGet (disk : Disk) (path : String) : Option (List Nat) :=
  match disk with
  | [] => none
  | (p, c) :: rest => if p = path then some c else diskGet rest path

/-- Replaces the content of an existing file. -/
def diskSet (disk : Disk) (path : String) (content : List Nat) : Disk :=
  match disk with
  | [] => []
  | (p, c) :: rest =>
    if p = path then (p, content) :: rest else (p, c) :: diskSet rest path content

/-- The errors of the host file operations: `io.EOF`, an `*os.PathError`, and
`os.ErrInvalid`. -/
inductive FileError where
  | eof
  | pathError (op path msg : String)
  | invalid
deriving DecidableEq, Repr

/-- Go `err.Error()`. -/
def FileError.Error : FileError → String
  | FileError.eof => "EOF"
  | FileError.pathError op path msg => op ++ " " ++ path ++ ": " ++ msg
  | FileError.invalid => "invalid argument"

/-- Go `os.File.ReadAt(buf, off)` with `count = len(buf)` on a file holding `content`:
the bytes read (`n` is their number) and the error.  A negative offset is an error; the
error is `io.EOF` when fewer than `count` bytes could be read, and `nil` otherwise, so a
read of zero bytes into an empty buffer returns `0, nil`. -/
def ReadAt (name : String) (content : List Nat) (count : Nat) (off : Int) :
    List Nat × Option FileError :=
  if off < 0 then ([], some (FileError.pathError "readat" name "negative offset"))
  else
    let data := (content.drop off.toNat).take count
    (data, if data.length < count then some FileError.eof else none)

/-- Go `os.File.WriteAt(b, off)` on a file holding `content`: the new content and the
error.  A gap between the end of the file and `off` reads as zero bytes; an empty `b`
writes nothing. -/
def WriteAt (name : String) (content : List Nat) (b : List Nat) (off : Int) :
    List Nat × Option FileError :=
  if off < 0 then (content, some (FileError.pathError "writeat" name "negative offset"))
  else if b = [] then (content, none)
  else
    (content.take off.toNat ++ List.replicate (off.toNat - content.length) 0 ++ b ++
      content.drop (off.toNat + b.length), none)

/-! ## storage_server_imp.go: ReadFile and WriteFile -/

/-- Go `pb.ReadFileResult`. -/
structure ReadFileResult where
  ErrorStatus : ErrorStatus
  Buffer : List Nat
  Count : Int
deriving DecidableEq, Repr

/-- Go `ReadFile` of the replica.  Faults: `make([]byte, args.Count)` with a negative
count, and `err.Error()` with `err == nil` on the `n <= 0` branch.  The model covers paths
of regular files and paths with no file: a directory path, which Go opens and then fails
to read, and offsets at the end of the `int64` range, where the host reports an invalid
argument instead of `io.EOF`, are outside it. -/
def ReadFile (disk : Disk) (Path : String) (Offset : Int) (Count : Int) :
    Result ReadFileResult :=
  let path := StoragePath ++ Path
  match diskGet disk path with
  | none =>
    Result.ok { ErrorStatus := { Code := 1, Description := (FileError.pathError "open" path
                  "no such file or directory").Error },
                Buffer := [], Count := 0 }
  | some content =>
    if Count < 0 then Result.panic
    else
      let r := ReadAt path content Count.toNat Offset
      let n : Int := r.1.length
      if n ≤ 0 then
        match r.2 with
        | none => Result.panic
        | some err =>
          Result.ok { ErrorStatus := { Code := 0, Description := err.Error },
                      Buffer := [], Count := 0 }
      else
        Result.ok { ErrorStatus := { Code := 0, Description := "OK" },
                    Buffer := r.1, Count := n }

/-- Go `pb.WriteFileArgs`. -/
structure WriteFileArgs where
  Path : String
  Offset : Int
  Buffer : List Nat
  IsChainCall : Bool
deriving DecidableEq, Repr

/-- The calls a replica sends out while it handles a request: `Discover` to the naming
server, `WriteFile` to the replica at an address. -/
inductive Rpc where
  | Discover (Path ExcludeStorageName : String)
  | WriteFile (address : String) (args : WriteFileArgs)
deriving DecidableEq, Repr

/-- Go `StorageServer`, as far as the handlers read it. -/
structure StorageServer where
  Alias : String
deriving DecidableEq, Repr

/-- The replication loop of Go `WriteFile` over `response.StorageInfo`: the own alias is
skipped, a `nil` client (`dial s.Address = false`) ends the loop, every other entry is
sent the write with `IsChainCall: true`. -/
def fanOut (server : StorageServer) (dial : String → Bool) (args : WriteFileArgs) :
    List DiscoveredStorage → List Rpc
  | [] => []
  | s :: rest =>
    if s.Alias = server.Alias then fanOut server dial args rest
    else if dial s.Address then
      Rpc.WriteFile s.Address
        { Path := args.Path, Offset := args.Offset, Buffer := args.Buffer,
          IsChainCall := true } :: fanOut server dial args rest
    else []

/-- Go `WriteFile` of the replica: the disk afterwards, the calls sent out in order, and
the status returned.  `discovered` is the naming server's answer to `Discover` (`none` for
a transport error). -/
def WriteFile (server : StorageServer) (disk : Disk) (args : WriteFileArgs)
    (discovered : Option (List DiscoveredStorage)) (dial : String → Bool) :
    Disk × List Rpc × ErrorStatus :=
  let path := StoragePath ++ args.Path
  match diskGet disk path with
  | none =>
    (disk, [], { Code := 1, Description := (FileError.pathError "open" path
      "no such file or directory").Error })
  | some content =>
    match WriteAt path content args.Buffer args.Offset with
    | (_, some err) => (disk, [], { Code := 1, Description := err.Error })
    | (content1, none) =>
      let disk1 := diskSet disk path content1
      if !args.IsChainCall then
        (disk1,
          Rpc.Discover args.Path "" ::
            (match discovered with
             | none => []
             | some storageInfo => fanOut server dial args storageInfo),
          { Code := 0, Description := "OK" })
      else (disk1, [], { Code := 0, Description := "OK" })

/-! ## storage_server.go: Sync -/

/-- The two statements `fd, _ := os.OpenFile(path, os.O_WRONLY, os.ModePerm)` and
`fd.WriteAt(buf, offset)` of the copy loop of `Sync`: without `O_CREATE` a missing file
leaves `fd == nil`, on which `WriteAt` returns `os.ErrInvalid` and writes nothing. -/
def openWriteAt (disk : Disk) (path : String) (buf : List Nat) (offset : Int) : Disk :=
  match diskGet disk path with
  | none => disk
  | some content => diskSet disk path (WriteAt path content buf offset).1

/-- The copy loop of Go `Sync` (`for true`), reading from the replica whose disk is
`peer` (`none`: the call fails).  A failed call, and a peer that faults, end the loop. -/
def syncLoop (peer : Option Disk) (filePath : String) : Nat → Disk → Int → Result Disk
  | 0, _, _ => Result.hang
  | fuel + 1, disk, offset =>
    match peer with
    | none => Result.ok disk
    | some peerDisk =>
      match ReadFile peerDisk filePath offset 4096 with
      | Result.ok read =>
        let disk1 := openWriteAt disk (StoragePath ++ filePath) read.Buffer offset
        if read.Count = 0 then Result.ok disk1
        else syncLoop peer filePath fuel disk1 (offset + read.Count)
      | _ => Result.ok disk

/-- The loop of Go `Sync` over `response.Contents`; `recurse` is `Sync` itself on a
sub-directory.  `Discover` runs on the naming server `naming`; when it faults there the
call fails and the file is skipped.  `peers` gives the disk of the replica listening at a
public address. -/
def syncContents (recurse : Disk → String → Result Disk) (fuel : Nat)
    (server : StorageServer) (naming : NamingServer) (peers : String → Option Disk)
    (path : String) : List (NodeMode × String) → Disk → Result Disk
  | [], disk => Result.ok disk
  | content :: rest, disk =>
    if content.1 = NodeMode.DIRECTORY then
      match recurse disk (path ++ "/" ++ content.2) with
      | Result.ok disk1 => syncContents recurse fuel server naming peers path rest disk1
      | Result.panic => Result.panic
      | Result.hang => Result.hang
    else
      let filePath := path ++ "/" ++ content.2
      match Discover naming filePath server.Alias with
      | Result.ok (first :: _) =>
        match syncLoop (peers first.PublicAddress) filePath fuel disk 0 with
        | Result.ok disk1 => syncContents recurse fuel server naming peers path rest disk1
        | Result.panic => Result.panic
        | Result.hang => Result.hang
      | _ => syncContents recurse fuel server naming peers path rest disk

/-- Go `Sync`; `fuel` bounds the depth of the recursion and the rounds of each copy
loop (`hang` when it runs out). -/
def Sync (server : StorageServer) (naming : NamingServer) (peers : String → Option Disk) :
    Nat → Disk → String → Result Disk
  | 0, _, _ => Result.hang
  | fuel + 1, disk, path =>
    syncContents (Sync server naming peers fuel) fuel server naming peers path
      (ListDirectory naming path).2 disk

/-- The nodes of the heap `h` have pairwise different names among their children. -/
def UniqueHeap (h : List Node) : Prop :=
  ∀ (x : Nat), ((childrenOf h x).map (nameOf h)).Nodup

/-- The naming server after `CreateFile("/foo")` placed on replicas `A` and `B`. -/
def fooPlaced : NamingServer :=
  { heap := [{ Name := "", Typ := 0, Children := [1], Storages := [] },
             { Name := "foo", Typ := FILE, Children := [],
               Storages := [{ Alias := "A" }, { Alias := "B" }] }]
    RootIndexNode := 0
    StorageAddresses := twoReplicas.StorageAddresses }

/-- The disk of replica `A`: the file `/foo` with 10,000 bytes. -/
def diskA : Disk := [("storage/foo", List.replicate 10000 7)]

/-- The replicas reachable from the new replica: `A` at its public address. -/
def peersA : String → Option Disk := fun address =>
  if address = "a.example:7000" then some diskA else none

/-! ## Paths: `DirPart`, `NamePart` and the segments -/

theorem splitChars_ne_nil (l : List Char) : splitChars l ≠ [] := by
  cases l with
  | nil => simp [splitChars]
  | cons c cs =>
    simp only [splitChars]
    split
    · simp
    · split <;> simp

theorem splitChars_of_lastSlash_none (l : List Char) (h : lastSlash l = none) :
    splitChars l = [l] := by
  induction l with
  | nil => rfl
  | cons c cs ih =>
    simp only [lastSlash] at h
    cases hcs : lastSlash cs with
    | some j => simp [hcs] at h
    | none =>
      simp only [hcs] at h
      have hc : c ≠ '/' := by
        intro hc
        simp [hc] at h
      simp [splitChars, hc, ih hcs]

theorem splitChars_of_lastSlash (l : List Char) (i : Nat) (h : lastSlash l = some i) :
    splitChars l = splitChars (l.take i) ++ [l.drop (i + 1)] := by
  induction l generalizing i with
  | nil => simp [lastSlash] at h
  | cons c cs ih =>
    simp only [lastSlash] at h
    cases hcs : lastSlash cs with
    | some j =>
      simp only [hcs, Option.some.injEq] at h
      subst h
      have ih1 := ih j hcs
      simp only [List.take_succ_cons, List.drop_succ_cons]
      obtain ⟨a, as, hA⟩ : ∃ a as, splitChars (cs.take j) = a :: as := by
        cases hA : splitChars (cs.take j) with
        | nil => exact absurd hA (splitChars_ne_nil _)
        | cons a as => exact ⟨a, as, rfl⟩
      by_cases hc : c = '/'
      · simp [splitChars, hc, ih1]
      · simp [splitChars, hc, ih1, hA]
    | none =>
      simp only [hcs] at h
      by_cases hc : c = '/'
      · simp only [hc, if_true, Option.some.injEq] at h
        subst h
        simp [splitChars, hc, splitChars_of_lastSlash_none cs hcs]
      · simp [hc] at h

/-- The segments of a path are the segments of its `DirPart` followed by its `NamePart`. -/
theorem segmentsOf_of_DirPart (p d : String) (h : DirPart p = some d) :
    segmentsOf p = segmentsOf d ++ [NamePart p] := by
  unfold DirPart LastIndex at h
  unfold NamePart LastIndex segmentsOf Split
  cases hl : lastSlash p.data with
  | none => simp [hl] at h
  | some i =>
    simp only [hl] at h ⊢
    have hd : d = String.mk (p.data.take i) := by
      have : ¬ ((i : Int) < 0) := by omega
      simp only [this, if_false, Option.some.injEq, Int.toNat_ofNat] at h
      exact h.symm
    subst hd
    have hi : ((i : Int) + 1).toNat = i + 1 := by omega
    rw [hi, splitChars_of_lastSlash _ _ hl]
    cases hA : splitChars (p.data.take i) with
    | nil => exact absurd hA (splitChars_ne_nil _)
    | cons a as => simp

/-! ## Heap operations, read back through `heap[i]?` -/

theorem find?_congr_mem {α : Type} (p q : α → Bool) (l : List α)
    (h : ∀ x ∈ l, p x = q x) : l.find? p = l.find? q := by
  induction l with
  | nil => rfl
  | cons a l ih =>
    have ha : p a = q a := h a (List.mem_cons_self _ _)
    have hl : ∀ x ∈ l, p x = q x := fun x hx => h x (List.mem_cons_of_mem _ hx)
    simp only [List.find?_cons, ha, ih hl]

theorem childrenOf_of_get {h : List Node} {x : Nat} {nd : Node} (hx : h[x]? = some nd) :
    childrenOf h x = nd.Children := by
  simp [childrenOf, hx]

theorem childrenOf_of_none {h : List Node} {x : Nat} (hx : h[x]? = none) :
    childrenOf h x = [] := by
  simp [childrenOf, hx]

theorem get_of_mem_childrenOf {h : List Node} {x c : Nat} (hc : c ∈ childrenOf h x) :
    ∃ nd, h[x]? = some nd ∧ c ∈ nd.Children := by
  cases hx : h[x]? with
  | none => simp [childrenOf, hx] at hc
  | some nd => exact ⟨nd, rfl, by simpa [childrenOf, hx] using hc⟩

theorem lt_of_get {h : List Node} {x : Nat} {nd : Node} (hx : h[x]? = some nd) :
    x < h.length := by
  rcases List.getElem?_eq_some.1 hx with ⟨hlt, _⟩
  exact hlt

theorem get_set (h : List Node) (x i : Nat) (nd v : Node) (hx : h[x]? = some nd) :
    (h.set x v)[i]? = if i = x then some v else h[i]? := by
  have hlt := lt_of_get hx
  by_cases hi : i = x
  · subst hi
    simp [hlt]
  · have : x ≠ i := fun e => hi e.symm
    simp [hi, List.getElem?_set_ne this]

theorem AddChild_length (h : List Node) (x c : Nat) : (AddChild h x c).length = h.length := by
  unfold AddChild
  split <;> simp

theorem AddChild_get (h : List Node) (x c i : Nat) :
    (AddChild h x c)[i]? =
      if i = x then (h[x]?).map (fun nd => { nd with Children := nd.Children ++ [c] })
      else h[i]? := by
  unfold AddChild
  cases hx : h[x]? with
  | none =>
    by_cases hi : i = x
    · subst hi; simp [hx]
    · simp [hi]
  | some nd => simp [get_set h x i nd _ hx]

theorem setName_length (h : List Node) (x : Nat) (nm : String) :
    (setName h x nm).length = h.length := by
  unfold setName
  split <;> simp

theorem setName_get (h : List Node) (x : Nat) (nm : String) (i : Nat) :
    (setName h x nm)[i]? =
      if i = x then (h[x]?).map (fun nd => { nd with Name := nm }) else h[i]? := by
  unfold setName
  cases hx : h[x]? with
  | none =>
    by_cases hi : i = x
    · subst hi; simp [hx]
    · simp [hi]
  | some nd => simp [get_set h x i nd _ hx]

theorem addStorage_length (h : List Node) (x : Nat) (a : String) :
    (addStorage h x a).length = h.length := by
  unfold addStorage
  split <;> simp

theorem addStorage_get (h : List Node) (x : Nat) (a : String) (i : Nat) :
    (addStorage h x a)[i]? =
      if i = x then (h[x]?).map (fun nd => { nd with Storages := nd.Storages ++ [⟨a⟩] })
      else h[i]? := by
  unfold addStorage
  cases hx : h[x]? with
  | none =>
    by_cases hi : i = x
    · subst hi; simp [hx]
    · simp [hi]
  | some nd => simp [get_set h x i nd _ hx]

theorem RemoveChild_length (h : List Node) (x : Nat) (t : String) :
    (RemoveChild h x t).length = h.length := by
  unfold RemoveChild
  split
  · rfl
  · dsimp only
    split <;> simp

theorem RemoveChild_get (h : List Node) (x : Nat) (t : String) (i : Nat) :
    (RemoveChild h x t)[i]? =
      if i = x then
        (h[x]?).map (fun nd => { nd with Children := removedChildren h t nd.Children })
      else h[i]? := by
  unfold RemoveChild
  cases hx : h[x]? with
  | none =>
    by_cases hi : i = x
    · subst hi; simp [hx]
    · simp [hi]
  | some nd =>
    dsimp only
    by_cases hidx : removeIndex h t nd.Children 0 (-1) = -1
    · by_cases hi : i = x
      · subst hi; simp [hidx, hx, removedChildren]
      · simp [hidx, hi]
    · simp [hidx, get_set h x i nd _ hx, removedChildren]

theorem removedChildren_subset (h : List Node) (t : String) (l : List Nat) :
    ∀ c ∈ removedChildren h t l, c ∈ l := by
  intro c hc
  unfold removedChildren at hc
  dsimp only at hc
  split at hc
  · exact hc
  · rcases List.mem_append.1 hc with h1 | h1
    · exact List.mem_of_mem_take h1
    · exact List.mem_of_mem_drop h1

theorem removeIndex_of_no_match (h : List Node) (t : String) (l : List Nat) (i : Nat)
    (idx : Int) (hno : ∀ c ∈ l, nameIs h t c = false) :
    removeIndex h t l i idx = idx := by
  induction l generalizing i idx with
  | nil => rfl
  | cons c l ih =>
    have hc : nameIs h t c = false := hno c (List.mem_cons_self _ _)
    simp only [removeIndex, hc]
    exact ih (i + 1) idx (fun d hd => hno d (List.mem_cons_of_mem _ hd))

theorem removeIndex_of_last_match (h : List Node) (t : String) (l1 l2 : List Nat) (c : Nat)
    (i : Nat) (idx : Int) (hc : nameIs h t c = true)
    (hno : ∀ d ∈ l2, nameIs h t d = false) :
    removeIndex h t (l1 ++ c :: l2) i idx = ((i + l1.length : Nat) : Int) := by
  induction l1 generalizing i idx with
  | nil =>
    simp only [List.nil_append, removeIndex, hc, if_true, List.length_nil, Nat.add_zero]
    exact removeIndex_of_no_match h t l2 (i + 1) _ hno
  | cons a l1 ih =>
    simp only [List.cons_append, removeIndex, List.length_cons]
    have h1 := ih (i + 1) (if nameIs h t a = true then (i : Int) else idx)
    have h2 : i + 1 + l1.length = i + (l1.length + 1) := by omega
    rw [h2] at h1
    exact h1

theorem removedChildren_of_last_match (h : List Node) (t : String) (l1 l2 : List Nat)
    (c : Nat) (hc : nameIs h t c = true) (hno : ∀ d ∈ l2, nameIs h t d = false) :
    removedChildren h t (l1 ++ c :: l2) = l1 ++ l2 := by
  unfold removedChildren
  dsimp only
  rw [removeIndex_of_last_match h t l1 l2 c 0 (-1) hc hno]
  have h1 : ¬ (((0 + l1.length : Nat) : Int) = -1) := by omega
  simp [h1]


/-! ## Walking the tree -/

theorem WellFormed.heapOK {s : NamingServer} (hs : WellFormed s) : HeapOK s.heap := by
  intro x c hc
  rcases get_of_mem_childrenOf hc with ⟨nd, hx, _⟩
  exact hs.2 x (lt_of_get hx) c hc

theorem wellFormed_iff (s : NamingServer) :
    WellFormed s ↔ s.RootIndexNode < s.heap.length ∧ HeapOK s.heap :=
  ⟨fun hs => ⟨hs.1, hs.heapOK⟩, fun hs => ⟨hs.1, fun x _ c hc => hs.2 x c hc⟩⟩

theorem GetChild_mem {h : List Node} {x c : Nat} {t : String} (hg : GetChild h x t = some c) :
    c ∈ childrenOf h x :=
  List.mem_of_find?_eq_some hg

theorem GetChild_nameIs {h : List Node} {x c : Nat} {t : String}
    (hg : GetChild h x t = some c) : nameIs h t c = true :=
  List.find?_some hg

theorem nameIs_iff (h : List Node) (t : String) (c : Nat) :
    nameIs h t c = true ↔ nameOf h c = some t := by
  unfold nameIs nameOf
  cases h[c]? <;> simp

theorem GetChild_congr {h h2 : List Node} {x y : Nat} {t : String}
    (hch : childrenOf h2 y = childrenOf h x)
    (hnm : ∀ c ∈ childrenOf h x, nameIs h2 t c = nameIs h t c) :
    GetChild h2 y t = GetChild h x t := by
  unfold GetChild
  rw [hch]
  exact find?_congr_mem _ _ _ hnm

theorem walk_nil (h : List Node) (x : Nat) : walk h x [] = some x := rfl

theorem walk_cons (h : List Node) (x : Nat) (t : String) (p : List String) :
    walk h x (t :: p) = (GetChild h x t).bind (fun c => walk h c p) := by
  simp only [walk]
  cases GetChild h x t <;> rfl

theorem walk_append (h : List Node) (x : Nat) (p q : List String) :
    walk h x (p ++ q) = (walk h x p).bind (fun y => walk h y q) := by
  induction p generalizing x with
  | nil => simp [walk_nil]
  | cons t p ih =>
    simp only [List.cons_append, walk_cons]
    cases GetChild h x t with
    | none => rfl
    | some c => simpa using ih c

theorem walk_concat (h : List Node) (x : Nat) (p : List String) (t : String) :
    walk h x (p ++ [t]) = (walk h x p).bind (fun y => GetChild h y t) := by
  rw [walk_append]
  congr 1
  funext y
  simp only [walk_cons, walk_nil]
  cases GetChild h y t <;> rfl

/-- A prefix of a path that resolves also resolves. -/
theorem walk_prefix {h : List Node} {x y : Nat} {p q : List String}
    (hw : walk h x q = some y) (hp : p <+: q) : ∃ z, walk h x p = some z := by
  rcases hp with ⟨r, rfl⟩
  rw [walk_append] at hw
  cases hz : walk h x p with
  | none => simp [hz] at hw
  | some z => exact ⟨z, rfl⟩

theorem walk_lt {h : List Node} (hok : HeapOK h) {x y : Nat} {p : List String}
    (hx : x < h.length) (hw : walk h x p = some y) : y < h.length := by
  induction p generalizing x with
  | nil =>
    rw [walk_nil] at hw
    cases hw
    exact hx
  | cons t p ih =>
    rw [walk_cons] at hw
    cases hg : GetChild h x t with
    | none => simp [hg] at hw
    | some c =>
      simp only [hg, Option.some_bind] at hw
      exact ih (hok x c (GetChild_mem hg)) hw

/-! ### Heaps that only grow -/

theorem Ext.refl (h : List Node) : Ext h h :=
  fun _ nd hi => ⟨nd, hi, rfl, rfl, rfl, List.prefix_refl _⟩

theorem Ext.trans {h1 h2 h3 : List Node} (h12 : Ext h1 h2) (h23 : Ext h2 h3) : Ext h1 h3 := by
  intro i nd hi
  rcases h12 i nd hi with ⟨nd2, hi2, hn2, ht2, hs2, hc2⟩
  rcases h23 i nd2 hi2 with ⟨nd3, hi3, hn3, ht3, hs3, hc3⟩
  exact ⟨nd3, hi3, hn3.trans hn2, ht3.trans ht2, hs3.trans hs2, hc2.trans hc3⟩

theorem Ext_nameIs {h h2 : List Node} (he : Ext h h2) {c : Nat} (hc : c < h.length)
    (t : String) : nameIs h2 t c = nameIs h t c := by
  have hget : h[c]? = some h[c] := List.getElem?_eq_getElem hc
  rcases he c _ hget with ⟨nd2, h2c, hn, _, _, _⟩
  simp [nameIs, hget, h2c, hn]

/-- A successful child lookup gives the same child in a grown heap. -/
theorem Ext_GetChild {h h2 : List Node} (he : Ext h h2) (hok : HeapOK h) {x c : Nat}
    {t : String} (hg : GetChild h x t = some c) : GetChild h2 x t = some c := by
  rcases get_of_mem_childrenOf (GetChild_mem hg) with ⟨nd, hx, _⟩
  rcases he x nd hx with ⟨nd2, hx2, _, _, _, ⟨extra, hch⟩⟩
  unfold GetChild at hg ⊢
  rw [childrenOf_of_get hx2, ← hch, List.find?_append]
  rw [childrenOf_of_get hx] at hg
  have hcongr : nd.Children.find? (nameIs h2 t) = nd.Children.find? (nameIs h t) := by
    apply find?_congr_mem
    intro d hd
    have hd2 : d ∈ childrenOf h x := by rw [childrenOf_of_get hx]; exact hd
    exact Ext_nameIs he (hok x d hd2) t
  rw [hcongr, hg]
  rfl

/-- A path that resolves gives the same node in a grown heap. -/
theorem Ext_walk {h h2 : List Node} (he : Ext h h2) (hok : HeapOK h) {x y : Nat}
    {p : List String} (hw : walk h x p = some y) : walk h2 x p = some y := by
  induction p generalizing x with
  | nil => simpa [walk_nil] using hw
  | cons t p ih =>
    rw [walk_cons] at hw ⊢
    cases hg : GetChild h x t with
    | none => simp [hg] at hw
    | some c =>
      simp only [hg, Option.some_bind] at hw
      rw [Ext_GetChild he hok hg]
      exact ih hw

theorem Ext_append (h : List Node) (nd : Node) : Ext h (h ++ [nd]) := by
  intro i n hi
  refine ⟨n, ?_, rfl, rfl, rfl, List.prefix_refl _⟩
  rw [List.getElem?_append_left (lt_of_get hi)]
  exact hi

theorem Ext_AddChild (h : List Node) (x c : Nat) : Ext h (AddChild h x c) := by
  intro i nd hi
  rw [AddChild_get]
  by_cases hix : i = x
  · subst hix
    simp only [if_true, hi, Option.map_some']
    exact ⟨_, rfl, rfl, rfl, rfl, List.prefix_append _ _⟩
  · simp only [hix, if_false]
    exact ⟨nd, hi, rfl, rfl, rfl, List.prefix_refl _⟩

theorem HeapOK_append {h : List Node} (hok : HeapOK h) (nd : Node) (hnd : nd.Children = []) :
    HeapOK (h ++ [nd]) := by
  intro x c hc
  rcases get_of_mem_childrenOf hc with ⟨n, hx, hcn⟩
  simp only [List.length_append, List.length_singleton]
  by_cases hlt : x < h.length
  · rw [List.getElem?_append_left hlt] at hx
    have := hok x c (by rw [childrenOf_of_get hx]; exact hcn)
    omega
  · have hge : h.length ≤ x := by omega
    rw [List.getElem?_append_right hge] at hx
    have hx0 : x - h.length = 0 := by
      have h1 : x - h.length < [nd].length := lt_of_get hx
      simp only [List.length_singleton] at h1
      omega
    rw [hx0] at hx
    simp only [List.getElem?_cons_zero, Option.some.injEq] at hx
    subst hx
    rw [hnd] at hcn
    simp at hcn

theorem HeapOK_AddChild {h : List Node} (hok : HeapOK h) (x c : Nat) (hc : c < h.length) :
    HeapOK (AddChild h x c) := by
  intro y d hd
  rcases get_of_mem_childrenOf hd with ⟨n, hy, hdn⟩
  rw [AddChild_length]
  rw [AddChild_get] at hy
  by_cases hyx : y = x
  · subst hyx
    simp only [if_true] at hy
    cases hx : h[y]? with
    | none => simp [hx] at hy
    | some nd =>
      simp only [hx, Option.map_some', Option.some.injEq] at hy
      subst hy
      rcases List.mem_append.1 hdn with h1 | h1
      · exact hok y d (by rw [childrenOf_of_get hx]; exact h1)
      · rw [List.mem_singleton] at h1; omega
  · simp only [hyx, if_false] at hy
    exact hok y d (by rw [childrenOf_of_get hy]; exact hdn)


/-! ### `CreateNodeIfNotExists` -/

theorem createLoop_nil (f : Bool) (last : String) (h : List Node) (x : Nat) :
    createLoop f last h x [] = (h, x) := rfl

theorem createLoop_cons_some (f : Bool) (last : String) (h : List Node) (x c : Nat)
    (t : String) (p : List String) (hg : GetChild h x t = some c) :
    createLoop f last h x (t :: p) = createLoop f last h c p := by
  simp only [createLoop, hg]

theorem createLoop_cons_none (f : Bool) (last : String) (h : List Node) (x : Nat)
    (t : String) (p : List String) (hg : GetChild h x t = none) :
    ∃ nd : Node, nd.Name = t ∧ nd.Children = [] ∧ nd.Storages = [] ∧
      nd.Typ = (if f && decide (t = last) then FILE else DIR) ∧
      createLoop f last h x (t :: p) =
        createLoop f last (AddChild (h ++ [nd]) x h.length) h.length p :=
  ⟨{ Name := t, Typ := if f && decide (t = last) then FILE else DIR, Children := [],
     Storages := [] }, rfl, rfl, rfl, rfl, by simp only [createLoop, hg]⟩

/-- On a path that already resolves, `CreateNodeIfNotExists` changes nothing and returns
the node `FindNode` finds. -/
theorem createLoop_of_walk (f : Bool) (last : String) (h : List Node) (x q : Nat)
    (p : List String) (hw : walk h x p = some q) : createLoop f last h x p = (h, q) := by
  induction p generalizing x with
  | nil =>
    rw [walk_nil] at hw
    cases hw
    rfl
  | cons t p ih =>
    rw [walk_cons] at hw
    cases hg : GetChild h x t with
    | none => simp [hg] at hw
    | some c =>
      simp only [hg, Option.some_bind] at hw
      rw [createLoop_cons_some f last h x c t p hg]
      exact ih c hw

/-- The heap after one allocation step of the loop. -/
theorem alloc_get_new (h : List Node) (x : Nat) (nd : Node) (hx : x < h.length) :
    (AddChild (h ++ [nd]) x h.length)[h.length]? = some nd := by
  rw [AddChild_get]
  have hne : h.length ≠ x := by omega
  simp [hne]

theorem alloc_get_old (h : List Node) (x i : Nat) (nd : Node) (hi : i < h.length)
    (hix : i ≠ x) : (AddChild (h ++ [nd]) x h.length)[i]? = h[i]? := by
  rw [AddChild_get]
  simp only [hix, if_false]
  exact List.getElem?_append_left hi

theorem alloc_children (h : List Node) (x : Nat) (nd : Node) (hx : x < h.length) :
    childrenOf (AddChild (h ++ [nd]) x h.length) x = childrenOf h x ++ [h.length] := by
  have hget : h[x]? = some h[x] := List.getElem?_eq_getElem hx
  have h1 : (AddChild (h ++ [nd]) x h.length)[x]? =
      some { h[x] with Children := h[x].Children ++ [h.length] } := by
    rw [AddChild_get]
    simp only [if_true]
    rw [List.getElem?_append_left hx, hget]
    rfl
  rw [childrenOf_of_get h1, childrenOf_of_get hget]

theorem alloc_Ext (h : List Node) (x : Nat) (nd : Node) :
    Ext h (AddChild (h ++ [nd]) x h.length) :=
  (Ext_append h nd).trans (Ext_AddChild _ _ _)

theorem alloc_HeapOK {h : List Node} (hok : HeapOK h) (x : Nat) (nd : Node)
    (hnd : nd.Children = []) : HeapOK (AddChild (h ++ [nd]) x h.length) := by
  apply HeapOK_AddChild (HeapOK_append hok nd hnd)
  simp

theorem alloc_GetChild (h : List Node) (hok : HeapOK h) (x : Nat) (nd : Node)
    (hx : x < h.length) (hg : GetChild h x nd.Name = none) :
    GetChild (AddChild (h ++ [nd]) x h.length) x nd.Name = some h.length := by
  unfold GetChild at hg ⊢
  rw [alloc_children h x nd hx, List.find?_append]
  have hcongr : (childrenOf h x).find? (nameIs (AddChild (h ++ [nd]) x h.length) nd.Name) =
      (childrenOf h x).find? (nameIs h nd.Name) := by
    apply find?_congr_mem
    intro d hd
    exact Ext_nameIs (alloc_Ext h x nd) (hok x d hd) _
  rw [hcongr, hg]
  simp [nameIs, alloc_get_new h x nd hx]

theorem alloc_GetChild_other (h : List Node) (hok : HeapOK h) (x : Nat) (nd : Node)
    (hx : x < h.length) (t : String) (ht : t ≠ nd.Name) :
    GetChild (AddChild (h ++ [nd]) x h.length) x t = GetChild h x t := by
  unfold GetChild
  rw [alloc_children h x nd hx, List.find?_append]
  have hcongr : (childrenOf h x).find? (nameIs (AddChild (h ++ [nd]) x h.length) t) =
      (childrenOf h x).find? (nameIs h t) := by
    apply find?_congr_mem
    intro d hd
    exact Ext_nameIs (alloc_Ext h x nd) (hok x d hd) _
  rw [hcongr]
  have hne : ¬ nd.Name = t := fun e => ht e.symm
  have hnew : nameIs (AddChild (h ++ [nd]) x h.length) t h.length = false := by
    simp [nameIs, alloc_get_new h x nd hx, hne]
  cases (childrenOf h x).find? (nameIs h t) with
  | some c => rfl
  | none => simp [hnew]

/-- What `CreateNodeIfNotExists` guarantees on every path: the heap only grows, the
returned pointer is allocated, and `FindNode` on the same path now returns it. -/
theorem createLoop_spec (f : Bool) (last : String) (h : List Node) (x : Nat)
    (p : List String) (hok : HeapOK h) (hx : x < h.length) :
    HeapOK (createLoop f last h x p).1 ∧ Ext h (createLoop f last h x p).1 ∧
    (createLoop f last h x p).2 < (createLoop f last h x p).1.length ∧
    walk (createLoop f last h x p).1 x p = some (createLoop f last h x p).2 ∧
    h.length ≤ (createLoop f last h x p).1.length := by
  induction p generalizing h x with
  | nil => exact ⟨hok, Ext.refl h, hx, rfl, le_refl _⟩
  | cons t p ih =>
    cases hg : GetChild h x t with
    | some c =>
      rw [createLoop_cons_some f last h x c t p hg]
      have hc : c < h.length := hok x c (GetChild_mem hg)
      obtain ⟨h1, h2, h3, h4, h5⟩ := ih h c hok hc
      refine ⟨h1, h2, h3, ?_, h5⟩
      rw [walk_cons, Ext_GetChild h2 hok hg]
      exact h4
    | none =>
      obtain ⟨nd, hname, hch, _, _, heq⟩ := createLoop_cons_none f last h x t p hg
      rw [heq]
      have hok2 := alloc_HeapOK hok x nd hch
      have hlen : (AddChild (h ++ [nd]) x h.length).length = h.length + 1 := by
        rw [AddChild_length]; simp
      obtain ⟨h1, h2, h3, h4, h5⟩ :=
        ih (AddChild (h ++ [nd]) x h.length) h.length hok2 (by rw [hlen]; omega)
      refine ⟨h1, (alloc_Ext h x nd).trans h2, h3, ?_, by omega⟩
      have hg2 : GetChild (AddChild (h ++ [nd]) x h.length) x t = some h.length := by
        rw [← hname] at hg ⊢
        exact alloc_GetChild h hok x nd hx hg
      rw [walk_cons, Ext_GetChild h2 hok2 hg2]
      exact h4

/-- From a node without children the loop only allocates: no older node other than the
starting one is touched. -/
theorem createLoop_chain (f : Bool) (last : String) (h : List Node) (y : Nat)
    (p : List String) (hy : y < h.length) (hleaf : childrenOf h y = []) :
    (∀ i, i < h.length → i ≠ y → (createLoop f last h y p).1[i]? = h[i]?) ∧
    ((createLoop f last h y p).2 = y ∨ h.length ≤ (createLoop f last h y p).2) ∧
    childrenOf (createLoop f last h y p).1 (createLoop f last h y p).2 = [] := by
  induction p generalizing h y with
  | nil => exact ⟨fun _ _ _ => rfl, Or.inl rfl, hleaf⟩
  | cons t p ih =>
    have hg : GetChild h y t = none := by
      unfold GetChild
      rw [hleaf]
      rfl
    obtain ⟨nd, _, hch, _, _, heq⟩ := createLoop_cons_none f last h y t p hg
    rw [heq]
    have hlen : (AddChild (h ++ [nd]) y h.length).length = h.length + 1 := by
      rw [AddChild_length]; simp
    have hnew : childrenOf (AddChild (h ++ [nd]) y h.length) h.length = [] := by
      rw [childrenOf_of_get (alloc_get_new h y nd hy)]
      exact hch
    obtain ⟨h1, h2, h3⟩ :=
      ih (AddChild (h ++ [nd]) y h.length) h.length (by rw [hlen]; omega) hnew
    refine ⟨?_, ?_, h3⟩
    · intro i hi hiy
      rw [h1 i (by rw [hlen]; omega) (by omega)]
      exact alloc_get_old h y i nd hi hiy
    · right
      rcases h2 with h2 | h2
      · exact le_of_eq h2.symm
      · exact le_trans (by rw [hlen]; exact Nat.le_succ _) h2


/-- Nodes allocated by the loop carry no replicas, and are directories unless the loop was
asked for a file. -/
theorem createLoop_new_nodes (f : Bool) (last : String) (h : List Node) (x : Nat)
    (p : List String) (hok : HeapOK h) (hx : x < h.length) :
    ∀ (i : Nat) (nd : Node), h.length ≤ i → (createLoop f last h x p).1[i]? = some nd →
      nd.Storages = [] ∧ (f = false → nd.Typ = DIR) := by
  induction p generalizing h x with
  | nil =>
    intro i nd hi hget
    rw [createLoop_nil] at hget
    have hlt : i < h.length := lt_of_get hget
    omega
  | cons t p ih =>
    cases hg : GetChild h x t with
    | some c =>
      rw [createLoop_cons_some f last h x c t p hg]
      exact ih h c hok (hok x c (GetChild_mem hg))
    | none =>
      obtain ⟨nd, hname, hch, hst, htyp, heq⟩ := createLoop_cons_none f last h x t p hg
      rw [heq]
      have hok2 := alloc_HeapOK hok x nd hch
      have hlen : (AddChild (h ++ [nd]) x h.length).length = h.length + 1 := by
        rw [AddChild_length]; simp
      have hlt : h.length < (AddChild (h ++ [nd]) x h.length).length := by rw [hlen]; omega
      intro i n hi hget
      by_cases hi2 : i = h.length
      · subst hi2
        obtain ⟨_, he, _, _, _⟩ :=
          createLoop_spec f last (AddChild (h ++ [nd]) x h.length) h.length p hok2 hlt
        rcases he h.length nd (alloc_get_new h x nd hx) with ⟨n2, hn2, _, ht2, hs2, _⟩
        rw [hget] at hn2
        cases hn2
        refine ⟨hs2.trans hst, fun hf => ?_⟩
        rw [ht2, htyp, hf]
        rfl
      · exact ih (AddChild (h ++ [nd]) x h.length) h.length hok2 hlt i n
          (by rw [hlen]; omega) hget

/-- On a path that does not resolve, `CreateNodeIfNotExists` appends one pointer to the
children of the last node the path reaches (`X`) and allocates the rest: every other old
node is untouched, lookups at `X` for other names are unchanged, and the returned node is
new and has no children. -/
theorem createLoop_frame (f : Bool) (last : String) (h : List Node) (x : Nat)
    (p : List String) (hok : HeapOK h) (hx : x < h.length) (hw : walk h x p = none) :
    ∃ (pre : List String) (s : String) (rest : List String) (X : Nat),
      p = pre ++ s :: rest ∧ walk h x pre = some X ∧ GetChild h X s = none ∧
      (∀ i, i < h.length → i ≠ X → (createLoop f last h x p).1[i]? = h[i]?) ∧
      (∀ t, t ≠ s → GetChild (createLoop f last h x p).1 X t = GetChild h X t) ∧
      h.length ≤ (createLoop f last h x p).2 ∧
      childrenOf (createLoop f last h x p).1 (createLoop f last h x p).2 = [] := by
  induction p generalizing x with
  | nil => simp [walk_nil] at hw
  | cons t p ih =>
    cases hg : GetChild h x t with
    | some c =>
      rw [walk_cons, hg] at hw
      simp only [Option.some_bind] at hw
      obtain ⟨pre, s, rest, X, hp, hwx, hgx, h1, h2, h3, h4⟩ :=
        ih c (hok x c (GetChild_mem hg)) hw
      rw [createLoop_cons_some f last h x c t p hg]
      refine ⟨t :: pre, s, rest, X, by rw [hp]; rfl, ?_, hgx, h1, h2, h3, h4⟩
      rw [walk_cons, hg]
      exact hwx
    | none =>
      obtain ⟨nd, hname, hch, _, _, heq⟩ := createLoop_cons_none f last h x t p hg
      rw [heq]
      have hok2 := alloc_HeapOK hok x nd hch
      have hlen : (AddChild (h ++ [nd]) x h.length).length = h.length + 1 := by
        rw [AddChild_length]; simp
      have hlt : h.length < (AddChild (h ++ [nd]) x h.length).length := by rw [hlen]; omega
      have hnew : childrenOf (AddChild (h ++ [nd]) x h.length) h.length = [] := by
        rw [childrenOf_of_get (alloc_get_new h x nd hx)]
        exact hch
      obtain ⟨c1, c2, c3⟩ :=
        createLoop_chain f last (AddChild (h ++ [nd]) x h.length) h.length p hlt hnew
      obtain ⟨_, he, _, _, _⟩ :=
        createLoop_spec f last (AddChild (h ++ [nd]) x h.length) h.length p hok2 hlt
      refine ⟨[], t, p, x, rfl, rfl, hg, ?_, ?_, ?_, c3⟩
      · intro i hi hix
        rw [c1 i (by rw [hlen]; omega) (by omega)]
        exact alloc_get_old h x i nd hi hix
      · intro t2 ht2
        have hxx : (createLoop f last (AddChild (h ++ [nd]) x h.length) h.length p).1[x]? =
            (AddChild (h ++ [nd]) x h.length)[x]? :=
          c1 x (by rw [hlen]; omega) (by omega)
        have hch2 : childrenOf
            (createLoop f last (AddChild (h ++ [nd]) x h.length) h.length p).1 x =
            childrenOf (AddChild (h ++ [nd]) x h.length) x := by
          unfold childrenOf
          rw [hxx]
        rw [GetChild_congr hch2 (fun d hd => Ext_nameIs he (hok2 x d hd) t2)]
        exact alloc_GetChild_other h hok x nd hx t2 (by rw [hname]; exact ht2)
      · rcases c2 with c2 | c2
        · exact le_of_eq c2.symm
        · exact le_trans (by rw [hlen]; exact Nat.le_succ _) c2

/-! ### Paths whose lookups are unchanged -/

/-- If two heaps give the same child for every lookup made at a node reached by `q` for
a name `t`, except where `q ++ [t]` is marked `bad`, then every path of which no prefix is
bad resolves alike in both. -/
theorem walk_frame (h h2 : List Node) (r : Nat) (bad : List String → Prop)
    (hsame : ∀ (q : List String) (x : Nat) (t : String), walk h r q = some x →
      ¬ bad (q ++ [t]) → GetChild h2 x t = GetChild h x t)
    (q : List String) (x : Nat) (p : List String) (hq : walk h r q = some x)
    (hp : ∀ p0, p0 <+: q ++ p → ¬ bad p0) : walk h2 x p = walk h x p := by
  induction p generalizing q x with
  | nil => rfl
  | cons t p ih =>
    have hb : ¬ bad (q ++ [t]) := by
      apply hp
      exact ⟨p, by simp⟩
    rw [walk_cons, walk_cons, hsame q x t hq hb]
    cases hg : GetChild h x t with
    | none => rfl
    | some c =>
      simp only [Option.some_bind]
      apply ih (q ++ [t]) c
      · rw [walk_concat, hq]
        exact hg
      · intro p0 hp0
        apply hp
        simpa using hp0

/-- In a tree-shaped heap a node is reached from the root by one segment list only. -/
theorem walk_injective (h : List Node) (r : Nat)
    (hpar : ∀ (x y c : Nat), c ∈ childrenOf h x → c ∈ childrenOf h y → x = y)
    (hroot : ∀ (x : Nat), r ∉ childrenOf h x) :
    ∀ (p q : List String) (x : Nat), walk h r p = some x → walk h r q = some x → p = q := by
  intro p
  induction p using List.reverseRecOn with
  | nil =>
    intro q x hp hq
    rw [walk_nil] at hp
    cases hp
    rcases List.eq_nil_or_concat q with rfl | ⟨q1, t, rfl⟩
    · rfl
    · rw [List.concat_eq_append, walk_concat] at hq
      cases hy : walk h r q1 with
      | none => simp [hy] at hq
      | some y =>
        simp only [hy, Option.some_bind] at hq
        exact absurd (GetChild_mem hq) (hroot y)
  | append_singleton p1 s ih =>
    intro q x hp hq
    rw [walk_concat] at hp
    cases hy : walk h r p1 with
    | none => simp [hy] at hp
    | some y =>
      simp only [hy, Option.some_bind] at hp
      rcases List.eq_nil_or_concat q with rfl | ⟨q1, t, rfl⟩
      · rw [walk_nil] at hq
        cases hq
        exact absurd (GetChild_mem hp) (hroot y)
      · rw [List.concat_eq_append, walk_concat] at hq
        cases hz : walk h r q1 with
        | none => simp [hz] at hq
        | some z =>
          simp only [hz, Option.some_bind] at hq
          have hyz : y = z := hpar y z x (GetChild_mem hp) (GetChild_mem hq)
          subst hyz
          have hpq : p1 = q1 := ih q1 y hy hz
          have hs : nameOf h x = some s := (nameIs_iff h s x).1 (GetChild_nameIs hp)
          have ht : nameOf h x = some t := (nameIs_iff h t x).1 (GetChild_nameIs hq)
          rw [hs] at ht
          cases ht
          rw [hpq, List.concat_eq_append]


/-! ### Lookups after the pointer operations -/

theorem nameIs_AddChild (h : List Node) (y c : Nat) (t : String) (d : Nat) :
    nameIs (AddChild h y c) t d = nameIs h t d := by
  unfold nameIs
  rw [AddChild_get]
  by_cases hd : d = y
  · subst hd
    cases h[d]? <;> simp
  · simp [hd]

theorem childrenOf_AddChild_ne (h : List Node) (y c x : Nat) (hx : x ≠ y) :
    childrenOf (AddChild h y c) x = childrenOf h x := by
  unfold childrenOf
  rw [AddChild_get]
  simp [hx]

theorem childrenOf_AddChild_self (h : List Node) (y c : Nat) (hy : y < h.length) :
    childrenOf (AddChild h y c) y = childrenOf h y ++ [c] := by
  have hget : h[y]? = some h[y] := List.getElem?_eq_getElem hy
  unfold childrenOf
  rw [AddChild_get]
  simp [hget]

theorem GetChild_AddChild_ne (h : List Node) (y c x : Nat) (t : String) (hx : x ≠ y) :
    GetChild (AddChild h y c) x t = GetChild h x t :=
  GetChild_congr (childrenOf_AddChild_ne h y c x hx) (fun d _ => nameIs_AddChild h y c t d)

theorem GetChild_AddChild_other (h : List Node) (y c : Nat) (t : String) (hy : y < h.length)
    (hc : nameIs h t c = false) : GetChild (AddChild h y c) y t = GetChild h y t := by
  unfold GetChild
  rw [childrenOf_AddChild_self h y c hy, List.find?_append]
  have h1 : (childrenOf h y).find? (nameIs (AddChild h y c) t) =
      (childrenOf h y).find? (nameIs h t) :=
    find?_congr_mem _ _ _ (fun d _ => nameIs_AddChild h y c t d)
  rw [h1]
  cases (childrenOf h y).find? (nameIs h t) with
  | some e => rfl
  | none => simp [nameIs_AddChild, hc]

theorem GetChild_AddChild_new (h : List Node) (y c : Nat) (t : String) (hy : y < h.length)
    (hg : GetChild h y t = none) (hc : nameIs h t c = true) :
    GetChild (AddChild h y c) y t = some c := by
  unfold GetChild at hg ⊢
  rw [childrenOf_AddChild_self h y c hy, List.find?_append]
  have h1 : (childrenOf h y).find? (nameIs (AddChild h y c) t) =
      (childrenOf h y).find? (nameIs h t) :=
    find?_congr_mem _ _ _ (fun d _ => nameIs_AddChild h y c t d)
  rw [h1, hg]
  simp [nameIs_AddChild, hc]

theorem nameIs_RemoveChild (h : List Node) (y : Nat) (s t : String) (d : Nat) :
    nameIs (RemoveChild h y s) t d = nameIs h t d := by
  unfold nameIs
  rw [RemoveChild_get]
  by_cases hd : d = y
  · subst hd
    cases h[d]? <;> simp
  · simp [hd]

theorem childrenOf_RemoveChild_ne (h : List Node) (y : Nat) (s : String) (x : Nat)
    (hx : x ≠ y) : childrenOf (RemoveChild h y s) x = childrenOf h x := by
  unfold childrenOf
  rw [RemoveChild_get]
  simp [hx]

theorem childrenOf_RemoveChild_self (h : List Node) (y : Nat) (s : String) :
    childrenOf (RemoveChild h y s) y = removedChildren h s (childrenOf h y) := by
  unfold childrenOf
  rw [RemoveChild_get]
  cases hy : h[y]? with
  | none =>
    simp only [if_true, Option.map_none']
    unfold removedChildren
    simp [removeIndex]
  | some nd => simp

theorem nameIs_setName_ne (h : List Node) (n : Nat) (nm t : String) (d : Nat) (hd : d ≠ n) :
    nameIs (setName h n nm) t d = nameIs h t d := by
  unfold nameIs
  rw [setName_get]
  simp [hd]

theorem nameIs_setName_self (h : List Node) (n : Nat) (nm : String) (hn : n < h.length) :
    nameIs (setName h n nm) nm n = true := by
  have hget : h[n]? = some h[n] := List.getElem?_eq_getElem hn
  unfold nameIs
  rw [setName_get]
  simp [hget]

theorem nameIs_setName_other (h : List Node) (n : Nat) (nm t : String) (ht : t ≠ nm) :
    nameIs (setName h n nm) t n = false := by
  unfold nameIs
  rw [setName_get]
  have hne : ¬ nm = t := fun e => ht e.symm
  cases h[n]? <;> simp [hne]

theorem childrenOf_setName (h : List Node) (n : Nat) (nm : String) (x : Nat) :
    childrenOf (setName h n nm) x = childrenOf h x := by
  unfold childrenOf
  rw [setName_get]
  by_cases hx : x = n
  · subst hx
    cases h[x]? <;> simp
  · simp [hx]

theorem childrenOf_addStorage (h : List Node) (n : Nat) (a : String) (x : Nat) :
    childrenOf (addStorage h n a) x = childrenOf h x := by
  unfold childrenOf
  rw [addStorage_get]
  by_cases hx : x = n
  · subst hx
    cases h[x]? <;> simp
  · simp [hx]

theorem nameIs_addStorage (h : List Node) (n : Nat) (a t : String) (d : Nat) :
    nameIs (addStorage h n a) t d = nameIs h t d := by
  unfold nameIs
  rw [addStorage_get]
  by_cases hd : d = n
  · subst hd
    cases h[d]? <;> simp
  · simp [hd]

theorem HeapOK_RemoveChild {h : List Node} (hok : HeapOK h) (y : Nat) (s : String) :
    HeapOK (RemoveChild h y s) := by
  intro x c hc
  rw [RemoveChild_length]
  by_cases hx : x = y
  · subst hx
    rw [childrenOf_RemoveChild_self] at hc
    exact hok x c (removedChildren_subset h s _ c hc)
  · rw [childrenOf_RemoveChild_ne h y s x hx] at hc
    exact hok x c hc

theorem HeapOK_setName {h : List Node} (hok : HeapOK h) (n : Nat) (nm : String) :
    HeapOK (setName h n nm) := by
  intro x c hc
  rw [setName_length]
  rw [childrenOf_setName] at hc
  exact hok x c hc

theorem HeapOK_addStorage {h : List Node} (hok : HeapOK h) (n : Nat) (a : String) :
    HeapOK (addStorage h n a) := by
  intro x c hc
  rw [addStorage_length]
  rw [childrenOf_addStorage] at hc
  exact hok x c hc

/-- Two heaps with the same children slices and the same names resolve every path alike. -/
theorem walk_congr (h h2 : List Node) (hch : ∀ x, childrenOf h2 x = childrenOf h x)
    (hnm : ∀ t d, nameIs h2 t d = nameIs h t d) (x : Nat) (p : List String) :
    walk h2 x p = walk h x p := by
  induction p generalizing x with
  | nil => rfl
  | cons t p ih =>
    rw [walk_cons, walk_cons, GetChild_congr (hch x) (fun d _ => hnm t d)]
    cases GetChild h x t with
    | none => rfl
    | some c => exact ih c

theorem walk_addStorage (h : List Node) (n : Nat) (a : String) (x : Nat) (p : List String) :
    walk (addStorage h n a) x p = walk h x p :=
  walk_congr h _ (childrenOf_addStorage h n a) (nameIs_addStorage h n a) x p


/-! ### `Move`: detaching the node -/

/-- With unique names among the children of `P`, the child `GetChild` returns splits the
slice into a part before it and a part after it, neither holding the name again. -/
theorem detach_split (h : List Node) (P n : Nat) (no : String)
    (hn : GetChild h P no = some n)
    (huniq : ((childrenOf h P).map (nameOf h)).Nodup) :
    ∃ l1 l2, childrenOf h P = l1 ++ n :: l2 ∧ (∀ d ∈ l1, nameIs h no d = false) ∧
      (∀ d ∈ l2, nameIs h no d = false) := by
  have hnm : nameIs h no n = true := GetChild_nameIs hn
  unfold GetChild at hn
  rcases List.find?_eq_some.1 hn with ⟨_, l1, l2, hsplit, hl1⟩
  refine ⟨l1, l2, hsplit, ?_, ?_⟩
  · intro d hd
    have := hl1 d hd
    simpa using this
  · intro d hd
    rw [hsplit, List.map_append, List.map_cons] at huniq
    have h1 := (List.nodup_cons.1 (List.nodup_middle.1 huniq)).1
    cases hdn : nameIs h no d with
    | false => rfl
    | true =>
      exfalso
      apply h1
      have e1 : nameOf h n = some no := (nameIs_iff h no n).1 hnm
      have e2 : nameOf h d = some no := (nameIs_iff h no d).1 hdn
      rw [e1, ← e2]
      exact List.mem_append_right _ (List.mem_map_of_mem _ hd)

theorem nameIs_false_of_other (h : List Node) (n : Nat) (no t : String)
    (hnm : nameIs h no n = true) (ht : t ≠ no) : nameIs h t n = false := by
  cases hb : nameIs h t n with
  | false => rfl
  | true =>
    have e1 := (nameIs_iff h no n).1 hnm
    have e2 := (nameIs_iff h t n).1 hb
    rw [e1] at e2
    cases e2
    exact absurd rfl ht

/-- Lookups in the heap after `RemoveChild` and the renaming, against the heap before. -/
theorem detach_lookup (h : List Node) (P n : Nat) (no nn : String)
    (hn : GetChild h P no = some n)
    (huniq : ((childrenOf h P).map (nameOf h)).Nodup)
    (hpar : ∀ (x : Nat), n ∈ childrenOf h x → x = P) (hnP : n ≠ P) :
    (∀ (x : Nat) (t : String), x ≠ P →
      GetChild (setName (RemoveChild h P no) n nn) x t = GetChild h x t) ∧
    (∀ t, t ≠ no → GetChild (setName (RemoveChild h P no) n nn) P t = GetChild h P t) ∧
    GetChild (setName (RemoveChild h P no) n nn) P no = none ∧
    (∀ (x : Nat), n ∉ childrenOf (setName (RemoveChild h P no) n nn) x) := by
  have hnm : nameIs h no n = true := GetChild_nameIs hn
  obtain ⟨l1, l2, hsplit, hl1, hl2⟩ := detach_split h P n no hn huniq
  have hn1 : n ∉ l1 := fun hm => by
    have := hl1 n hm
    rw [hnm] at this
    cases this
  have hn2 : n ∉ l2 := fun hm => by
    have := hl2 n hm
    rw [hnm] at this
    cases this
  have hchP : childrenOf (setName (RemoveChild h P no) n nn) P = l1 ++ l2 := by
    rw [childrenOf_setName, childrenOf_RemoveChild_self, hsplit]
    exact removedChildren_of_last_match h no l1 l2 n hnm hl2
  have hname : ∀ (t : String) (d : Nat), d ≠ n →
      nameIs (setName (RemoveChild h P no) n nn) t d = nameIs h t d := by
    intro t d hd
    rw [nameIs_setName_ne _ _ _ _ _ hd, nameIs_RemoveChild]
  have hfind : ∀ t, (l1 ++ l2).find? (nameIs (setName (RemoveChild h P no) n nn) t) =
      (l1 ++ l2).find? (nameIs h t) := by
    intro t
    apply find?_congr_mem
    intro d hd
    apply hname
    intro hdn
    subst hdn
    rcases List.mem_append.1 hd with hd | hd
    · exact hn1 hd
    · exact hn2 hd
  refine ⟨?_, ?_, ?_, ?_⟩
  · intro x t hx
    apply GetChild_congr
    · rw [childrenOf_setName, childrenOf_RemoveChild_ne h P no x hx]
    · intro d hd
      apply hname
      intro hdn
      subst hdn
      exact hx (hpar x hd)
  · intro t ht
    unfold GetChild
    rw [hchP, hfind t, hsplit, List.find?_append, List.find?_append, List.find?_cons,
      nameIs_false_of_other h n no t hnm ht]
  · unfold GetChild
    rw [hchP, hfind no, List.find?_eq_none]
    intro d hd
    rcases List.mem_append.1 hd with hd | hd
    · simp [hl1 d hd]
    · simp [hl2 d hd]
  · intro x hx
    by_cases hxP : x = P
    · subst hxP
      rw [hchP] at hx
      rcases List.mem_append.1 hx with hd | hd
      · exact hn1 hd
      · exact hn2 hd
    · rw [childrenOf_setName, childrenOf_RemoveChild_ne h P no x hxP] at hx
      exact hxP (hpar x hx)


/-! ### `Move` on a tree-shaped heap -/

/-- The namespace part of `Move` on a tree-shaped heap: `P` is the old parent reached by
`so`, `n` its child named `no`; the new path `sn ++ [nn]` does not resolve and does not
extend the old one.  Afterwards the old path does not resolve, the new path resolves to
`n`, the node behind `n` differs only in its name, and the nodes below `n` are unchanged. -/
theorem move_core (h : List Node) (r P n : Nat) (so sn : List String) (no nn last : String)
    (hok : HeapOK h) (hr : r < h.length)
    (hpar : ∀ (x y c : Nat), c ∈ childrenOf h x → c ∈ childrenOf h y → x = y)
    (hroot : ∀ (x : Nat), r ∉ childrenOf h x)
    (huniq : ((childrenOf h P).map (nameOf h)).Nodup)
    (hP : walk h r so = some P) (hn : GetChild h P no = some n)
    (hnew : walk h r (sn ++ [nn]) = none)
    (hnp : ¬ (so ++ [no]) <+: (sn ++ [nn]))
    (h2 h3 h4 : List Node) (Q : Nat)
    (e2 : h2 = setName (RemoveChild h P no) n nn)
    (e3 : createLoop false last h2 r sn = (h3, Q))
    (e4 : h4 = AddChild h3 Q n) :
    walk h4 r (so ++ [no]) = none ∧ walk h4 r (sn ++ [nn]) = some n ∧
    h4[n]? = (h[n]?).map (fun nd => { nd with Name := nn }) ∧
    ∀ (p : List String) (m : Nat), p ≠ [] → walk h n p = some m → h4[m]? = h[m]? := by
  have hinj := walk_injective h r hpar hroot
  have hold : walk h r (so ++ [no]) = some n := by
    rw [walk_concat, hP]
    exact hn
  have hnlt : n < h.length := hok P n (GetChild_mem hn)
  have hnP : n ≠ P := by
    intro e
    have hcontra := hinj _ _ _ hold (e ▸ hP)
    have hl := congrArg List.length hcontra
    simp at hl
  obtain ⟨hL1, hL2, hL3, _⟩ := detach_lookup h P n no nn hn huniq
    (fun x hx => hpar x P n hx (GetChild_mem hn)) hnP
  rw [← e2] at hL1 hL2 hL3
  -- paths that do not pass through the old path resolve as before
  have hrem : ∀ p, ¬ (so ++ [no]) <+: p → walk h2 r p = walk h r p := by
    intro p hp
    apply walk_frame h h2 r (fun p0 => p0 = so ++ [no]) ?_ [] r p rfl
    · intro p0 hp0 e
      rw [List.nil_append] at hp0
      exact hp (e ▸ hp0)
    · intro q x t hq hb
      by_cases hx : x = P
      · subst hx
        have hqso : q = so := hinj _ _ _ hq hP
        apply hL2
        intro e
        apply hb
        rw [hqso, e]
      · exact hL1 x t hx
  have hso2 : walk h2 r so = some P := by
    rw [hrem so ?_]
    · exact hP
    · intro hpre
      have hl := hpre.length_le
      simp at hl
  have hold2 : ∀ rest, walk h2 r (so ++ [no] ++ rest) = none := by
    intro rest
    rw [walk_append, walk_concat, hso2]
    simp [hL3]
  have hreach : ∀ p y, walk h2 r p = some y → walk h r p = some y := by
    intro p y hw
    by_cases hp : (so ++ [no]) <+: p
    · rcases hp with ⟨rest, rfl⟩
      rw [hold2] at hw
      cases hw
    · rw [← hrem p hp]
      exact hw
  have hinj2 : ∀ (p q : List String) (x : Nat),
      walk h2 r p = some x → walk h2 r q = some x → p = q :=
    fun p q x hp hq => hinj p q x (hreach p x hp) (hreach q x hq)
  have hbelow : ∀ (p : List String) (m : Nat), walk h n p = some m →
      ∀ q, walk h2 r q ≠ some m := by
    intro p m hm q hw
    have h1 : walk h r (so ++ [no] ++ p) = some m := by
      rw [walk_append, hold]
      exact hm
    have h2' := hinj _ _ _ (hreach q m hw) h1
    subst h2'
    rw [hold2] at hw
    cases hw
  have hlen2 : h2.length = h.length := by rw [e2, setName_length, RemoveChild_length]
  have hok2 : HeapOK h2 := by
    rw [e2]
    exact HeapOK_setName (HeapOK_RemoveChild hok P no) n nn
  have hr2 : r < h2.length := by omega
  have hspec := createLoop_spec false last h2 r sn hok2 hr2
  rw [e3] at hspec
  obtain ⟨hok3, hext, hQlt, hwQ, hlen3⟩ := hspec
  simp only at hok3 hext hQlt hwQ hlen3
  have hnn2 : nameIs h2 nn n = true := by
    rw [e2]
    exact nameIs_setName_self _ n nn (by rw [RemoveChild_length]; exact hnlt)
  have hnn3 : nameIs h3 nn n = true := by
    rw [Ext_nameIs hext (by omega) nn]
    exact hnn2
  have hnew2 : walk h2 r (sn ++ [nn]) = none := by
    rw [hrem _ hnp]
    exact hnew
  have hcase : GetChild h3 Q nn = none ∧
      (∀ (m : Nat), m < h2.length → (∀ q, walk h2 r q ≠ some m) → h3[m]? = h2[m]? ∧ m ≠ Q) ∧
      walk h4 r (so ++ [no]) = walk h2 r (so ++ [no]) := by
    cases hw2 : walk h2 r sn with
    | some Q1 =>
      have e3a := createLoop_of_walk false last h2 r Q1 sn hw2
      rw [e3] at e3a
      have eh : h3 = h2 := congrArg Prod.fst e3a
      have eQ : Q = Q1 := congrArg Prod.snd e3a
      have hQ1 : Q1 < h2.length := by rw [← eh, ← eQ]; exact hQlt
      refine ⟨?_, ?_, ?_⟩
      · rw [walk_concat, hw2] at hnew2
        rw [eh, eQ]
        exact hnew2
      · intro m _ hm
        refine ⟨by rw [eh], ?_⟩
        intro e
        rw [eQ] at e
        exact hm sn (e ▸ hw2)
      · apply walk_frame h2 h4 r (fun p0 => p0 = sn ++ [nn]) ?_ [] r _ rfl
        · intro p0 hp0 e
          rw [List.nil_append] at hp0
          subst e
          rcases walk_prefix hold hp0 with ⟨z, hz⟩
          rw [hnew] at hz
          cases hz
        · intro q x t hq hb
          rw [e4, eh, eQ]
          by_cases hx : x = Q1
          · subst hx
            have hqsn : q = sn := hinj2 _ _ _ hq hw2
            have ht : t ≠ nn := by
              intro e
              apply hb
              rw [hqsn, e]
            exact GetChild_AddChild_other h2 x n t hQ1
              (nameIs_false_of_other h2 n nn t hnn2 ht)
          · exact GetChild_AddChild_ne h2 Q1 n x t hx
    | none =>
      obtain ⟨pre, s, rest, X, hsn, hwX, hgX, hfr, hoth, hQge, hQch⟩ :=
        createLoop_frame false last h2 r sn hok2 hr2 hw2
      rw [e3] at hfr hoth hQge hQch
      simp only at hfr hoth hQge hQch
      refine ⟨?_, ?_, ?_⟩
      · unfold GetChild
        rw [hQch]
        rfl
      · intro m hmlt hm
        refine ⟨hfr m hmlt ?_, by omega⟩
        intro e
        exact hm pre (e ▸ hwX)
      · apply walk_frame h2 h4 r (fun p0 => p0 = pre ++ [s]) ?_ [] r _ rfl
        · intro p0 hp0 e
          rw [List.nil_append] at hp0
          subst e
          rcases walk_prefix hold hp0 with ⟨z, hz⟩
          have hnone : walk h2 r (pre ++ [s]) = none := by
            rw [walk_concat, hwX]
            exact hgX
          by_cases hpre : (so ++ [no]) <+: pre ++ [s]
          · apply hnp
            apply hpre.trans
            rw [hsn]
            exact ⟨rest ++ [nn], by simp⟩
          · rw [hrem _ hpre, hz] at hnone
            cases hnone
        · intro q x t hq hb
          have hxlt : x < h2.length := walk_lt hok2 hr2 hq
          have hxQ : x ≠ Q := by omega
          rw [e4, GetChild_AddChild_ne h3 Q n x t hxQ]
          by_cases hx : x = X
          · subst hx
            have hqpre : q = pre := hinj2 _ _ _ hq hwX
            apply hoth
            intro e
            apply hb
            rw [hqpre, e]
          · have hget : h3[x]? = h2[x]? := hfr x hxlt hx
            apply GetChild_congr
            · unfold childrenOf
              rw [hget]
            · intro d hd
              exact Ext_nameIs hext (hok2 x d hd) t
  obtain ⟨hF1, hF2, hF3⟩ := hcase
  have hn2 : h2[n]? = (h[n]?).map (fun nd => { nd with Name := nn }) := by
    rw [e2, setName_get, RemoveChild_get]
    simp [hnP]
  have hnQ := hF2 n (by omega) (hbelow [] n rfl)
  refine ⟨?_, ?_, ?_, ?_⟩
  · rw [hF3]
    simpa using hold2 []
  · rw [walk_concat, Ext_walk (e4 ▸ Ext_AddChild h3 Q n) hok3 hwQ, e4]
    exact GetChild_AddChild_new h3 Q n nn hQlt hF1 hnn3
  · rw [e4, AddChild_get, if_neg hnQ.2, hnQ.1, hn2]
  · intro p m hp hm
    have hmlt : m < h.length := walk_lt hok hnlt hm
    have hmQ := hF2 m (by omega) (hbelow p m hm)
    have h1 : walk h r (so ++ [no] ++ p) = some m := by
      rw [walk_append, hold]
      exact hm
    have hmn : m ≠ n := by
      intro e
      subst e
      have hc := hinj _ _ _ h1 hold
      simp at hc
      exact hp hc
    have hmP : m ≠ P := by
      intro e
      subst e
      have hc := congrArg List.length (hinj _ _ _ h1 hP)
      simp at hc
    have hm2 : h2[m]? = h[m]? := by
      rw [e2, setName_get, if_neg hmn, RemoveChild_get, if_neg hmP]
    rw [e4, AddChild_get, if_neg hmQ.2, hmQ.1, hm2]


/-! ## The handlers, case by case -/

/-- The two ways `Move` returns: the old parent is missing (code 1, state unchanged), or
the node is detached, renamed and attached under the new parent (code 0). -/
theorem Move_ok_cases (s : NamingServer) (a b : String) (r : NamingServer × ErrorStatus)
    (hm : Move s a b = Result.ok r) :
    (∃ d, DirPart a = some d ∧ FindNode s d = none ∧
      r = (s, { Code := 1, Description := "Old parent node does not exist" })) ∨
    (∃ (d d2 : String) (P n : Nat), DirPart a = some d ∧ FindNode s d = some P ∧
      GetChild s.heap P (NamePart a) = some n ∧ DirPart b = some d2 ∧
      r = ({ heap := AddChild
              (createLoop false ((segmentsOf d2).getLastD "")
                (setName (RemoveChild s.heap P (NamePart a)) n (NamePart b))
                s.RootIndexNode (segmentsOf d2)).1
              (createLoop false ((segmentsOf d2).getLastD "")
                (setName (RemoveChild s.heap P (NamePart a)) n (NamePart b))
                s.RootIndexNode (segmentsOf d2)).2 n,
             RootIndexNode := s.RootIndexNode,
             StorageAddresses := s.StorageAddresses },
           { Code := 0, Description := "" })) := by
  unfold Move at hm
  cases hd : DirPart a with
  | none => simp [hd] at hm
  | some d =>
    simp only [hd] at hm
    cases hP : FindNode s d with
    | none =>
      simp only [hP, Result.ok.injEq] at hm
      exact Or.inl ⟨d, rfl, hP, hm.symm⟩
    | some P =>
      simp only [hP] at hm
      cases hn : GetChild s.heap P (NamePart a) with
      | none => simp [hn] at hm
      | some n =>
        simp only [hn] at hm
        cases hd2 : DirPart b with
        | none => simp [hd2] at hm
        | some d2 =>
          simp only [hd2] at hm
          split at hm
          · simp only [Result.ok.injEq] at hm
            exact Or.inr ⟨d, d2, P, n, rfl, hP, hn, rfl, hm.symm⟩
          · cases hm

/-- The two ways `DeleteFile` returns. -/
theorem DeleteFile_ok_cases (s : NamingServer) (p : String) (r : NamingServer × ErrorStatus)
    (hm : DeleteFile s p = Result.ok r) :
    ∃ d, DirPart p = some d ∧
      ((FindNode s d = none ∧
          r = (s, { Code := ENOENT, Description := "No parent directory found" })) ∨
       (∃ P : Nat, FindNode s d = some P ∧
          r = ({ s with heap := RemoveChild s.heap P (NamePart p) },
               { Code := 0, Description := "" }))) := by
  unfold DeleteFile at hm
  cases hd : DirPart p with
  | none => simp [hd] at hm
  | some d =>
    simp only [hd] at hm
    refine ⟨d, rfl, ?_⟩
    cases hP : FindNode s d with
    | none =>
      simp only [hP, Result.ok.injEq] at hm
      exact Or.inl ⟨rfl, hm.symm⟩
    | some P =>
      simp only [hP, Result.ok.injEq] at hm
      exact Or.inr ⟨P, rfl, hm.symm⟩

/-- The two ways `DeleteDirectory` returns. -/
theorem DeleteDirectory_ok_cases (s : NamingServer) (p : String)
    (r : NamingServer × ErrorStatus) (hm : DeleteDirectory s p = Result.ok r) :
    ∃ d, DirPart p = some d ∧
      ((FindNode s d = none ∧
          r = (s, { Code := ENOENT, Description := "No parent directory found" })) ∨
       (∃ P : Nat, FindNode s d = some P ∧
          r = ({ s with heap := RemoveChild s.heap P (NamePart p) },
               { Code := 0, Description := "" }))) := by
  unfold DeleteDirectory at hm
  cases hd : DirPart p with
  | none => simp [hd] at hm
  | some d =>
    simp only [hd] at hm
    refine ⟨d, rfl, ?_⟩
    cases hP : FindNode s d with
    | none =>
      simp only [hP, Result.ok.injEq] at hm
      exact Or.inl ⟨rfl, hm.symm⟩
    | some P =>
      simp only [hP, Result.ok.injEq] at hm
      exact Or.inr ⟨P, rfl, hm.symm⟩

/-- How `Get2RandomStorageServers` returns: the selection loop stopped on two aliases and
both were resolved in the registry. -/
theorem Get2Random_ok_cases (s : NamingServer) (keys : List String) (rands : List Nat)
    (servers : List DiscoveredStorage)
    (hg : Get2RandomStorageServers s keys rands = Result.ok servers) :
    ∃ aliases, selectLoop keys s.StorageAddresses.length rands [] = some (some aliases) ∧
      resolveLoop s.StorageAddresses aliases = some servers := by
  unfold Get2RandomStorageServers at hg
  dsimp only at hg
  split at hg
  · cases hg
  · split at hg
    · cases hg
    · cases hg
    · rename_i aliases hsel
      split at hg
      · cases hg
      · rename_i result hres
        simp only [Result.ok.injEq] at hg
        subst hg
        exact ⟨aliases, hsel, hres⟩

/-- How `CreateFile` returns. -/
theorem CreateFile_ok_cases (s : NamingServer) (keys : List String) (rands : List Nat)
    (reply : DiscoveredStorage → Option Nat) (p : String) (r : NamingServer × ErrorStatus)
    (hc : CreateFile s keys rands reply p = Result.ok r) :
    ∃ servers, Get2RandomStorageServers (CreateNodeIfNotExists s p true).1 keys rands =
        Result.ok servers ∧
      r = ({ (CreateNodeIfNotExists s p true).1 with
              heap := placeLoop reply (CreateNodeIfNotExists s p true).2
                (CreateNodeIfNotExists s p true).1.heap servers },
           { Code := 0, Description := "" }) := by
  unfold CreateFile at hc
  dsimp only at hc
  split at hc
  · cases hc
  · cases hc
  · rename_i servers hget
    simp only [Result.ok.injEq] at hc
    exact ⟨servers, hget, hc.symm⟩


/-! ## Invariants of the reachable states -/

theorem get_of_mem_storagesOf {h : List Node} {x : Nat} {st : StorageInfo}
    (hst : st ∈ storagesOf h x) : ∃ nd, h[x]? = some nd ∧ st ∈ nd.Storages := by
  cases hx : h[x]? with
  | none => simp [storagesOf, hx] at hst
  | some nd => exact ⟨nd, rfl, by simpa [storagesOf, hx] using hst⟩

theorem storagesOf_of_get {h : List Node} {x : Nat} {nd : Node} (hx : h[x]? = some nd) :
    storagesOf h x = nd.Storages := by
  simp [storagesOf, hx]

theorem aliasesRegistered_iff (s : NamingServer) :
    AliasesRegistered s ↔ RegOK s.StorageAddresses s.heap := by
  constructor
  · intro hs x st hst
    rcases get_of_mem_storagesOf hst with ⟨nd, hx, _⟩
    exact hs x (lt_of_get hx) st hst
  · intro hs x _ st hst
    exact hs x st hst

theorem storagesOf_AddChild (h : List Node) (y c x : Nat) :
    storagesOf (AddChild h y c) x = storagesOf h x := by
  unfold storagesOf
  rw [AddChild_get]
  by_cases hx : x = y
  · subst hx
    cases h[x]? <;> simp
  · simp [hx]

theorem storagesOf_RemoveChild (h : List Node) (y : Nat) (s : String) (x : Nat) :
    storagesOf (RemoveChild h y s) x = storagesOf h x := by
  unfold storagesOf
  rw [RemoveChild_get]
  by_cases hx : x = y
  · subst hx
    cases h[x]? <;> simp
  · simp [hx]

theorem storagesOf_setName (h : List Node) (n : Nat) (nm : String) (x : Nat) :
    storagesOf (setName h n nm) x = storagesOf h x := by
  unfold storagesOf
  rw [setName_get]
  by_cases hx : x = n
  · subst hx
    cases h[x]? <;> simp
  · simp [hx]

theorem storagesOf_addStorage_ne (h : List Node) (n : Nat) (a : String) (x : Nat)
    (hx : x ≠ n) : storagesOf (addStorage h n a) x = storagesOf h x := by
  unfold storagesOf
  rw [addStorage_get]
  simp [hx]

theorem storagesOf_addStorage_self (h : List Node) (n : Nat) (a : String)
    (hn : n < h.length) :
    storagesOf (addStorage h n a) n = storagesOf h n ++ [⟨a⟩] := by
  have hget : h[n]? = some h[n] := List.getElem?_eq_getElem hn
  unfold storagesOf
  rw [addStorage_get]
  simp [hget]

theorem mem_storagesOf_addStorage (h : List Node) (n : Nat) (a : String) (x : Nat)
    (st : StorageInfo) (hst : st ∈ storagesOf (addStorage h n a) x) :
    st ∈ storagesOf h x ∨ st = ⟨a⟩ := by
  by_cases hx : x = n
  · subst hx
    by_cases hn : x < h.length
    · rw [storagesOf_addStorage_self h x a hn] at hst
      rcases List.mem_append.1 hst with h1 | h1
      · exact Or.inl h1
      · exact Or.inr (List.mem_singleton.1 h1)
    · have hlen : (addStorage h x a).length ≤ x := by rw [addStorage_length]; omega
      rw [storagesOf, List.getElem?_eq_none hlen] at hst
      cases hst
  · rw [storagesOf_addStorage_ne h n a x hx] at hst
    exact Or.inl hst

/-- `CreateNodeIfNotExists` gives no node a replica it did not have. -/
theorem mem_storagesOf_createLoop (f : Bool) (last : String) (h : List Node) (x : Nat)
    (p : List String) (hok : HeapOK h) (hx : x < h.length) (i : Nat) (st : StorageInfo)
    (hst : st ∈ storagesOf (createLoop f last h x p).1 i) : st ∈ storagesOf h i := by
  rcases get_of_mem_storagesOf hst with ⟨nd2, hi2, hmem⟩
  obtain ⟨_, hext, _, _, _⟩ := createLoop_spec f last h x p hok hx
  by_cases hi : i < h.length
  · have hget : h[i]? = some h[i] := List.getElem?_eq_getElem hi
    rcases hext i _ hget with ⟨nd3, hi3, _, _, hs3, _⟩
    rw [hi2] at hi3
    cases hi3
    rw [storagesOf_of_get hget, ← hs3]
    exact hmem
  · have hnew := (createLoop_new_nodes f last h x p hok hx i nd2 (by omega) hi2).1
    rw [hnew] at hmem
    cases hmem

theorem mapGet_mapSet_ne_none (m : List (String × StorageServerInfo)) (k a : String)
    (v : StorageServerInfo) (ha : mapGet m a ≠ none) : mapGet (mapSet m k v) a ≠ none := by
  induction m with
  | nil => simp [mapGet] at ha
  | cons e m ih =>
    obtain ⟨k1, v1⟩ := e
    simp only [mapSet]
    by_cases hk : k1 = k
    · simp only [hk, if_true, mapGet]
      by_cases hka : k = a
      · simp [hka]
      · simp only [hka, if_false]
        simp only [mapGet, hk, hka, if_false] at ha
        exact ha
    · simp only [hk, if_false, mapGet]
      by_cases hka : k1 = a
      · simp [hka]
      · simp only [hka, if_false]
        simp only [mapGet, hka, if_false] at ha
        exact ih ha

/-- Every server `resolveLoop` returns carries a registered alias and the addresses the
registry holds for it, and the aliases come out in the order they went in. -/
theorem resolveLoop_spec (m : List (String × StorageServerInfo)) (aliases : List String)
    (servers : List DiscoveredStorage) (hr : resolveLoop m aliases = some servers) :
    servers.map DiscoveredStorage.Alias = aliases ∧
    ∀ sv ∈ servers, mapGet m sv.Alias =
      some { privateAddress := sv.Address, publicAddress := sv.PublicAddress } := by
  induction aliases generalizing servers with
  | nil =>
    simp only [resolveLoop, Option.some.injEq] at hr
    subst hr
    simp
  | cons a rest ih =>
    simp only [resolveLoop] at hr
    cases hg : mapGet m a with
    | none => simp [hg] at hr
    | some info =>
      cases hrest : resolveLoop m rest with
      | none => simp [hg, hrest] at hr
      | some result =>
        simp only [hg, hrest, Option.some.injEq] at hr
        subst hr
        obtain ⟨h1, h2⟩ := ih result hrest
        refine ⟨by simp [h1], ?_⟩
        intro sv hsv
        rcases List.mem_cons.1 hsv with e | e
        · subst e
          simp [hg]
        · exact h2 sv e

theorem placeLoop_length (reply : DiscoveredStorage → Option Nat) (node : Nat)
    (h : List Node) (servers : List DiscoveredStorage) :
    (placeLoop reply node h servers).length = h.length := by
  induction servers generalizing h with
  | nil => rfl
  | cons sv rest ih =>
    simp only [placeLoop]
    split
    · rw [ih, addStorage_length]
    · exact ih h

theorem placeLoop_childrenOf (reply : DiscoveredStorage → Option Nat) (node : Nat)
    (h : List Node) (servers : List DiscoveredStorage) (x : Nat) :
    childrenOf (placeLoop reply node h servers) x = childrenOf h x := by
  induction servers generalizing h with
  | nil => rfl
  | cons sv rest ih =>
    simp only [placeLoop]
    split
    · rw [ih, childrenOf_addStorage]
    · exact ih h

theorem placeLoop_nameIs (reply : DiscoveredStorage → Option Nat) (node : Nat)
    (h : List Node) (servers : List DiscoveredStorage) (t : String) (d : Nat) :
    nameIs (placeLoop reply node h servers) t d = nameIs h t d := by
  induction servers generalizing h with
  | nil => rfl
  | cons sv rest ih =>
    simp only [placeLoop]
    split
    · rw [ih, nameIs_addStorage]
    · exact ih h

theorem walk_placeLoop (reply : DiscoveredStorage → Option Nat) (node : Nat)
    (h : List Node) (servers : List DiscoveredStorage) (x : Nat) (p : List String) :
    walk (placeLoop reply node h servers) x p = walk h x p :=
  walk_congr h _ (placeLoop_childrenOf reply node h servers)
    (placeLoop_nameIs reply node h servers) x p

theorem mem_storagesOf_placeLoop (reply : DiscoveredStorage → Option Nat) (node : Nat)
    (h : List Node) (servers : List DiscoveredStorage) (x : Nat) (st : StorageInfo)
    (hst : st ∈ storagesOf (placeLoop reply node h servers) x) :
    st ∈ storagesOf h x ∨ ∃ sv ∈ servers, st = ⟨sv.Alias⟩ := by
  induction servers generalizing h with
  | nil => exact Or.inl hst
  | cons sv rest ih =>
    simp only [placeLoop] at hst
    split at hst
    · rcases ih _ hst with h1 | ⟨sv2, hsv2, e⟩
      · rcases mem_storagesOf_addStorage h node sv.Alias x st h1 with h2 | h2
        · exact Or.inl h2
        · exact Or.inr ⟨sv, List.mem_cons_self _ _, h2⟩
      · exact Or.inr ⟨sv2, List.mem_cons_of_mem _ hsv2, e⟩
    · rcases ih _ hst with h1 | ⟨sv2, hsv2, e⟩
      · exact Or.inl h1
      · exact Or.inr ⟨sv2, List.mem_cons_of_mem _ hsv2, e⟩

theorem CreateNodeIfNotExists_inv (s : NamingServer) (p : String) (f : Bool)
    (hwf : WellFormed s) (hreg : AliasesRegistered s) :
    WellFormed (CreateNodeIfNotExists s p f).1 ∧
    AliasesRegistered (CreateNodeIfNotExists s p f).1 := by
  rw [wellFormed_iff] at hwf ⊢
  rw [aliasesRegistered_iff] at hreg ⊢
  obtain ⟨hx, hok⟩ := hwf
  obtain ⟨h1, _, _, _, h5⟩ :=
    createLoop_spec f ((segmentsOf p).getLastD "") s.heap s.RootIndexNode (segmentsOf p) hok hx
  refine ⟨⟨?_, h1⟩, ?_⟩
  · exact lt_of_lt_of_le hx h5
  · intro x st hst
    exact hreg x st (mem_storagesOf_createLoop f _ s.heap s.RootIndexNode _ hok hx x st hst)

/-- Every reachable state is well formed and stores only registered aliases. -/
theorem reachable_inv (s : NamingServer) (hs : Reachable s) :
    WellFormed s ∧ AliasesRegistered s := by
  induction hs with
  | init => exact ⟨by decide, by decide⟩
  | register s a info _ ih =>
    refine ⟨ih.1, ?_⟩
    intro x hx st hst
    exact mapGet_mapSet_ne_none _ _ _ _ (ih.2 x hx st hst)
  | makeDirectory s p _ ih => exact CreateNodeIfNotExists_inv s p false ih.1 ih.2
  | createFile s keys rands reply p r _ _ hc ih =>
    obtain ⟨servers, hget, hr⟩ := CreateFile_ok_cases s keys rands reply p r hc
    obtain ⟨aliases, _, hres⟩ := Get2Random_ok_cases _ keys rands servers hget
    obtain ⟨_, hsv⟩ := resolveLoop_spec _ aliases servers hres
    obtain ⟨hwf1, hreg1⟩ := CreateNodeIfNotExists_inv s p true ih.1 ih.2
    rw [wellFormed_iff] at hwf1 ⊢
    rw [aliasesRegistered_iff] at hreg1 ⊢
    subst hr
    refine ⟨⟨?_, ?_⟩, ?_⟩
    · show _ < (placeLoop _ _ _ _).length
      rw [placeLoop_length]
      exact hwf1.1
    · intro x c hc
      show c < (placeLoop _ _ _ _).length
      rw [placeLoop_length]
      apply hwf1.2 x c
      have hc2 : c ∈ childrenOf (placeLoop reply (CreateNodeIfNotExists s p true).2
          (CreateNodeIfNotExists s p true).1.heap servers) x := hc
      rw [placeLoop_childrenOf] at hc2
      exact hc2
    · intro x st hst
      have hst2 : st ∈ storagesOf (placeLoop reply (CreateNodeIfNotExists s p true).2
          (CreateNodeIfNotExists s p true).1.heap servers) x := hst
      rcases mem_storagesOf_placeLoop _ _ _ _ _ _ hst2 with h1 | ⟨sv, hsv1, e⟩
      · exact hreg1 x st h1
      · subst e
        have := hsv sv hsv1
        show mapGet (CreateNodeIfNotExists s p true).1.StorageAddresses sv.Alias ≠ none
        rw [this]
        simp
  | createFileStuck s p _ ih => exact CreateNodeIfNotExists_inv s p true ih.1 ih.2
  | move s a b r _ hm ih =>
    rcases Move_ok_cases s a b r hm with ⟨d, _, _, hr⟩ | ⟨d, d2, P, n, _, hP, hn, _, hr⟩
    · subst hr
      exact ih
    · obtain ⟨hwf, hreg⟩ := ih
      rw [wellFormed_iff] at hwf
      rw [aliasesRegistered_iff] at hreg
      obtain ⟨hx, hok⟩ := hwf
      have hPlt : P < s.heap.length := walk_lt hok hx hP
      have hnlt : n < s.heap.length := hok P n (GetChild_mem hn)
      have hok2 : HeapOK (setName (RemoveChild s.heap P (NamePart a)) n (NamePart b)) :=
        HeapOK_setName (HeapOK_RemoveChild hok P _) n _
      have hlen2 : (setName (RemoveChild s.heap P (NamePart a)) n (NamePart b)).length =
          s.heap.length := by rw [setName_length, RemoveChild_length]
      obtain ⟨h1, _, _, _, h5⟩ := createLoop_spec false ((segmentsOf d2).getLastD "")
        (setName (RemoveChild s.heap P (NamePart a)) n (NamePart b)) s.RootIndexNode
        (segmentsOf d2) hok2 (by rw [hlen2]; exact hx)
      subst hr
      rw [wellFormed_iff, aliasesRegistered_iff]
      refine ⟨⟨?_, ?_⟩, ?_⟩
      · show s.RootIndexNode < (AddChild _ _ _).length
        rw [AddChild_length]
        exact lt_of_lt_of_le (by rw [hlen2]; exact hx) h5
      · exact HeapOK_AddChild h1 _ n (by omega)
      · intro x st hst
        have hst2 : st ∈ storagesOf (AddChild
          (createLoop false ((segmentsOf d2).getLastD "")
            (setName (RemoveChild s.heap P (NamePart a)) n (NamePart b))
            s.RootIndexNode (segmentsOf d2)).1
          (createLoop false ((segmentsOf d2).getLastD "")
            (setName (RemoveChild s.heap P (NamePart a)) n (NamePart b))
            s.RootIndexNode (segmentsOf d2)).2 n) x := hst
        rw [storagesOf_AddChild] at hst2
        have hst3 := mem_storagesOf_createLoop false _ _ _ _ hok2 (by rw [hlen2]; exact hx)
          x st hst2
        rw [storagesOf_setName, storagesOf_RemoveChild] at hst3
        exact hreg x st hst3
  | deleteFile s p r _ hm ih =>
    obtain ⟨d, _, hcase⟩ := DeleteFile_ok_cases s p r hm
    rcases hcase with ⟨_, hr⟩ | ⟨P, _, hr⟩
    · subst hr
      exact ih
    · subst hr
      obtain ⟨hwf, hreg⟩ := ih
      rw [wellFormed_iff] at hwf ⊢
      rw [aliasesRegistered_iff] at hreg ⊢
      refine ⟨⟨?_, HeapOK_RemoveChild hwf.2 P _⟩, ?_⟩
      · show s.RootIndexNode < (RemoveChild _ _ _).length
        rw [RemoveChild_length]
        exact hwf.1
      · intro x st hst
        have hst2 : st ∈ storagesOf (RemoveChild s.heap P (NamePart p)) x := hst
        rw [storagesOf_RemoveChild] at hst2
        exact hreg x st hst2
  | deleteDirectory s p r _ hm ih =>
    obtain ⟨d, _, hcase⟩ := DeleteDirectory_ok_cases s p r hm
    rcases hcase with ⟨_, hr⟩ | ⟨P, _, hr⟩
    · subst hr
      exact ih
    · subst hr
      obtain ⟨hwf, hreg⟩ := ih
      rw [wellFormed_iff] at hwf ⊢
      rw [aliasesRegistered_iff] at hreg ⊢
      refine ⟨⟨?_, HeapOK_RemoveChild hwf.2 P _⟩, ?_⟩
      · show s.RootIndexNode < (RemoveChild _ _ _).length
        rw [RemoveChild_length]
        exact hwf.1
      · intro x st hst
        have hst2 : st ∈ storagesOf (RemoveChild s.heap P (NamePart p)) x := hst
        rw [storagesOf_RemoveChild] at hst2
        exact hreg x st hst2


/-! ## Move (C1, C2) -/

theorem TreeShaped.parent_unique {s : NamingServer} (ht : TreeShaped s) (x y c : Nat)
    (hx : c ∈ childrenOf s.heap x) (hy : c ∈ childrenOf s.heap y) : x = y := by
  rcases get_of_mem_childrenOf hx with ⟨_, hgx, _⟩
  rcases get_of_mem_childrenOf hy with ⟨_, hgy, _⟩
  exact ht.1 x (lt_of_get hgx) y (lt_of_get hgy) c hx hy

theorem TreeShaped.root_not_child {s : NamingServer} (ht : TreeShaped s) (x : Nat) :
    s.RootIndexNode ∉ childrenOf s.heap x := by
  intro hx
  rcases get_of_mem_childrenOf hx with ⟨_, hgx, _⟩
  exact ht.2 x (lt_of_get hgx) hx

theorem oneDir_reachable : Reachable oneDir :=
  Reachable.makeDirectory _ "/x" Reachable.init

/-- C1, as stated, fails: on the reachable state holding the directory `/x`, `Find("/x")`
succeeds and both `Move("/x", "/x")` and `Move("/x", "/x/y")` return OK, yet `Find("/x")`
still succeeds afterwards (on the moved node itself, resp. on a directory `x` that
`CreateNodeIfNotExists` made for the new parent). -/
theorem move_old_path_still_found :
    Reachable oneDir ∧ FindNode oneDir "/x" = some 1 ∧
    Move oneDir "/x" "/x" = Result.ok
      ({ heap := [{ Name := "", Typ := 0, Children := [1], Storages := [] },
                  { Name := "x", Typ := DIR, Children := [], Storages := [] }],
         RootIndexNode := 0, StorageAddresses := [] }, { Code := 0, Description := "" }) ∧
    FindNode { heap := [{ Name := "", Typ := 0, Children := [1], Storages := [] },
                        { Name := "x", Typ := DIR, Children := [], Storages := [] }],
               RootIndexNode := 0, StorageAddresses := [] } "/x" = some 1 ∧
    Move oneDir "/x" "/x/y" = Result.ok
      ({ heap := [{ Name := "", Typ := 0, Children := [2], Storages := [] },
                  { Name := "y", Typ := DIR, Children := [], Storages := [] },
                  { Name := "x", Typ := DIR, Children := [1], Storages := [] }],
         RootIndexNode := 0, StorageAddresses := [] }, { Code := 0, Description := "" }) ∧
    FindNode { heap := [{ Name := "", Typ := 0, Children := [2], Storages := [] },
                        { Name := "y", Typ := DIR, Children := [], Storages := [] },
                        { Name := "x", Typ := DIR, Children := [1], Storages := [] }],
               RootIndexNode := 0, StorageAddresses := [] } "/x" = some 2 :=
  ⟨oneDir_reachable, by decide, by decide, by decide, by decide, by decide⟩

/-- C1, amended: in a reachable state whose pointer graph is a tree with unique sibling
names, if `Find(a)` returns the node `n`, `Find(b)` is NOT_FOUND, the segments of `a` are
not a prefix of the segments of `b`, and `Move(a, b)` returns, then it returns OK,
`Find(a)` is NOT_FOUND afterwards, `Find(b)` returns the same node `n`, that node has the
name `NamePart(b)` and its old kind, children and replicas, and every node below it is
unchanged. -/
theorem move_then_find (s : NamingServer) (a b : String) (n : Nat)
    (r : NamingServer × ErrorStatus)
    (hs : Reachable s) (htree : TreeShaped s) (huniq : UniqueSiblings s)
    (ha : FindNode s a = some n) (hb : FindNode s b = none)
    (hnp : ¬ segmentsOf a <+: segmentsOf b)
    (hm : Move s a b = Result.ok r) :
    r.2.Code = 0 ∧ FindNode r.1 a = none ∧ FindNode r.1 b = some n ∧
    r.1.heap[n]? = (s.heap[n]?).map (fun nd => { nd with Name := NamePart b }) ∧
    ∀ (p : List String) (m : Nat), p ≠ [] → walk s.heap n p = some m →
      r.1.heap[m]? = s.heap[m]? := by
  have hwf := (reachable_inv s hs).1
  rw [wellFormed_iff] at hwf
  obtain ⟨hroot, hok⟩ := hwf
  rcases Move_ok_cases s a b r hm with ⟨d, hd, hP, _⟩ | ⟨d, d2, P, n1, hd, hP, hn, hd2, hr⟩
  · exfalso
    unfold FindNode at ha hP
    rw [segmentsOf_of_DirPart a d hd, walk_concat, hP] at ha
    cases ha
  · have hsa := segmentsOf_of_DirPart a d hd
    have hsb := segmentsOf_of_DirPart b d2 hd2
    unfold FindNode at ha hb hP
    rw [hsa, walk_concat, hP] at ha
    simp only [Option.some_bind] at ha
    rw [hn] at ha
    cases ha
    rw [hsb] at hb
    rw [hsa, hsb] at hnp
    have hPlt : P < s.heap.length := walk_lt hok hroot hP
    have hcore := move_core s.heap s.RootIndexNode P n (segmentsOf d) (segmentsOf d2)
      (NamePart a) (NamePart b) ((segmentsOf d2).getLastD "") hok hroot
      htree.parent_unique htree.root_not_child (huniq P hPlt) hP hn hb hnp
      _ _ _ _ rfl rfl rfl
    subst hr
    unfold FindNode
    rw [hsa, hsb]
    exact ⟨rfl, hcore.1, hcore.2.1, hcore.2.2.1, hcore.2.2.2⟩

/-- Instance of `move_then_find`: renaming `/x` to `/y` on the state holding only `/x`. -/
theorem move_then_find_witness :
    FindNode oneDir "/x" = some 1 ∧ FindNode oneDir "/y" = none ∧
    Move oneDir "/x" "/y" = Result.ok
      ({ heap := [{ Name := "", Typ := 0, Children := [1], Storages := [] },
                  { Name := "y", Typ := DIR, Children := [], Storages := [] }],
         RootIndexNode := 0, StorageAddresses := [] }, { Code := 0, Description := "" }) ∧
    FindNode { heap := [{ Name := "", Typ := 0, Children := [1], Storages := [] },
                        { Name := "y", Typ := DIR, Children := [], Storages := [] }],
               RootIndexNode := 0, StorageAddresses := [] } "/y" = some 1 :=
  ⟨by decide, by decide, by decide,
    (move_then_find oneDir "/x" "/y" 1 _ oneDir_reachable (by decide) (by decide) (by decide)
      (by decide) (by decide) (by decide : Move oneDir "/x" "/y" = Result.ok
      ({ heap := [{ Name := "", Typ := 0, Children := [1], Storages := [] },
                  { Name := "y", Typ := DIR, Children := [], Storages := [] }],
         RootIndexNode := 0, StorageAddresses := [] }, { Code := 0, Description := "" }))).2.2.1⟩

theorem twoDirs_reachable : Reachable twoDirs :=
  Reachable.makeDirectory _ "/b" (Reachable.makeDirectory _ "/a" Reachable.init)

/-- C2 at the failing input: after `MakeDirectory("/a")`, `MakeDirectory("/b")`, the call
`Move("/a", "/b")` returns OK and leaves the root with two children named `b`, as
`ListDirectory("")` shows. -/
theorem move_onto_existing_duplicates_name :
    Reachable twoDirs ∧
    Move twoDirs "/a" "/b" = Result.ok
      ({ heap := [{ Name := "", Typ := 0, Children := [2, 1], Storages := [] },
                  { Name := "b", Typ := DIR, Children := [], Storages := [] },
                  { Name := "b", Typ := DIR, Children := [], Storages := [] }],
         RootIndexNode := 0, StorageAddresses := [] }, { Code := 0, Description := "" }) ∧
    ListDirectory
      { heap := [{ Name := "", Typ := 0, Children := [2, 1], Storages := [] },
                 { Name := "b", Typ := DIR, Children := [], Storages := [] },
                 { Name := "b", Typ := DIR, Children := [], Storages := [] }],
        RootIndexNode := 0, StorageAddresses := [] } "" =
      ({ Code := 0, Description := "" },
        [(NodeMode.DIRECTORY, "b"), (NodeMode.DIRECTORY, "b")]) ∧
    ¬ UniqueSiblings
      { heap := [{ Name := "", Typ := 0, Children := [2, 1], Storages := [] },
                 { Name := "b", Typ := DIR, Children := [], Storages := [] },
                 { Name := "b", Typ := DIR, Children := [], Storages := [] }],
        RootIndexNode := 0, StorageAddresses := [] } :=
  ⟨twoDirs_reachable, by decide, by decide, by decide⟩


/-! ## Placement and discovery (C3, C4, C7) -/

theorem Contains_iff (l : List String) (v : String) : Contains l v = true ↔ v ∈ l := by
  induction l with
  | nil => simp [Contains]
  | cons a l ih =>
    simp only [Contains, List.mem_cons]
    by_cases h : a = v
    · simp [h]
    · have h2 : ¬ v = a := fun e => h e.symm
      simp [h, h2, ih]

/-- When the selection loop stops on two aliases, they are two different keys. -/
theorem selectLoop_spec (keys : List String) (n : Nat) (rands : List Nat)
    (acc aliases : List String) (hacc : acc.length < 2) (hnd : acc.Nodup)
    (hsub : ∀ a ∈ acc, a ∈ keys)
    (h : selectLoop keys n rands acc = some (some aliases)) :
    aliases.length = 2 ∧ aliases.Nodup ∧ ∀ a ∈ aliases, a ∈ keys := by
  induction rands generalizing acc with
  | nil => simp [selectLoop] at h
  | cons r rands ih =>
    simp only [selectLoop] at h
    cases hk : keys[r % n]? with
    | none => simp [hk] at h
    | some a =>
      simp only [hk] at h
      have hak : a ∈ keys := List.mem_iff_getElem?.2 ⟨_, hk⟩
      by_cases hc : Contains acc a = true
      · simp only [hc, if_true] at h
        exact ih acc hacc hnd hsub h
      · rw [if_neg hc] at h
        have hna : a ∉ acc := fun hm => hc ((Contains_iff acc a).2 hm)
        have hnd1 : (acc ++ [a]).Nodup := by
          rw [List.nodup_append]
          refine ⟨hnd, List.nodup_singleton a, ?_⟩
          intro x hx hx2
          rw [List.mem_singleton] at hx2
          subst hx2
          exact hna hx
        have hsub1 : ∀ x ∈ acc ++ [a], x ∈ keys := by
          intro x hx
          rcases List.mem_append.1 hx with h1 | h1
          · exact hsub x h1
          · rw [List.mem_singleton] at h1
            subst h1
            exact hak
        by_cases hl : (acc ++ [a]).length = 2
        · rw [if_pos hl] at h
          simp only [Option.some.injEq] at h
          subst h
          exact ⟨hl, hnd1, hsub1⟩
        · rw [if_neg hl] at h
          refine ih (acc ++ [a]) ?_ hnd1 hsub1 h
          simp only [List.length_append, List.length_singleton] at hl ⊢
          omega

/-- With as many keys as registry entries, `keys[index]` is always in range. -/
theorem selectLoop_in_range (keys : List String) (n : Nat) (rands : List Nat)
    (acc : List String) (hlen : keys.length = n) (hn : 0 < n) :
    selectLoop keys n rands acc ≠ some none := by
  induction rands generalizing acc with
  | nil => simp [selectLoop]
  | cons r rands ih =>
    simp only [selectLoop]
    have hlt : r % n < keys.length := by
      rw [hlen]
      exact Nat.mod_lt _ hn
    rw [List.getElem?_eq_getElem hlt]
    simp only
    split
    · exact ih acc
    · split
      · simp
      · exact ih _

theorem mapGet_of_mem_keys (m : List (String × StorageServerInfo)) (a : String)
    (ha : a ∈ mapKeys m) : ∃ info, mapGet m a = some info := by
  induction m with
  | nil => simp [mapKeys] at ha
  | cons e m ih =>
    obtain ⟨k, v⟩ := e
    simp only [mapGet]
    by_cases hk : k = a
    · exact ⟨v, by simp [hk]⟩
    · simp only [hk, if_false]
      apply ih
      simp only [mapKeys, List.map_cons, List.mem_cons] at ha
      rcases ha with e | e
      · exact absurd e.symm hk
      · exact e

theorem mem_keys_of_mapGet (m : List (String × StorageServerInfo)) (a : String)
    (info : StorageServerInfo) (ha : mapGet m a = some info) : a ∈ mapKeys m := by
  induction m with
  | nil => simp [mapGet] at ha
  | cons e m ih =>
    obtain ⟨k, v⟩ := e
    simp only [mapGet] at ha
    simp only [mapKeys, List.map_cons, List.mem_cons]
    by_cases hk : k = a
    · exact Or.inl hk.symm
    · simp only [hk, if_false] at ha
      exact Or.inr (ih ha)

/-- The node `CreateNodeIfNotExists` returns for a path that did not resolve is new: it is
found by `FindNode` afterwards and has no replicas. -/
theorem CreateNodeIfNotExists_fresh (s : NamingServer) (p : String) (f : Bool)
    (hwf : WellFormed s) (hfresh : FindNode s p = none) :
    FindNode (CreateNodeIfNotExists s p f).1 p = some (CreateNodeIfNotExists s p f).2 ∧
    (CreateNodeIfNotExists s p f).2 < (CreateNodeIfNotExists s p f).1.heap.length ∧
    s.heap.length ≤ (CreateNodeIfNotExists s p f).2 ∧
    storagesOf (CreateNodeIfNotExists s p f).1.heap (CreateNodeIfNotExists s p f).2 = [] ∧
    childrenOf (CreateNodeIfNotExists s p f).1.heap (CreateNodeIfNotExists s p f).2 = [] ∧
    (f = false → ∃ nd, (CreateNodeIfNotExists s p f).1.heap[(CreateNodeIfNotExists s p f).2]?
      = some nd ∧ nd.Typ = DIR) := by
  rw [wellFormed_iff] at hwf
  obtain ⟨hx, hok⟩ := hwf
  obtain ⟨_, _, h3, h4, _⟩ :=
    createLoop_spec f ((segmentsOf p).getLastD "") s.heap s.RootIndexNode (segmentsOf p) hok hx
  obtain ⟨_, _, _, _, _, _, _, _, _, h6, h7⟩ :=
    createLoop_frame f ((segmentsOf p).getLastD "") s.heap s.RootIndexNode (segmentsOf p)
      hok hx hfresh
  have hget := List.getElem?_eq_getElem h3
  have hnew := createLoop_new_nodes f ((segmentsOf p).getLastD "") s.heap s.RootIndexNode
    (segmentsOf p) hok hx _ _ h6 hget
  have hst : storagesOf
      (createLoop f ((segmentsOf p).getLastD "") s.heap s.RootIndexNode (segmentsOf p)).1
      (createLoop f ((segmentsOf p).getLastD "") s.heap s.RootIndexNode (segmentsOf p)).2
      = [] := by
    rw [storagesOf_of_get hget]
    exact hnew.1
  exact ⟨h4, h3, h6, hst, h7, fun hf => ⟨_, hget, hnew.2 hf⟩⟩

theorem placeLoop_all_ok (reply : DiscoveredStorage → Option Nat) (node : Nat)
    (h : List Node) (servers : List DiscoveredStorage) (hn : node < h.length)
    (hreply : ∀ sv ∈ servers, reply sv = some 0) :
    storagesOf (placeLoop reply node h servers) node =
      storagesOf h node ++ servers.map (fun sv => (⟨sv.Alias⟩ : StorageInfo)) := by
  induction servers generalizing h with
  | nil => simp [placeLoop]
  | cons sv rest ih =>
    simp only [placeLoop, hreply sv (List.mem_cons_self _ _)]
    rw [ih (addStorage h node sv.Alias) (by rw [addStorage_length]; exact hn)
      (fun x hx => hreply x (List.mem_cons_of_mem _ hx)),
      storagesOf_addStorage_self h node sv.Alias hn]
    simp


theorem CreateNodeIfNotExists_registry (s : NamingServer) (p : String) (f : Bool) :
    (CreateNodeIfNotExists s p f).1.StorageAddresses = s.StorageAddresses := rfl

theorem CreateNodeIfNotExists_root (s : NamingServer) (p : String) (f : Bool) :
    (CreateNodeIfNotExists s p f).1.RootIndexNode = s.RootIndexNode := rfl

/-- `Get2RandomStorageServers` returns two servers with different registered aliases and
their registry addresses whenever the keys enumerate the registry, the registry is not
empty and the selection loop stops on the given draws. -/
theorem Get2Random_returns (s : NamingServer) (keys : List String) (rands : List Nat)
    (hkeys : keys.Perm (mapKeys s.StorageAddresses))
    (h2 : 2 ≤ s.StorageAddresses.length)
    (hstop : selectLoop keys s.StorageAddresses.length rands [] ≠ none) :
    ∃ (a1 a2 : String) (i1 i2 : StorageServerInfo), a1 ≠ a2 ∧
      mapGet s.StorageAddresses a1 = some i1 ∧ mapGet s.StorageAddresses a2 = some i2 ∧
      Get2RandomStorageServers s keys rands = Result.ok
        [{ Alias := a1, Address := i1.privateAddress, PublicAddress := i1.publicAddress },
         { Alias := a2, Address := i2.privateAddress, PublicAddress := i2.publicAddress }] := by
  have hlen : keys.length = s.StorageAddresses.length := by
    rw [hkeys.length_eq]
    simp [mapKeys]
  cases hsel : selectLoop keys s.StorageAddresses.length rands [] with
  | none => exact absurd hsel hstop
  | some o =>
    cases o with
    | none => exact absurd hsel (selectLoop_in_range keys _ rands [] hlen (by omega))
    | some aliases =>
      obtain ⟨hl2, hnd, hsub⟩ := selectLoop_spec keys _ rands [] aliases (by simp)
        List.nodup_nil (by simp) hsel
      obtain ⟨a1, a2, rfl⟩ := List.length_eq_two.1 hl2
      have hne : a1 ≠ a2 := by
        intro e
        subst e
        simp at hnd
      obtain ⟨i1, hi1⟩ := mapGet_of_mem_keys s.StorageAddresses a1
        (hkeys.subset (hsub a1 (by simp)))
      obtain ⟨i2, hi2⟩ := mapGet_of_mem_keys s.StorageAddresses a2
        (hkeys.subset (hsub a2 (by simp)))
      refine ⟨a1, a2, i1, i2, hne, hi1, hi2, ?_⟩
      have hn0 : ¬ s.StorageAddresses.length = 0 := by omega
      unfold Get2RandomStorageServers
      simp only [hn0, if_false, hsel, resolveLoop, hi1, hi2]

/-- C3: in a reachable state whose registry holds at least two replicas, all with
non-empty aliases, for a non-empty path `p` that does not resolve, a key enumeration `keys`
of the registry and draws on which the selection loop stops, with every replica answering
`CreateFile` with status 0: the coordinator's `CreateFile(p)` returns OK and afterwards
`Discover(p, "")` returns exactly two entries, with different aliases, each a registered
alias with the addresses the registry holds for it; with exactly two registered replicas
`A` and `B` the two aliases are `A` and `B`. -/
theorem createFile_then_discover (s : NamingServer) (keys : List String) (rands : List Nat)
    (reply : DiscoveredStorage → Option Nat) (p : String)
    (hs : Reachable s) (hkeys : keys.Perm (mapKeys s.StorageAddresses))
    (h2 : 2 ≤ s.StorageAddresses.length)
    (hne : ∀ k ∈ mapKeys s.StorageAddresses, k ≠ "")
    (hp : p ≠ "") (hfresh : FindNode s p = none)
    (hstop : selectLoop keys s.StorageAddresses.length rands [] ≠ none)
    (hreply : ∀ sv, reply sv = some 0) :
    ∃ (s2 : NamingServer) (e1 e2 : DiscoveredStorage),
      CreateFile s keys rands reply p = Result.ok (s2, { Code := 0, Description := "" }) ∧
      Discover s2 p "" = Result.ok [e1, e2] ∧ e1.Alias ≠ e2.Alias ∧
      mapGet s.StorageAddresses e1.Alias =
        some { privateAddress := e1.Address, publicAddress := e1.PublicAddress } ∧
      mapGet s.StorageAddresses e2.Alias =
        some { privateAddress := e2.Address, publicAddress := e2.PublicAddress } ∧
      ∀ A B, mapKeys s.StorageAddresses = [A, B] →
        (e1.Alias = A ∧ e2.Alias = B) ∨ (e1.Alias = B ∧ e2.Alias = A) := by
  have hwf := (reachable_inv s hs).1
  obtain ⟨hF1, hF2, _, hF4, _, _⟩ := CreateNodeIfNotExists_fresh s p true hwf hfresh
  obtain ⟨a1, a2, i1, i2, hne12, hi1, hi2, hget⟩ :=
    Get2Random_returns (CreateNodeIfNotExists s p true).1 keys rands hkeys h2 hstop
  rw [CreateNodeIfNotExists_registry] at hi1 hi2
  have hk1 : a1 ∈ mapKeys s.StorageAddresses := mem_keys_of_mapGet _ _ _ hi1
  have hk2 : a2 ∈ mapKeys s.StorageAddresses := mem_keys_of_mapGet _ _ _ hi2
  refine ⟨{ (CreateNodeIfNotExists s p true).1 with
      heap := placeLoop reply (CreateNodeIfNotExists s p true).2
        (CreateNodeIfNotExists s p true).1.heap
        [{ Alias := a1, Address := i1.privateAddress, PublicAddress := i1.publicAddress },
         { Alias := a2, Address := i2.privateAddress, PublicAddress := i2.publicAddress }] },
    { Alias := a1, Address := i1.privateAddress, PublicAddress := i1.publicAddress },
    { Alias := a2, Address := i2.privateAddress, PublicAddress := i2.publicAddress },
    ?_, ?_, hne12, hi1, hi2, ?_⟩
  · unfold CreateFile
    simp only [hget]
  · have hfind : FindNode
        { (CreateNodeIfNotExists s p true).1 with
          heap := placeLoop reply (CreateNodeIfNotExists s p true).2
            (CreateNodeIfNotExists s p true).1.heap
            [{ Alias := a1, Address := i1.privateAddress, PublicAddress := i1.publicAddress },
             { Alias := a2, Address := i2.privateAddress,
               PublicAddress := i2.publicAddress }] } p =
        some (CreateNodeIfNotExists s p true).2 := by
      unfold FindNode
      simp only [walk_placeLoop]
      exact hF1
    have hst := placeLoop_all_ok reply (CreateNodeIfNotExists s p true).2
      (CreateNodeIfNotExists s p true).1.heap
      [{ Alias := a1, Address := i1.privateAddress, PublicAddress := i1.publicAddress },
       { Alias := a2, Address := i2.privateAddress, PublicAddress := i2.publicAddress }]
      hF2 (fun sv _ => hreply sv)
    rw [hF4] at hst
    have he1 : ¬ "" = a1 := fun e => hne a1 hk1 e.symm
    have he2 : ¬ "" = a2 := fun e => hne a2 hk2 e.symm
    unfold Discover
    rw [if_neg hp, hfind]
    simp only [hst, CreateNodeIfNotExists_registry, List.nil_append, List.map_cons,
      List.map_nil, discoverLoop, he1, he2, if_false, hi1, hi2]
  · intro A B hAB
    rw [hAB] at hk1 hk2
    simp only [List.mem_cons, List.mem_singleton, List.not_mem_nil, or_false] at hk1 hk2
    rcases hk1 with e1 | e1 <;> rcases hk2 with e2 | e2
    · exact absurd (e1.trans e2.symm) hne12
    · exact Or.inl ⟨e1, e2⟩
    · exact Or.inr ⟨e1, e2⟩
    · exact absurd (e1.trans e2.symm) hne12


theorem twoReplicas_reachable : Reachable twoReplicas :=
  Reachable.register _ "B" _ (Reachable.register _ "A" _ Reachable.init)

theorem fileOnce_eq : CreateFile twoReplicas ["A", "B"] [0, 1] replyOK "/f" =
    Result.ok (fileOnce, { Code := 0, Description := "" }) := by decide

theorem fileOnce_reachable : Reachable fileOnce :=
  Reachable.createFile twoReplicas ["A", "B"] [0, 1] replyOK "/f"
    (fileOnce, { Code := 0, Description := "" }) twoReplicas_reachable (List.Perm.refl _)
    fileOnce_eq

/-- Instance of `createFile_then_discover`: replicas `A` and `B`, `CreateFile("/foo")`
with the draws 0, 0, 1. -/
theorem createFile_then_discover_witness :
    FindNode twoReplicas "/foo" = none ∧
    selectLoop ["A", "B"] twoReplicas.StorageAddresses.length [0, 0, 1] [] ≠ none ∧
    ∃ (s2 : NamingServer) (e1 e2 : DiscoveredStorage),
      CreateFile twoReplicas ["A", "B"] [0, 0, 1] replyOK "/foo" =
        Result.ok (s2, { Code := 0, Description := "" }) ∧
      Discover s2 "/foo" "" = Result.ok [e1, e2] ∧ e1.Alias ≠ e2.Alias ∧
      mapGet twoReplicas.StorageAddresses e1.Alias =
        some { privateAddress := e1.Address, publicAddress := e1.PublicAddress } ∧
      mapGet twoReplicas.StorageAddresses e2.Alias =
        some { privateAddress := e2.Address, publicAddress := e2.PublicAddress } ∧
      ∀ A B, mapKeys twoReplicas.StorageAddresses = [A, B] →
        (e1.Alias = A ∧ e2.Alias = B) ∨ (e1.Alias = B ∧ e2.Alias = A) :=
  ⟨by decide, by decide,
    createFile_then_discover twoReplicas ["A", "B"] [0, 0, 1] replyOK "/foo"
      twoReplicas_reachable (List.Perm.refl _) (by decide) (by decide) (by decide)
      (by decide) (by decide) (fun _ => rfl)⟩

/-- C4, as stated, fails: with replicas `A` and `B` registered, two successive
`CreateFile("/f")` calls both return OK and leave the file node with four entries in its
replicas. -/
theorem createFile_twice_four_replicas :
    Reachable twoReplicas ∧ 2 ≤ twoReplicas.StorageAddresses.length ∧
    CreateFile twoReplicas ["A", "B"] [0, 1] replyOK "/f" =
      Result.ok (fileOnce, { Code := 0, Description := "" }) ∧
    CreateFile fileOnce ["A", "B"] [0, 1] replyOK "/f" =
      Result.ok (fileTwice, { Code := 0, Description := "" }) ∧
    FindNode fileTwice "/f" = some 1 ∧
    (storagesOf fileTwice.heap 1).length = 4 :=
  ⟨twoReplicas_reachable, by decide, by decide, by decide, by decide, by decide⟩

theorem storagesOf_createLoop_old (f : Bool) (last : String) (h : List Node) (x : Nat)
    (p : List String) (hok : HeapOK h) (hx : x < h.length) (i : Nat) (hi : i < h.length) :
    storagesOf (createLoop f last h x p).1 i = storagesOf h i := by
  obtain ⟨_, hext, _, _, _⟩ := createLoop_spec f last h x p hok hx
  have hget : h[i]? = some h[i] := List.getElem?_eq_getElem hi
  rcases hext i _ hget with ⟨nd3, hi3, _, _, hs3, _⟩
  rw [storagesOf_of_get hget, storagesOf_of_get hi3, hs3]

theorem storagesOf_createLoop_new (f : Bool) (last : String) (h : List Node) (x : Nat)
    (p : List String) (hok : HeapOK h) (hx : x < h.length) (i : Nat) (hi : h.length ≤ i) :
    storagesOf (createLoop f last h x p).1 i = [] := by
  cases hget : (createLoop f last h x p).1[i]? with
  | none => simp [storagesOf, hget]
  | some nd =>
    rw [storagesOf_of_get hget]
    exact (createLoop_new_nodes f last h x p hok hx i nd hi hget).1

theorem placeLoop_storages_length (reply : DiscoveredStorage → Option Nat) (node : Nat)
    (h : List Node) (servers : List DiscoveredStorage) (x : Nat) :
    (storagesOf (placeLoop reply node h servers) x).length ≤
      (storagesOf h x).length + servers.length := by
  induction servers generalizing h with
  | nil => simp [placeLoop]
  | cons sv rest ih =>
    have hadd : (storagesOf (addStorage h node sv.Alias) x).length ≤
        (storagesOf h x).length + 1 := by
      by_cases hxn : x = node
      · subst hxn
        by_cases hn : x < h.length
        · rw [storagesOf_addStorage_self h x sv.Alias hn]
          simp
        · have hlen : (addStorage h x sv.Alias).length ≤ x := by
            rw [addStorage_length]; omega
          simp [storagesOf, List.getElem?_eq_none hlen]
      · rw [storagesOf_addStorage_ne h node sv.Alias x hxn]
        omega
    simp only [placeLoop, List.length_cons]
    split
    · have := ih (addStorage h node sv.Alias)
      omega
    · have := ih h
      omega

/-- C4, amended: in every reachable state every alias in the replicas of any node is a key
of the registry; and a `CreateFile(p)` that returns leaves `p` resolving to a node whose
replicas grew by at most 2 entries, so a file that did not exist before the call has at
most 2 entries after it. -/
theorem replicas_registered_and_bounded (s : NamingServer) (hs : Reachable s) :
    (∀ (x : Nat) (st : StorageInfo), st ∈ storagesOf s.heap x →
      st.Alias ∈ mapKeys s.StorageAddresses) ∧
    ∀ (keys : List String) (rands : List Nat) (reply : DiscoveredStorage → Option Nat)
      (p : String) (r : NamingServer × ErrorStatus),
      CreateFile s keys rands reply p = Result.ok r →
      ∃ n, FindNode r.1 p = some n ∧
        (storagesOf r.1.heap n).length ≤ (storagesOf s.heap n).length + 2 ∧
        (FindNode s p = none → (storagesOf r.1.heap n).length ≤ 2) := by
  obtain ⟨hwf, hreg⟩ := reachable_inv s hs
  refine ⟨?_, ?_⟩
  · intro x st hst
    rw [aliasesRegistered_iff] at hreg
    cases hg : mapGet s.StorageAddresses st.Alias with
    | none => exact absurd hg (hreg x st hst)
    | some info => exact mem_keys_of_mapGet _ _ info hg
  · intro keys rands reply p r hc
    obtain ⟨servers, hget, hr⟩ := CreateFile_ok_cases s keys rands reply p r hc
    obtain ⟨aliases, hsel, hres⟩ := Get2Random_ok_cases _ keys rands servers hget
    obtain ⟨hmap, _⟩ := resolveLoop_spec _ aliases servers hres
    obtain ⟨hl2, _, _⟩ := selectLoop_spec keys _ rands [] aliases (by simp)
      List.nodup_nil (by simp) hsel
    have hsl : servers.length = 2 := by
      rw [← hl2, ← hmap, List.length_map]
    have hwf2 := hwf
    rw [wellFormed_iff] at hwf2
    obtain ⟨hx, hok⟩ := hwf2
    obtain ⟨_, _, h3, h4, _⟩ := createLoop_spec true ((segmentsOf p).getLastD "") s.heap
      s.RootIndexNode (segmentsOf p) hok hx
    have hbound := placeLoop_storages_length reply (CreateNodeIfNotExists s p true).2
      (CreateNodeIfNotExists s p true).1.heap servers (CreateNodeIfNotExists s p true).2
    rw [hsl] at hbound
    subst hr
    refine ⟨(CreateNodeIfNotExists s p true).2, ?_, ?_, ?_⟩
    · unfold FindNode
      simp only [walk_placeLoop]
      exact h4
    · refine le_trans hbound ?_
      by_cases hold : (CreateNodeIfNotExists s p true).2 < s.heap.length
      · have := storagesOf_createLoop_old true ((segmentsOf p).getLastD "") s.heap
          s.RootIndexNode (segmentsOf p) hok hx _ hold
        have e : storagesOf (CreateNodeIfNotExists s p true).1.heap
            (CreateNodeIfNotExists s p true).2 =
            storagesOf s.heap (CreateNodeIfNotExists s p true).2 := this
        rw [e]
      · have := storagesOf_createLoop_new true ((segmentsOf p).getLastD "") s.heap
          s.RootIndexNode (segmentsOf p) hok hx (CreateNodeIfNotExists s p true).2
          (Nat.le_of_not_lt hold)
        have e : storagesOf (CreateNodeIfNotExists s p true).1.heap
            (CreateNodeIfNotExists s p true).2 = [] := this
        rw [e]
        simp
    · intro hfresh
      obtain ⟨_, _, _, hF4, _, _⟩ := CreateNodeIfNotExists_fresh s p true hwf hfresh
      rw [hF4] at hbound
      simpa using hbound

/-- Instance of `replicas_registered_and_bounded`: `CreateFile("/f")` on `twoReplicas`. -/
theorem replicas_registered_and_bounded_witness :
    Reachable twoReplicas ∧
    ∃ n, FindNode fileOnce "/f" = some n ∧
      (storagesOf fileOnce.heap n).length ≤ (storagesOf twoReplicas.heap n).length + 2 ∧
      (FindNode twoReplicas "/f" = none → (storagesOf fileOnce.heap n).length ≤ 2) :=
  ⟨twoReplicas_reachable,
    (replicas_registered_and_bounded twoReplicas twoReplicas_reachable).2
      ["A", "B"] [0, 1] replyOK "/f" (fileOnce, { Code := 0, Description := "" })
      fileOnce_eq⟩


/-! ## Discover (C7) -/

/-- The loop of `Discover` on a list of registered aliases: one entry per alias other than
`exclude`, in order, each with the registry's addresses. -/
theorem discoverLoop_spec (m : List (String × StorageServerInfo)) (exclude : String)
    (l : List StorageInfo) (hreg : ∀ st ∈ l, mapGet m st.Alias ≠ none) :
    ∃ entries, discoverLoop m exclude l = some entries ∧
      entries.map DiscoveredStorage.Alias =
        (l.filter (fun st => decide (st.Alias ≠ exclude))).map StorageInfo.Alias ∧
      ∀ e ∈ entries, e.Alias ≠ exclude ∧ mapGet m e.Alias =
        some { privateAddress := e.Address, publicAddress := e.PublicAddress } := by
  induction l with
  | nil => exact ⟨[], rfl, rfl, by simp⟩
  | cons st rest ih =>
    obtain ⟨entries, h1, h2, h3⟩ := ih (fun x hx => hreg x (List.mem_cons_of_mem _ hx))
    by_cases hex : exclude = st.Alias
    · refine ⟨entries, ?_, ?_, h3⟩
      · simp only [discoverLoop, hex, if_true]
        rw [← hex]
        exact h1
      · rw [h2]
        simp [List.filter_cons, hex]
    · cases hg : mapGet m st.Alias with
      | none => exact absurd hg (hreg st (List.mem_cons_self _ _))
      | some info =>
        have hex2 : ¬ st.Alias = exclude := fun e => hex e.symm
        refine ⟨{ Alias := st.Alias, Address := info.privateAddress,
                  PublicAddress := info.publicAddress } :: entries, ?_, ?_, ?_⟩
        · simp only [discoverLoop, hex, if_false, hg, h1]
        · simp [List.filter_cons, hex2, h2]
        · intro e he
          rcases List.mem_cons.1 he with e1 | e1
          · subst e1
            exact ⟨hex2, by simp [hg]⟩
          · exact h3 e e1

/-- C7: in every reachable state, for a non-empty path, `Discover` returns OK: the empty
list when `FindNode` fails; otherwise one entry, in placement order, for each alias in the
node's replicas that differs from `exclude`, each with the private and public address the
registry holds for that alias, and no entry for `exclude`. -/
theorem discover_spec (s : NamingServer) (path exclude : String)
    (hs : Reachable s) (hp : path ≠ "") :
    (FindNode s path = none → Discover s path exclude = Result.ok []) ∧
    ∀ n, FindNode s path = some n →
      ∃ entries, Discover s path exclude = Result.ok entries ∧
        entries.map DiscoveredStorage.Alias =
          ((storagesOf s.heap n).filter (fun st => decide (st.Alias ≠ exclude))).map
            StorageInfo.Alias ∧
        ∀ e ∈ entries, e.Alias ≠ exclude ∧ mapGet s.StorageAddresses e.Alias =
          some { privateAddress := e.Address, publicAddress := e.PublicAddress } := by
  have hreg := (reachable_inv s hs).2
  rw [aliasesRegistered_iff] at hreg
  refine ⟨?_, ?_⟩
  · intro hf
    unfold Discover
    rw [if_neg hp, hf]
  · intro n hf
    obtain ⟨entries, h1, h2, h3⟩ := discoverLoop_spec s.StorageAddresses exclude
      (storagesOf s.heap n) (fun st hst => hreg n st hst)
    refine ⟨entries, ?_, h2, h3⟩
    unfold Discover
    rw [if_neg hp, hf]
    simp only [h1]

/-- Instance of `discover_spec`: `Discover("/f", "A")` on `fileOnce` returns the entry of
`B`. -/
theorem discover_spec_witness :
    Reachable fileOnce ∧ FindNode fileOnce "/f" = some 1 ∧
    Discover fileOnce "/f" "A" = Result.ok
      [{ Alias := "B", Address := "10.0.0.2:7000", PublicAddress := "b.example:7000" }] ∧
    ∃ entries, Discover fileOnce "/f" "A" = Result.ok entries ∧
      entries.map DiscoveredStorage.Alias =
        ((storagesOf fileOnce.heap 1).filter (fun st => decide (st.Alias ≠ "A"))).map
          StorageInfo.Alias ∧
      ∀ e ∈ entries, e.Alias ≠ "A" ∧ mapGet fileOnce.StorageAddresses e.Alias =
        some { privateAddress := e.Address, publicAddress := e.PublicAddress } :=
  ⟨fileOnce_reachable, by decide, by decide,
    (discover_spec fileOnce "/f" "A" fileOnce_reachable (by decide)).2 1 (by decide)⟩

/-! ## MakeDirectory (C6) and the root (C9) -/

/-- C6, as stated, fails: on the reachable state holding the file `/f`,
`MakeDirectory("/f")` returns OK and `Find("/f")` returns a node of kind FILE. -/
theorem makeDirectory_on_file_keeps_file :
    Reachable fileOnce ∧
    MakeDirectory fileOnce "/f" = (fileOnce, { Code := 0, Description := "" }) ∧
    FindNode (MakeDirectory fileOnce "/f").1 "/f" = some 1 ∧
    ((MakeDirectory fileOnce "/f").1.heap[1]?).map Node.Typ = some FILE ∧ FILE ≠ DIR :=
  ⟨fileOnce_reachable, by decide, by decide, by decide, by decide⟩

/-- C6, amended: in every reachable state `MakeDirectory(p)` returns OK and afterwards
`Find(p)` succeeds with the node `CreateNodeIfNotExists` returned; when `Find(p)` was
NOT_FOUND before, that node is new, of kind DIRECTORY, without children or replicas; when
`Find(p)` returned a node before, it is that node and the state is unchanged (its kind is
kept, whatever it is). -/
theorem makeDirectory_then_find (s : NamingServer) (p : String) (hs : Reachable s) :
    (MakeDirectory s p).2.Code = 0 ∧
    FindNode (MakeDirectory s p).1 p = some (CreateNodeIfNotExists s p false).2 ∧
    (FindNode s p = none →
      s.heap.length ≤ (CreateNodeIfNotExists s p false).2 ∧
      ∃ nd, (MakeDirectory s p).1.heap[(CreateNodeIfNotExists s p false).2]? = some nd ∧
        nd.Typ = DIR ∧ nd.Children = [] ∧ nd.Storages = []) ∧
    (∀ m, FindNode s p = some m →
      (CreateNodeIfNotExists s p false).2 = m ∧ (MakeDirectory s p).1 = s) := by
  have hwf := (reachable_inv s hs).1
  have hwf2 := hwf
  rw [wellFormed_iff] at hwf2
  obtain ⟨hx, hok⟩ := hwf2
  obtain ⟨_, _, _, h4, _⟩ := createLoop_spec false ((segmentsOf p).getLastD "") s.heap
    s.RootIndexNode (segmentsOf p) hok hx
  refine ⟨rfl, h4, ?_, ?_⟩
  · intro hfresh
    obtain ⟨_, _, hF3, hF4, hF5, hF6⟩ := CreateNodeIfNotExists_fresh s p false hwf hfresh
    obtain ⟨nd, hnd, htyp⟩ := hF6 rfl
    refine ⟨hF3, nd, hnd, htyp, ?_, ?_⟩
    · rw [childrenOf_of_get hnd] at hF5
      exact hF5
    · rw [storagesOf_of_get hnd] at hF4
      exact hF4
  · intro m hm
    have e := createLoop_of_walk false ((segmentsOf p).getLastD "") s.heap s.RootIndexNode m
      (segmentsOf p) hm
    unfold MakeDirectory CreateNodeIfNotExists
    simp only [e]
    exact ⟨trivial, trivial⟩

/-- Instance of `makeDirectory_then_find`: `MakeDirectory("/x")` on the initial server. -/
theorem makeDirectory_then_find_witness :
    Reachable initNamingServer ∧ FindNode initNamingServer "/x" = none ∧
    FindNode (MakeDirectory initNamingServer "/x").1 "/x" = some 1 ∧
    (CreateNodeIfNotExists initNamingServer "/x" false).2 = 1 :=
  ⟨Reachable.init, by decide,
    (by decide : (CreateNodeIfNotExists initNamingServer "/x" false).2 = 1) ▸
      (makeDirectory_then_find initNamingServer "/x" Reachable.init).2.1,
    by decide⟩

/-- C9, as stated, fails: on the initial server `Find("/")` is NOT_FOUND and
`ListDirectory("/")` returns ENOENT; after `MakeDirectory("/")`, `Find("/")` returns a new
child of the root whose name is empty, not the root. -/
theorem find_slash_is_not_root :
    Reachable initNamingServer ∧ FindNode initNamingServer "/" = none ∧
    (ListDirectory initNamingServer "/").1.Code = ENOENT ∧
    Reachable (MakeDirectory initNamingServer "/").1 ∧
    FindNode (MakeDirectory initNamingServer "/").1 "/" = some 1 ∧
    (MakeDirectory initNamingServer "/").1.RootIndexNode = 0 :=
  ⟨Reachable.init, by decide, by decide, Reachable.makeDirectory _ "/" Reachable.init,
    by decide, by decide⟩

/-! ## Deleting under unique sibling names -/

theorem removedChildren_of_no_match (h : List Node) (t : String) (l : List Nat)
    (hno : ∀ c ∈ l, nameIs h t c = false) : removedChildren h t l = l := by
  unfold removedChildren
  simp [removeIndex_of_no_match h t l 0 (-1) hno]

/-- With unique names among the children of `P`, `RemoveChild(P, t)` leaves no child of
`P` named `t` and changes no other lookup. -/
theorem RemoveChild_lookup (h : List Node) (P : Nat) (t : String)
    (huniq : ((childrenOf h P).map (nameOf h)).Nodup) :
    (∀ (x : Nat) (s : String), x ≠ P → GetChild (RemoveChild h P t) x s = GetChild h x s) ∧
    (∀ s, s ≠ t → GetChild (RemoveChild h P t) P s = GetChild h P s) ∧
    GetChild (RemoveChild h P t) P t = none := by
  have hname : ∀ (s : String) (l : List Nat),
      l.find? (nameIs (RemoveChild h P t) s) = l.find? (nameIs h s) :=
    fun s l => find?_congr_mem _ _ _ (fun d _ => nameIs_RemoveChild h P t s d)
  refine ⟨?_, ?_⟩
  · intro x s hx
    exact GetChild_congr (childrenOf_RemoveChild_ne h P t x hx)
      (fun d _ => nameIs_RemoveChild h P t s d)
  · cases hg : GetChild h P t with
    | none =>
      have hno : ∀ c ∈ childrenOf h P, nameIs h t c = false := by
        intro c hc
        have := List.find?_eq_none.1 hg c hc
        simpa using this
      have hch : childrenOf (RemoveChild h P t) P = childrenOf h P := by
        rw [childrenOf_RemoveChild_self, removedChildren_of_no_match h t _ hno]
      refine ⟨fun s _ => ?_, ?_⟩
      · exact GetChild_congr hch (fun d _ => nameIs_RemoveChild h P t s d)
      · rw [GetChild_congr hch (fun d _ => nameIs_RemoveChild h P t t d)]
        exact hg
    | some n =>
      have hnm : nameIs h t n = true := GetChild_nameIs hg
      obtain ⟨l1, l2, hsplit, hl1, hl2⟩ := detach_split h P n t hg huniq
      have hch : childrenOf (RemoveChild h P t) P = l1 ++ l2 := by
        rw [childrenOf_RemoveChild_self, hsplit]
        exact removedChildren_of_last_match h t l1 l2 n hnm hl2
      refine ⟨fun s hs => ?_, ?_⟩
      · unfold GetChild
        rw [hch, hname s, hsplit, List.find?_append, List.find?_append, List.find?_cons,
          nameIs_false_of_other h n t s hnm hs]
      · unfold GetChild
        rw [hch, hname t, List.find?_eq_none]
        intro d hd
        rcases List.mem_append.1 hd with hd | hd
        · simp [hl1 d hd]
        · simp [hl2 d hd]

/-- After `RemoveChild(P, t)` under unique names, a path either resolves as before or not
at all, and no path through the child `t` of `P` resolves. -/
theorem walk_RemoveChild (h : List Node) (P : Nat) (t : String)
    (huniq : ((childrenOf h P).map (nameOf h)).Nodup) (x : Nat) (p : List String) :
    walk (RemoveChild h P t) x p = none ∨ walk (RemoveChild h P t) x p = walk h x p := by
  obtain ⟨h1, h2, h3⟩ := RemoveChild_lookup h P t huniq
  induction p generalizing x with
  | nil => exact Or.inr rfl
  | cons s p ih =>
    rw [walk_cons, walk_cons]
    by_cases hx : x = P
    · subst hx
      by_cases hs : s = t
      · subst hs
        rw [h3]
        exact Or.inl rfl
      · rw [h2 s hs]
        cases GetChild h x s with
        | none => exact Or.inl rfl
        | some c => exact ih c
    · rw [h1 x s hx]
      cases GetChild h x s with
      | none => exact Or.inl rfl
      | some c => exact ih c

theorem splitChars_append_slash (l1 l2 : List Char) :
    splitChars (l1 ++ '/' :: l2) = splitChars l1 ++ splitChars l2 := by
  induction l1 with
  | nil => simp [splitChars]
  | cons c cs ih =>
    simp only [List.cons_append, splitChars]
    rw [show cs.append ('/' :: l2) = cs ++ '/' :: l2 from rfl, ih]
    by_cases hc : c = '/'
    · simp [hc]
    · simp only [hc, if_false]
      cases hA : splitChars cs with
      | nil => exact absurd hA (splitChars_ne_nil _)
      | cons a as => simp

/-- The segments of `d + "/" + x` are the segments of `d` followed by the pieces of `x`. -/
theorem segmentsOf_append_slash (d x : String) :
    segmentsOf (d ++ "/" ++ x) = segmentsOf d ++ Split x := by
  have hdata : (d ++ "/" ++ x).data = d.data ++ '/' :: x.data := by
    simp [String.data_append]
  unfold segmentsOf Split
  rw [hdata, splitChars_append_slash]
  cases hA : splitChars d.data with
  | nil => exact absurd hA (splitChars_ne_nil _)
  | cons a as => simp

/-- In a state with unique sibling names, after a `DeleteDirectory(d)` that removes a
child (code 0), `Find(d)` is NOT_FOUND and so is `Find(d + "/" + x)` for every `x`. -/
theorem deleteDirectory_then_find (s : NamingServer) (d : String)
    (r : NamingServer × ErrorStatus) (hwf : WellFormed s) (huniq : UniqueSiblings s)
    (hm : DeleteDirectory s d = Result.ok r) (hcode : r.2.Code = 0) :
    FindNode r.1 d = none ∧ ∀ x, FindNode r.1 (d ++ "/" ++ x) = none := by
  obtain ⟨dir, hdir, hcase⟩ := DeleteDirectory_ok_cases s d r hm
  rcases hcase with ⟨_, hr⟩ | ⟨P, hP, hr⟩
  · subst hr
    simp [ENOENT] at hcode
  · subst hr
    rw [wellFormed_iff] at hwf
    have hPlt : P < s.heap.length := walk_lt hwf.2 hwf.1 hP
    have hu := huniq P hPlt
    have hsd := segmentsOf_of_DirPart d dir hdir
    obtain ⟨_, _, h3⟩ := RemoveChild_lookup s.heap P (NamePart d) hu
    have hgone : ∀ rest, walk (RemoveChild s.heap P (NamePart d)) s.RootIndexNode
        (segmentsOf dir ++ [NamePart d] ++ rest) = none := by
      intro rest
      rw [walk_append, walk_concat]
      rcases walk_RemoveChild s.heap P (NamePart d) hu s.RootIndexNode (segmentsOf dir)
        with e | e
      · rw [e]; rfl
      · unfold FindNode at hP
        rw [e, hP]
        simp [h3]
    refine ⟨?_, ?_⟩
    · unfold FindNode
      rw [hsd]
      simpa using hgone []
    · intro x
      unfold FindNode
      rw [segmentsOf_append_slash, hsd]
      exact hgone (Split x)

/-! ## Evaluations at failing inputs (C5, C8, C10) -/

/-- C5 at the failing input: after `MakeDirectory("/a")`, `MakeDirectory("/b")` and
`Move("/b", "/a")` the root holds two children named `a`; `DeleteDirectory("/a")` returns
OK and removes the last of them only, so `Find("/a")` still succeeds. -/
theorem deleteDirectory_leaves_duplicate :
    Reachable twoDirs ∧
    Move twoDirs "/b" "/a" = Result.ok (twoNamedA, { Code := 0, Description := "" }) ∧
    DeleteDirectory twoNamedA "/a" = Result.ok
      ({ heap := [{ Name := "", Typ := 0, Children := [1], Storages := [] },
                  { Name := "a", Typ := DIR, Children := [], Storages := [] },
                  { Name := "a", Typ := DIR, Children := [], Storages := [] }],
         RootIndexNode := 0, StorageAddresses := [] }, { Code := 0, Description := "" }) ∧
    FindNode
      { heap := [{ Name := "", Typ := 0, Children := [1], Storages := [] },
                 { Name := "a", Typ := DIR, Children := [], Storages := [] },
                 { Name := "a", Typ := DIR, Children := [], Storages := [] }],
        RootIndexNode := 0, StorageAddresses := [] } "/a" = some 1 :=
  ⟨twoDirs_reachable, by decide, by decide, by decide⟩

/-- C8 at the failing input: `CreateNodeIfNotExists("/a/a", true)` on the initial server
creates the node of the first, non-final segment `a` with kind FILE, because the test
`s == segments[len(segments)-1]` compares names, not positions. -/
theorem createNode_intermediate_is_file :
    CreateNodeIfNotExists initNamingServer "/a/a" true =
      ({ heap := [{ Name := "", Typ := 0, Children := [1], Storages := [] },
                  { Name := "a", Typ := FILE, Children := [2], Storages := [] },
                  { Name := "a", Typ := FILE, Children := [], Storages := [] }],
         RootIndexNode := 0, StorageAddresses := [] }, 2) ∧
    segmentsOf "/a/a" = ["a", "a"] ∧ FILE ≠ DIR :=
  ⟨by decide, by decide, by decide⟩

/-- C10 at the failing inputs: with the old parent absent `Move` returns code 1, which is
not `ENOENT`, the code `DeleteFile`, `DeleteDirectory` and `ListDirectory` return there;
with the parent present and no child of that name `Move` faults on `node.Name = newName`
with `node == nil`. -/
theorem move_missing_old_path :
    Move initNamingServer "/a/b" "/c" = Result.ok
      (initNamingServer, { Code := 1, Description := "Old parent node does not exist" }) ∧
    (1 : Nat) ≠ ENOENT ∧
    DeleteFile initNamingServer "/a/b" = Result.ok
      (initNamingServer, { Code := ENOENT, Description := "No parent directory found" }) ∧
    DeleteDirectory initNamingServer "/a/b" = Result.ok
      (initNamingServer, { Code := ENOENT, Description := "No parent directory found" }) ∧
    (ListDirectory initNamingServer "/a/b").1.Code = ENOENT ∧
    FindNode initNamingServer "" = some 0 ∧ GetChild initNamingServer.heap 0 "a" = none ∧
    Move initNamingServer "/a" "/c" = Result.panic :=
  ⟨by decide, by decide, by decide, by decide, by decide, by decide, by decide, by decide⟩


/-! ## DirPart and NamePart (C15) -/

theorem lastSlash_none_iff (l : List Char) : lastSlash l = none ↔ '/' ∉ l := by
  induction l with
  | nil => simp [lastSlash]
  | cons c cs ih =>
    simp only [lastSlash, List.mem_cons, not_or]
    cases hcs : lastSlash cs with
    | some j =>
      have hmem : ¬ '/' ∉ cs := fun h => by
        rw [ih.2 h] at hcs
        cases hcs
      simp [hmem]
    | none =>
      have hmem : '/' ∉ cs := ih.1 hcs
      by_cases hc : c = '/'
      · simp [hc]
      · have hc2 : ¬ '/' = c := fun e => hc e.symm
        simp [hc, hc2, hmem]

/-- The last `/` cuts a character list into the part before it and a part without `/`. -/
theorem lastSlash_spec (l : List Char) (i : Nat) (h : lastSlash l = some i) :
    l = l.take i ++ '/' :: l.drop (i + 1) ∧ '/' ∉ l.drop (i + 1) := by
  induction l generalizing i with
  | nil => simp [lastSlash] at h
  | cons c cs ih =>
    simp only [lastSlash] at h
    cases hcs : lastSlash cs with
    | some j =>
      simp only [hcs, Option.some.injEq] at h
      subst h
      obtain ⟨h1, h2⟩ := ih j hcs
      simp only [List.take_succ_cons, List.drop_succ_cons, List.cons_append]
      exact ⟨by rw [← h1], h2⟩
    | none =>
      simp only [hcs] at h
      by_cases hc : c = '/'
      · simp only [hc, if_true, Option.some.injEq] at h
        subst h
        subst hc
        exact ⟨by simp, by simpa using (lastSlash_none_iff cs).1 hcs⟩
      · simp [hc] at h

/-- For a path that contains `/`, `DirPart` does not fault and the path is its `DirPart`,
a `/` and its `NamePart`, the latter without `/`. -/
theorem DirPart_NamePart_of_slash (p : String) (h : '/' ∈ p.data) :
    ∃ d, DirPart p = some d ∧ d ++ "/" ++ NamePart p = p ∧ '/' ∉ (NamePart p).data := by
  cases hl : lastSlash p.data with
  | none => exact absurd h ((lastSlash_none_iff p.data).1 hl)
  | some i =>
    obtain ⟨h1, h2⟩ := lastSlash_spec p.data i hl
    have hi : ((i : Int) + 1).toNat = i + 1 := by omega
    have hneg : ¬ ((i : Int) < 0) := by omega
    refine ⟨String.mk (p.data.take i), ?_, ?_, ?_⟩
    · unfold DirPart LastIndex
      simp only [hl, hneg, if_false, Int.toNat_ofNat]
    · unfold NamePart LastIndex
      simp only [hl, hi]
      apply String.ext
      simp only [String.data_append]
      rw [List.append_assoc]
      exact h1.symm
    · unfold NamePart LastIndex
      simp only [hl, hi]
      exact h2

/-- C15: for every path `p` that begins with `/`, `DirPart(p)` does not fault,
`DirPart(p) + "/" + NamePart(p)` equals `p`, and `NamePart(p)` contains no `/`. -/
theorem dirPart_slash_namePart (p rest : String) (h : p = "/" ++ rest) :
    ∃ d, DirPart p = some d ∧ d ++ "/" ++ NamePart p = p ∧ '/' ∉ (NamePart p).data := by
  apply DirPart_NamePart_of_slash
  rw [h, String.data_append]
  exact List.mem_append_left _ (by decide)

/-- Instance of `dirPart_slash_namePart`: the path `/a/b`. -/
theorem dirPart_slash_namePart_witness :
    DirPart "/a/b" = some "/a" ∧ NamePart "/a/b" = "b" ∧
    ∃ d, DirPart "/a/b" = some d ∧ d ++ "/" ++ NamePart "/a/b" = "/a/b" ∧
      '/' ∉ (NamePart "/a/b").data :=
  ⟨by decide, by decide, dirPart_slash_namePart "/a/b" "a/b" (by decide)⟩

/-! ## MakeDirectory twice (C14) -/

/-- C14: in every reachable state, `MakeDirectory(p)` followed by `MakeDirectory(p)`
leaves the server in the state the first call left it in, and both calls return OK. -/
theorem makeDirectory_idempotent (s : NamingServer) (p : String) (hs : Reachable s) :
    (MakeDirectory (MakeDirectory s p).1 p).1 = (MakeDirectory s p).1 ∧
    (MakeDirectory s p).2.Code = 0 ∧ (MakeDirectory (MakeDirectory s p).1 p).2.Code = 0 := by
  have hwf := (reachable_inv s hs).1
  rw [wellFormed_iff] at hwf
  obtain ⟨hx, hok⟩ := hwf
  obtain ⟨_, _, _, h4, _⟩ := createLoop_spec false ((segmentsOf p).getLastD "") s.heap
    s.RootIndexNode (segmentsOf p) hok hx
  have e := createLoop_of_walk false ((segmentsOf p).getLastD "")
    (createLoop false ((segmentsOf p).getLastD "") s.heap s.RootIndexNode (segmentsOf p)).1
    s.RootIndexNode _ (segmentsOf p) h4
  refine ⟨?_, rfl, rfl⟩
  unfold MakeDirectory CreateNodeIfNotExists
  simp only [e]

/-- Instance of `makeDirectory_idempotent`: `MakeDirectory("/a/b")` twice on the initial
server. -/
theorem makeDirectory_idempotent_witness :
    Reachable initNamingServer ∧
    (MakeDirectory initNamingServer "/a/b").1.heap.length = 3 ∧
    (MakeDirectory (MakeDirectory initNamingServer "/a/b").1 "/a/b").1 =
      (MakeDirectory initNamingServer "/a/b").1 :=
  ⟨Reachable.init, by decide,
    (makeDirectory_idempotent initNamingServer "/a/b" Reachable.init).1⟩


/-! ## The replica's ReadFile (C13) -/

/-- With a positive count, a read at or past the end of an existing file returns OK, an
empty buffer and count 0 (the description is that of `io.EOF`). -/
theorem ReadFile_at_end (disk : Disk) (Path : String) (content : List Nat) (off count : Int)
    (hfile : diskGet disk (StoragePath ++ Path) = some content)
    (hoff : 0 ≤ off) (hcount : 0 < count) (hend : (content.length : Int) ≤ off) :
    ReadFile disk Path off count =
      Result.ok { ErrorStatus := { Code := 0, Description := "EOF" }, Buffer := [],
                  Count := 0 } := by
  have h1 : ¬ count < 0 := by omega
  have h2 : ¬ off < 0 := by omega
  have hdrop : content.drop off.toNat = [] := by
    apply List.drop_eq_nil_of_le
    omega
  have h3 : 0 < count.toNat := by omega
  unfold ReadFile
  simp only [hfile, h1, if_false, ReadAt, h2, hdrop, List.take_nil, List.length_nil, h3,
    if_true]
  rfl

/-- With count 0 the read of an existing file returns `0, nil`, and `ReadFile` faults on
`err.Error()`. -/
theorem ReadFile_count_zero (disk : Disk) (Path : String) (content : List Nat) (off : Int)
    (hfile : diskGet disk (StoragePath ++ Path) = some content) (hoff : 0 ≤ off) :
    ReadFile disk Path off 0 = Result.panic := by
  have h2 : ¬ off < 0 := by omega
  unfold ReadFile
  simp [hfile, ReadAt, h2]

/-- C13 at the failing input: the file `/f` holds three bytes and opens; `ReadFile` with
offset 0 and count 0 reads `n = 0` bytes with `err == nil` and faults on `err.Error()`
instead of returning OK, while a read past the end with a positive count returns OK, an
empty buffer and count 0. -/
theorem readFile_empty_read_faults :
    diskGet [("storage/f", [1, 2, 3])] (StoragePath ++ "/f") = some [1, 2, 3] ∧
    ReadAt "storage/f" [1, 2, 3] 0 0 = ([], none) ∧
    ReadFile [("storage/f", [1, 2, 3])] "/f" 0 0 = Result.panic ∧
    ReadFile [("storage/f", [1, 2, 3])] "/f" 3 10 =
      Result.ok { ErrorStatus := { Code := 0, Description := "EOF" }, Buffer := [],
                  Count := 0 } :=
  ⟨by decide, by decide, by decide, by decide⟩

/-! ## The replica's WriteFile (C11) -/

theorem fanOut_spec (server : StorageServer) (dial : String → Bool) (args : WriteFileArgs)
    (infos : List DiscoveredStorage) :
    ∀ rpc ∈ fanOut server dial args infos,
      ∃ s ∈ infos, s.Alias ≠ server.Alias ∧
        rpc = Rpc.WriteFile s.Address
          { Path := args.Path, Offset := args.Offset, Buffer := args.Buffer,
            IsChainCall := true } := by
  induction infos with
  | nil =>
    intro rpc h
    simp [fanOut] at h
  | cons s rest ih =>
    intro rpc h
    simp only [fanOut] at h
    by_cases hs : s.Alias = server.Alias
    · rw [if_pos hs] at h
      obtain ⟨s2, hs2, h2⟩ := ih rpc h
      exact ⟨s2, List.mem_cons_of_mem _ hs2, h2⟩
    · rw [if_neg hs] at h
      by_cases hd : dial s.Address = true
      · rw [if_pos hd] at h
        rcases List.mem_cons.1 h with e | e
        · exact ⟨s, List.mem_cons_self _ _, hs, e⟩
        · obtain ⟨s2, hs2, h2⟩ := ih rpc e
          exact ⟨s2, List.mem_cons_of_mem _ hs2, h2⟩
      · rw [if_neg hd] at h
        simp at h

/-- A chain call sends nothing out. -/
theorem WriteFile_chain_call (server : StorageServer) (disk : Disk) (args : WriteFileArgs)
    (discovered : Option (List DiscoveredStorage)) (dial : String → Bool)
    (hchain : args.IsChainCall = true) :
    (WriteFile server disk args discovered dial).2.1 = [] := by
  unfold WriteFile
  dsimp only
  split
  · rfl
  · split
    · rfl
    · simp [hchain]

/-- The calls of a primary write: `Discover` for the path, and writes to discovered
replicas with another alias. -/
theorem WriteFile_calls (server : StorageServer) (disk : Disk) (args : WriteFileArgs)
    (discovered : Option (List DiscoveredStorage)) (dial : String → Bool) :
    ∀ rpc ∈ (WriteFile server disk args discovered dial).2.1,
      args.IsChainCall = false ∧
      (rpc = Rpc.Discover args.Path "" ∨
       ∃ infos s, discovered = some infos ∧ s ∈ infos ∧ s.Alias ≠ server.Alias ∧
        rpc = Rpc.WriteFile s.Address
          { Path := args.Path, Offset := args.Offset, Buffer := args.Buffer,
            IsChainCall := true }) := by
  intro rpc h
  cases hc : args.IsChainCall with
  | true =>
    rw [WriteFile_chain_call server disk args discovered dial hc] at h
    simp at h
  | false =>
    refine ⟨rfl, ?_⟩
    unfold WriteFile at h
    dsimp only at h
    split at h
    · simp at h
    · split at h
      · simp at h
      · simp only [hc, Bool.not_false, if_true] at h
        rcases List.mem_cons.1 h with e | e
        · exact Or.inl e
        · cases hdisc : discovered with
          | none =>
            rw [hdisc] at e
            simp at e
          | some infos =>
            rw [hdisc] at e
            obtain ⟨s, hs, hne, hrpc⟩ := fanOut_spec server dial args infos rpc e
            exact Or.inr ⟨infos, s, rfl, hs, hne, hrpc⟩

/-- C11: a replica handling `WriteFile` with `is_chain_call = true` sends out no call (no
`Discover`, no `WriteFile`); with `is_chain_call = false` every `WriteFile` it sends
carries the same path, offset and buffer with `is_chain_call = true` and goes to the
address of a discovered replica whose alias differs from its own; and whatever replica
handles such a forwarded write sends out nothing, so a write propagates one hop at
most. -/
theorem writeFile_one_hop (server : StorageServer) (disk : Disk) (args : WriteFileArgs)
    (discovered : Option (List DiscoveredStorage)) (dial : String → Bool) :
    (args.IsChainCall = true → (WriteFile server disk args discovered dial).2.1 = []) ∧
    (∀ address out, Rpc.WriteFile address out ∈
        (WriteFile server disk args discovered dial).2.1 →
      args.IsChainCall = false ∧
      out = { Path := args.Path, Offset := args.Offset, Buffer := args.Buffer,
              IsChainCall := true } ∧
      (∃ infos s, discovered = some infos ∧ s ∈ infos ∧ s.Alias ≠ server.Alias ∧
        s.Address = address) ∧
      ∀ (server2 : StorageServer) (disk2 : Disk)
        (discovered2 : Option (List DiscoveredStorage)) (dial2 : String → Bool),
        (WriteFile server2 disk2 out discovered2 dial2).2.1 = []) := by
  refine ⟨WriteFile_chain_call server disk args discovered dial, ?_⟩
  intro address out h
  obtain ⟨hc, hcase⟩ := WriteFile_calls server disk args discovered dial _ h
  rcases hcase with e | ⟨infos, s, hd, hs, hne, e⟩
  · cases e
  · simp only [Rpc.WriteFile.injEq] at e
    obtain ⟨ha, ho⟩ := e
    refine ⟨hc, ho, ⟨infos, s, hd, hs, hne, ha.symm⟩, ?_⟩
    intro server2 disk2 discovered2 dial2
    apply WriteFile_chain_call
    rw [ho]

/-- A primary write on replica `A` of a file placed on `A` and `B`: one `Discover`, one
forwarded write to `B`, nothing to `A` itself. -/
theorem writeFile_one_hop_example :
    WriteFile { Alias := "A" } [("storage/f", [1, 2, 3])]
      { Path := "/f", Offset := 1, Buffer := [9, 9, 9], IsChainCall := false }
      (some [{ Alias := "A", Address := "10.0.0.1:7000", PublicAddress := "a.example:7000" },
             { Alias := "B", Address := "10.0.0.2:7000", PublicAddress := "b.example:7000" }])
      (fun _ => true) =
    ([("storage/f", [1, 9, 9, 9])],
     [Rpc.Discover "/f" "",
      Rpc.WriteFile "10.0.0.2:7000"
        { Path := "/f", Offset := 1, Buffer := [9, 9, 9], IsChainCall := true }],
     { Code := 0, Description := "OK" }) := by decide


/-! ## Bootstrap sync (C12) -/

theorem diskSet_keys (disk : Disk) (path : String) (content : List Nat) :
    (diskSet disk path content).map Prod.fst = disk.map Prod.fst := by
  induction disk with
  | nil => rfl
  | cons e rest ih =>
    obtain ⟨p, c⟩ := e
    simp only [diskSet]
    split
    · simp
    · simp [ih]

theorem openWriteAt_keys (disk : Disk) (path : String) (buf : List Nat) (offset : Int) :
    (openWriteAt disk path buf offset).map Prod.fst = disk.map Prod.fst := by
  unfold openWriteAt
  split
  · rfl
  · exact diskSet_keys _ _ _

theorem syncLoop_keys (peer : Option Disk) (filePath : String) (fuel : Nat) (disk : Disk)
    (offset : Int) (out : Disk) (h : syncLoop peer filePath fuel disk offset = Result.ok out) :
    out.map Prod.fst = disk.map Prod.fst := by
  induction fuel generalizing disk offset with
  | zero => simp [syncLoop] at h
  | succ fuel ih =>
    simp only [syncLoop] at h
    cases peer with
    | none =>
      simp only [Result.ok.injEq] at h
      rw [← h]
    | some peerDisk =>
      simp only at h
      cases hr : ReadFile peerDisk filePath offset 4096 with
      | ok read =>
        simp only [hr] at h
        split at h
        · simp only [Result.ok.injEq] at h
          rw [← h]
          exact openWriteAt_keys _ _ _ _
        · rw [ih _ _ h]
          exact openWriteAt_keys _ _ _ _
      | panic =>
        simp only [hr, Result.ok.injEq] at h
        rw [← h]
      | hang =>
        simp only [hr, Result.ok.injEq] at h
        rw [← h]

theorem syncContents_keys (recurse : Disk → String → Result Disk) (fuel : Nat)
    (server : StorageServer) (naming : NamingServer) (peers : String → Option Disk)
    (path : String)
    (hrec : ∀ d p out, recurse d p = Result.ok out → out.map Prod.fst = d.map Prod.fst)
    (contents : List (NodeMode × String)) (disk out : Disk)
    (h : syncContents recurse fuel server naming peers path contents disk = Result.ok out) :
    out.map Prod.fst = disk.map Prod.fst := by
  induction contents generalizing disk with
  | nil =>
    simp only [syncContents, Result.ok.injEq] at h
    rw [← h]
  | cons content rest ih =>
    simp only [syncContents] at h
    split at h
    · split at h
      · rename_i disk1 h1
        rw [ih disk1 h, hrec _ _ _ h1]
      · cases h
      · cases h
    · split at h
      · split at h
        · rename_i disk1 h1
          rw [ih disk1 h, syncLoop_keys _ _ _ _ _ _ h1]
        · cases h
        · cases h
      · exact ih disk h

/-- `Sync` never creates a file: when it completes, the local disk holds the same file
names as before. -/
theorem Sync_keys (server : StorageServer) (naming : NamingServer)
    (peers : String → Option Disk) (fuel : Nat) (disk : Disk) (path : String) (out : Disk)
    (h : Sync server naming peers fuel disk path = Result.ok out) :
    out.map Prod.fst = disk.map Prod.fst := by
  induction fuel generalizing disk path out with
  | zero => simp [Sync] at h
  | succ fuel ih =>
    simp only [Sync] at h
    exact syncContents_keys _ fuel server naming peers path
      (fun d p o ho => ih d p o ho) _ disk out h

/-- With a positive count, a read inside an existing file returns OK and the bytes from
the offset on, at most `count` of them. -/
theorem ReadFile_inside (disk : Disk) (Path : String) (content : List Nat) (off count : Int)
    (hfile : diskGet disk (StoragePath ++ Path) = some content)
    (hoff : 0 ≤ off) (hcount : 0 < count) (hin : off < (content.length : Int)) :
    ReadFile disk Path off count =
      Result.ok { ErrorStatus := { Code := 0, Description := "OK" },
                  Buffer := (content.drop off.toNat).take count.toNat,
                  Count := (((content.drop off.toNat).take count.toNat).length : Nat) } := by
  have h1 : ¬ count < 0 := by omega
  have h2 : ¬ off < 0 := by omega
  have hlen : 0 < ((content.drop off.toNat).take count.toNat).length := by
    simp only [List.length_take, List.length_drop]
    omega
  have h3 : ¬ ((((content.drop off.toNat).take count.toNat).length : Nat) : Int) ≤ 0 := by
    omega
  unfold ReadFile
  simp only [hfile, h1, if_false, ReadAt, h2, h3]

/-- On an empty local disk the copy loop completes, for any content of the peer's file,
once the fuel covers the chunks, and the local disk is still empty. -/
theorem syncLoop_empty_disk (peerDisk : Disk) (filePath : String) (content : List Nat)
    (hfile : diskGet peerDisk (StoragePath ++ filePath) = some content)
    (fuel : Nat) (offset : Int) (hoff : 0 ≤ offset)
    (hfuel : (content.length - offset.toNat) + 4096 ≤ 4096 * fuel) :
    syncLoop (some peerDisk) filePath fuel [] offset = Result.ok [] := by
  induction fuel generalizing offset with
  | zero => omega
  | succ fuel ih =>
    simp only [syncLoop]
    by_cases hend : (content.length : Int) ≤ offset
    · rw [ReadFile_at_end peerDisk filePath content offset 4096 hfile hoff (by omega) hend]
      simp [openWriteAt, diskGet]
    · rw [ReadFile_inside peerDisk filePath content offset 4096 hfile hoff (by omega)
        (by omega)]
      have hlen : ((content.drop offset.toNat).take (4096 : Int).toNat).length =
          min 4096 (content.length - offset.toNat) := by
        simp [List.length_take, List.length_drop]
      have hne : ¬ ((((content.drop offset.toNat).take (4096 : Int).toNat).length : Nat) : Int)
          = 0 := by
        rw [hlen]
        omega
      simp only [hne, if_false, openWriteAt, diskGet]
      apply ih
      · omega
      · rw [hlen]
        omega


theorem fooPlaced_reachable : Reachable fooPlaced :=
  Reachable.createFile twoReplicas ["A", "B"] [0, 1] replyOK "/foo"
    (fooPlaced, { Code := 0, Description := "" }) twoReplicas_reachable (List.Perm.refl _)
    (by decide)

theorem diskA_foo : diskGet diskA (StoragePath ++ "/foo") = some (List.replicate 10000 7) := by
  rw [show StoragePath ++ "/foo" = "storage/foo" from by decide]
  unfold diskA
  simp only [diskGet, if_true]

theorem Sync_succ (server : StorageServer) (naming : NamingServer)
    (peers : String → Option Disk) (fuel : Nat) (disk : Disk) (path : String) :
    Sync server naming peers (fuel + 1) disk path =
      syncContents (Sync server naming peers fuel) fuel server naming peers path
        (ListDirectory naming path).2 disk := rfl

/-- One round of the loop of `Sync` on a file entry whose copy loop completes. -/
theorem syncContents_file (recurse : Disk → String → Result Disk) (fuel : Nat)
    (server : StorageServer) (naming : NamingServer) (peers : String → Option Disk)
    (path : String) (content : NodeMode × String) (rest : List (NodeMode × String))
    (disk : Disk) (first : DiscoveredStorage) (more : List DiscoveredStorage) (disk1 : Disk)
    (hmode : ¬ content.1 = NodeMode.DIRECTORY)
    (hd : Discover naming (path ++ "/" ++ content.2) server.Alias =
      Result.ok (first :: more))
    (hloop : syncLoop (peers first.PublicAddress) (path ++ "/" ++ content.2) fuel disk 0 =
      Result.ok disk1) :
    syncContents recurse fuel server naming peers path (content :: rest) disk =
      syncContents recurse fuel server naming peers path rest disk1 := by
  simp only [syncContents, hmode, if_false, hd, hloop]

/-- C12 at the failing input: replica `A` holds `/foo` with 10,000 bytes, the namespace
lists `/foo` as a file and `Discover("/foo", "C")` names `A` first; the new replica `C`
starts with an empty disk.  `Sync("")` completes and the disk of `C` is still empty, so
the mirror file `storage/foo` does not exist: the copy loop opens it with `O_WRONLY`
only, the open fails, and `WriteAt` on the `nil` file writes nothing. -/
theorem sync_leaves_no_local_file :
    Reachable fooPlaced ∧
    (diskGet diskA "storage/foo").map List.length = some 10000 ∧
    ListDirectory fooPlaced "" =
      ({ Code := 0, Description := "" }, [(NodeMode.REGULAR_FILE, "foo")]) ∧
    Discover fooPlaced "/foo" "C" = Result.ok
      [{ Alias := "A", Address := "10.0.0.1:7000", PublicAddress := "a.example:7000" },
       { Alias := "B", Address := "10.0.0.2:7000", PublicAddress := "b.example:7000" }] ∧
    Sync { Alias := "C" } fooPlaced peersA 6 [] "" = Result.ok [] ∧
    diskGet [] (StoragePath ++ "/foo") = none := by
  have hfile := diskA_foo
  have hl : ListDirectory fooPlaced "" =
      ({ Code := 0, Description := "" }, [(NodeMode.REGULAR_FILE, "foo")]) := by decide
  have hd : Discover fooPlaced "/foo" "C" = Result.ok
      [{ Alias := "A", Address := "10.0.0.1:7000", PublicAddress := "a.example:7000" },
       { Alias := "B", Address := "10.0.0.2:7000", PublicAddress := "b.example:7000" }] := by
    decide
  refine ⟨fooPlaced_reachable, ?_, hl, hd, ?_, rfl⟩
  · rw [show "storage/foo" = StoragePath ++ "/foo" from by decide, hfile,
      Option.map_some', List.length_replicate]
  · have hp : ("" : String) ++ "/" ++ "foo" = "/foo" := by decide
    have hmode : ¬ NodeMode.REGULAR_FILE = NodeMode.DIRECTORY := by decide
    have hpeer : peersA "a.example:7000" = some diskA := by
      unfold peersA
      rw [if_pos rfl]
    have hloop : syncLoop (peersA "a.example:7000") ("" ++ "/" ++ "foo") 5 [] 0 =
        Result.ok [] := by
      rw [hpeer, hp]
      exact syncLoop_empty_disk diskA "/foo" (List.replicate 10000 7) hfile 5 0 (le_refl _)
        (by rw [List.length_replicate]; decide)
    rw [show (6 : Nat) = 5 + 1 from rfl, Sync_succ, hl]
    have hd2 : Discover fooPlaced ("" ++ "/" ++ "foo") (StorageServer.mk "C").Alias =
        Result.ok
          ({ Alias := "A", Address := "10.0.0.1:7000", PublicAddress := "a.example:7000" } ::
           [{ Alias := "B", Address := "10.0.0.2:7000",
              PublicAddress := "b.example:7000" }]) := by
      rw [hp]
      exact hd
    exact syncContents_file (Sync { Alias := "C" } fooPlaced peersA 5) 5 { Alias := "C" }
      fooPlaced peersA "" (NodeMode.REGULAR_FILE, "foo") [] []
      { Alias := "A", Address := "10.0.0.1:7000", PublicAddress := "a.example:7000" }
      [{ Alias := "B", Address := "10.0.0.2:7000", PublicAddress := "b.example:7000" }]
      [] hmode hd2 hloop

/-- On an empty local disk `Sync` can only return the empty disk. -/
theorem Sync_empty_disk (server : StorageServer) (naming : NamingServer)
    (peers : String → Option Disk) (fuel : Nat) (path : String) (out : Disk)
    (h : Sync server naming peers fuel [] path = Result.ok out) : out = [] := by
  have hk := Sync_keys server naming peers fuel [] path out h
  simpa using hk


/-! ## Unique sibling names through the pointer operations -/

theorem nameOf_of_get {h : List Node} {x : Nat} {nd : Node} (hx : h[x]? = some nd) :
    nameOf h x = some nd.Name := by
  simp [nameOf, hx]

theorem nameOf_eq_of_nameIs (h h2 : List Node) (d : Nat)
    (hnm : ∀ t, nameIs h2 t d = nameIs h t d) : nameOf h2 d = nameOf h d := by
  cases hd : nameOf h d with
  | some t =>
    have h1 : nameIs h2 t d = true := by
      rw [hnm t]
      exact (nameIs_iff h t d).2 hd
    exact (nameIs_iff h2 t d).1 h1
  | none =>
    cases hd2 : nameOf h2 d with
    | none => rfl
    | some t =>
      have h1 : nameIs h t d = true := by
        rw [← hnm t]
        exact (nameIs_iff h2 t d).2 hd2
      rw [(nameIs_iff h t d).1 h1] at hd
      cases hd

theorem map_nameOf_congr (h h2 : List Node) (l : List Nat)
    (hnm : ∀ d ∈ l, ∀ t, nameIs h2 t d = nameIs h t d) :
    l.map (nameOf h2) = l.map (nameOf h) := by
  induction l with
  | nil => rfl
  | cons a l ih =>
    simp only [List.map_cons]
    rw [nameOf_eq_of_nameIs h h2 a (hnm a (List.mem_cons_self _ _)),
      ih (fun d hd => hnm d (List.mem_cons_of_mem _ hd))]

theorem not_mem_names_of_GetChild_none (h : List Node) (y : Nat) (t : String)
    (hg : GetChild h y t = none) : some t ∉ (childrenOf h y).map (nameOf h) := by
  intro hm
  rcases List.mem_map.1 hm with ⟨c, hc, hname⟩
  have h1 : nameIs h t c = true := (nameIs_iff h t c).2 hname
  have h2 := List.find?_eq_none.1 hg c hc
  exact h2 h1

/-- Appending to a node a child whose name none of its children has keeps sibling names
unique. -/
theorem UniqueHeap_AddChild (h : List Node) (y c : Nat) (t : String) (hu : UniqueHeap h)
    (hy : y < h.length) (hg : GetChild h y t = none) (hc : nameOf h c = some t) :
    UniqueHeap (AddChild h y c) := by
  intro x
  have hnames : ∀ l : List Nat, l.map (nameOf (AddChild h y c)) = l.map (nameOf h) :=
    fun l => map_nameOf_congr h _ l (fun d _ t2 => nameIs_AddChild h y c t2 d)
  rw [hnames]
  by_cases hx : x = y
  · subst hx
    rw [childrenOf_AddChild_self h x c hy, List.map_append, List.nodup_append]
    refine ⟨hu x, by simp, ?_⟩
    intro a ha ha2
    simp only [List.map_cons, List.map_nil, List.mem_singleton] at ha2
    subst ha2
    rw [hc] at ha
    exact not_mem_names_of_GetChild_none h x t hg ha
  · rw [childrenOf_AddChild_ne h y c x hx]
    exact hu x

theorem childrenOf_append_old (h : List Node) (nd : Node) (x : Nat) (hx : x < h.length) :
    childrenOf (h ++ [nd]) x = childrenOf h x := by
  unfold childrenOf
  rw [List.getElem?_append_left hx]

theorem childrenOf_append_new (h : List Node) (nd : Node) (x : Nat) (hx : h.length ≤ x)
    (hnd : nd.Children = []) : childrenOf (h ++ [nd]) x = [] := by
  unfold childrenOf
  cases hg : (h ++ [nd])[x]? with
  | none => rfl
  | some n =>
    rw [List.getElem?_append_right hx] at hg
    have h1 : x - h.length < [nd].length := lt_of_get hg
    simp only [List.length_singleton] at h1
    have h0 : x - h.length = 0 := by omega
    rw [h0] at hg
    simp only [List.getElem?_cons_zero, Option.some.injEq] at hg
    subst hg
    exact hnd

theorem UniqueHeap_append (h : List Node) (nd : Node) (hok : HeapOK h) (hu : UniqueHeap h)
    (hnd : nd.Children = []) : UniqueHeap (h ++ [nd]) := by
  intro x
  by_cases hx : x < h.length
  · rw [childrenOf_append_old h nd x hx,
      map_nameOf_congr h (h ++ [nd]) _
        (fun d hd t => Ext_nameIs (Ext_append h nd) (hok x d hd) t)]
    exact hu x
  · rw [childrenOf_append_new h nd x (by omega) hnd]
    exact List.nodup_nil

theorem GetChild_append (h : List Node) (nd : Node) (hok : HeapOK h) (x : Nat)
    (hx : x < h.length) (t : String) : GetChild (h ++ [nd]) x t = GetChild h x t :=
  GetChild_congr (childrenOf_append_old h nd x hx)
    (fun d hd => Ext_nameIs (Ext_append h nd) (hok x d hd) t)

/-- `CreateNodeIfNotExists` keeps sibling names unique. -/
theorem createLoop_unique (f : Bool) (last : String) (h : List Node) (x : Nat)
    (p : List String) (hok : HeapOK h) (hx : x < h.length) (hu : UniqueHeap h) :
    UniqueHeap (createLoop f last h x p).1 := by
  induction p generalizing h x with
  | nil => exact hu
  | cons t p ih =>
    cases hg : GetChild h x t with
    | some c =>
      rw [createLoop_cons_some f last h x c t p hg]
      exact ih h c hok (hok x c (GetChild_mem hg)) hu
    | none =>
      obtain ⟨nd, hname, hch, _, _, heq⟩ := createLoop_cons_none f last h x t p hg
      rw [heq]
      have hok2 := alloc_HeapOK hok x nd hch
      have hlen : (AddChild (h ++ [nd]) x h.length).length = h.length + 1 := by
        rw [AddChild_length]; simp
      have hu2 : UniqueHeap (AddChild (h ++ [nd]) x h.length) := by
        apply UniqueHeap_AddChild (h ++ [nd]) x h.length t
          (UniqueHeap_append h nd hok hu hch)
        · simp only [List.length_append, List.length_singleton]
          omega
        · rw [GetChild_append h nd hok x hx t]
          exact hg
        · rw [nameOf_of_get (List.getElem?_concat_length h nd), hname]
      exact ih _ h.length hok2 (by rw [hlen]; omega) hu2

theorem take_append_drop_succ_sublist (l : List Nat) (k : Nat) :
    (l.take k ++ l.drop (k + 1)).Sublist l := by
  have h1 : (l.take k ++ l.drop (k + 1)).Sublist (l.take k ++ l.drop k) := by
    apply List.Sublist.append (List.Sublist.refl _)
    rw [← List.drop_drop]
    exact List.drop_sublist _ _
  rw [List.take_append_drop] at h1
  exact h1

theorem removedChildren_sublist (h : List Node) (t : String) (l : List Nat) :
    (removedChildren h t l).Sublist l := by
  unfold removedChildren
  dsimp only
  split
  · exact List.Sublist.refl _
  · exact take_append_drop_succ_sublist l _

/-- `RemoveChild` keeps sibling names unique. -/
theorem UniqueHeap_RemoveChild (h : List Node) (y : Nat) (t : String) (hu : UniqueHeap h) :
    UniqueHeap (RemoveChild h y t) := by
  intro x
  rw [map_nameOf_congr h _ _ (fun d _ t2 => nameIs_RemoveChild h y t t2 d)]
  by_cases hx : x = y
  · subst hx
    rw [childrenOf_RemoveChild_self]
    exact (hu x).sublist ((removedChildren_sublist h t _).map _)
  · rw [childrenOf_RemoveChild_ne h y t x hx]
    exact hu x

/-- Renaming a node that is nobody's child keeps sibling names unique. -/
theorem UniqueHeap_setName (h : List Node) (n : Nat) (nm : String) (hu : UniqueHeap h)
    (hn : ∀ (x : Nat), n ∉ childrenOf h x) : UniqueHeap (setName h n nm) := by
  intro x
  rw [childrenOf_setName,
    map_nameOf_congr h _ _ (fun d hd t2 => nameIs_setName_ne h n nm t2 d
      (fun e => hn x (e ▸ hd)))]
  exact hu x


/-! ## The namespace part of Move on a tree (C16) -/

/-- The namespace part of `Move` under the hypotheses of `move_core`, with unique sibling
names throughout the heap: every path that resolved and does not pass through the old
path resolves to the same node, sibling names stay unique, and pointers stay valid. -/
theorem move_core_frame (h : List Node) (r P n : Nat) (so sn : List String)
    (no nn last : String) (hok : HeapOK h) (hr : r < h.length)
    (hpar : ∀ (x y c : Nat), c ∈ childrenOf h x → c ∈ childrenOf h y → x = y)
    (hroot : ∀ (x : Nat), r ∉ childrenOf h x)
    (hu : UniqueHeap h)
    (hP : walk h r so = some P) (hn : GetChild h P no = some n)
    (hnew : walk h r (sn ++ [nn]) = none)
    (hnp : ¬ (so ++ [no]) <+: (sn ++ [nn]))
    (h2 h3 h4 : List Node) (Q : Nat)
    (e2 : h2 = setName (RemoveChild h P no) n nn)
    (e3 : createLoop false last h2 r sn = (h3, Q))
    (e4 : h4 = AddChild h3 Q n) :
    (∀ (p : List String) (m : Nat), walk h r p = some m → ¬ (so ++ [no]) <+: p →
      walk h4 r p = some m) ∧
    UniqueHeap h4 ∧ HeapOK h4 ∧ r < h4.length := by
  have hinj := walk_injective h r hpar hroot
  have hold : walk h r (so ++ [no]) = some n := by
    rw [walk_concat, hP]
    exact hn
  have hnlt : n < h.length := hok P n (GetChild_mem hn)
  have hnP : n ≠ P := by
    intro e
    have hcontra := hinj _ _ _ hold (e ▸ hP)
    have hl := congrArg List.length hcontra
    simp at hl
  obtain ⟨hL1, hL2, hL3, hL4⟩ := detach_lookup h P n no nn hn (hu P)
    (fun x hx => hpar x P n hx (GetChild_mem hn)) hnP
  have hu2 : UniqueHeap h2 := by
    rw [e2]
    apply UniqueHeap_setName _ n nn (UniqueHeap_RemoveChild h P no hu)
    intro x hx
    apply hL4 x
    rw [childrenOf_setName]
    exact hx
  rw [← e2] at hL1 hL2 hL3
  have hrem : ∀ p, ¬ (so ++ [no]) <+: p → walk h2 r p = walk h r p := by
    intro p hp
    apply walk_frame h h2 r (fun p0 => p0 = so ++ [no]) ?_ [] r p rfl
    · intro p0 hp0 e
      rw [List.nil_append] at hp0
      exact hp (e ▸ hp0)
    · intro q x t hq hb
      by_cases hx : x = P
      · subst hx
        have hqso : q = so := hinj _ _ _ hq hP
        apply hL2
        intro e
        apply hb
        rw [hqso, e]
      · exact hL1 x t hx
  have hlen2 : h2.length = h.length := by rw [e2, setName_length, RemoveChild_length]
  have hok2 : HeapOK h2 := by
    rw [e2]
    exact HeapOK_setName (HeapOK_RemoveChild hok P no) n nn
  have hr2 : r < h2.length := by omega
  have hspec := createLoop_spec false last h2 r sn hok2 hr2
  have hu3 := createLoop_unique false last h2 r sn hok2 hr2 hu2
  rw [e3] at hspec hu3
  obtain ⟨hok3, hext, hQlt, hwQ, hlen3⟩ := hspec
  simp only at hok3 hext hQlt hwQ hlen3 hu3
  have hnn2 : nameIs h2 nn n = true := by
    rw [e2]
    exact nameIs_setName_self _ n nn (by rw [RemoveChild_length]; exact hnlt)
  have hnn3 : nameOf h3 n = some nn := by
    apply (nameIs_iff h3 nn n).1
    rw [Ext_nameIs hext (by omega) nn]
    exact hnn2
  have hnew2 : walk h2 r (sn ++ [nn]) = none := by
    rw [hrem _ hnp]
    exact hnew
  have hF1 : GetChild h3 Q nn = none := by
    cases hw2 : walk h2 r sn with
    | some Q1 =>
      have e3a := createLoop_of_walk false last h2 r Q1 sn hw2
      rw [e3] at e3a
      have eh : h3 = h2 := congrArg Prod.fst e3a
      have eQ : Q = Q1 := congrArg Prod.snd e3a
      rw [walk_concat, hw2] at hnew2
      rw [eh, eQ]
      exact hnew2
    | none =>
      obtain ⟨_, _, _, _, _, _, _, _, _, _, hQch⟩ :=
        createLoop_frame false last h2 r sn hok2 hr2 hw2
      rw [e3] at hQch
      simp only at hQch
      unfold GetChild
      rw [hQch]
      rfl
  refine ⟨?_, ?_, ?_, ?_⟩
  · intro p m hm hp
    have h2m : walk h2 r p = some m := by
      rw [hrem p hp]
      exact hm
    have hext4 : Ext h2 h4 := by
      rw [e4]
      exact hext.trans (Ext_AddChild h3 Q n)
    exact Ext_walk hext4 hok2 h2m
  · rw [e4]
    exact UniqueHeap_AddChild h3 Q n nn hu3 hQlt hF1 hnn3
  · rw [e4]
    exact HeapOK_AddChild hok3 Q n (by omega)
  · rw [e4, AddChild_length]
    omega

/-- `Move` is its namespace part followed by the loop over the replicas of the moved
node. -/
theorem Move_eq_MoveNamespace (s : NamingServer) (a b : String) :
    Move s a b =
      match MoveNamespace s a b with
      | Result.panic => Result.panic
      | Result.hang => Result.hang
      | Result.ok none =>
        Result.ok (s, { Code := 1, Description := "Old parent node does not exist" })
      | Result.ok (some (s2, node)) =>
        if moveDispatch s.StorageAddresses (storagesOf s2.heap node) then
          Result.ok (s2, { Code := 0, Description := "" })
        else Result.panic := by
  unfold Move MoveNamespace
  cases DirPart a with
  | none => rfl
  | some d =>
    simp only
    cases FindNode s d with
    | none => rfl
    | some P =>
      simp only
      cases GetChild s.heap P (NamePart a) with
      | none => rfl
      | some n =>
        simp only
        cases DirPart b with
        | none => rfl
        | some d2 => rfl

/-- C16: on a well-formed namespace tree with unique sibling names, for paths `old` and
`new` that each contain `/`, with `Find(old)` returning the node `N`, `Find(new)`
NOT_FOUND and the segments of `old` not a prefix of those of `new`: the namespace part of
`Move(old, new)` completes without fault, and afterwards `Find(old)` is NOT_FOUND,
`Find(new)` returns `N`, now named `NamePart(new)` with its old kind, children and
replicas, every path that resolved before and does not pass through `old` resolves to the
same node, and sibling names are still unique. -/
theorem moveNamespace_on_tree (s : NamingServer) (old new : String) (N : Nat)
    (hwf : WellFormed s) (htree : TreeShaped s) (huniq : UniqueSiblings s)
    (hso : '/' ∈ old.data) (hsn : '/' ∈ new.data)
    (hfo : FindNode s old = some N) (hfn : FindNode s new = none)
    (hnp : ¬ segmentsOf old <+: segmentsOf new) :
    ∃ s2 : NamingServer, MoveNamespace s old new = Result.ok (some (s2, N)) ∧
      FindNode s2 old = none ∧ FindNode s2 new = some N ∧
      s2.heap[N]? = (s.heap[N]?).map (fun nd => { nd with Name := NamePart new }) ∧
      (∀ (p : String) (m : Nat), FindNode s p = some m →
        ¬ segmentsOf old <+: segmentsOf p → FindNode s2 p = some m) ∧
      UniqueSiblings s2 ∧ WellFormed s2 := by
  obtain ⟨d, hd, _, _⟩ := DirPart_NamePart_of_slash old hso
  obtain ⟨d2, hd2, _, _⟩ := DirPart_NamePart_of_slash new hsn
  have hsa := segmentsOf_of_DirPart old d hd
  have hsb := segmentsOf_of_DirPart new d2 hd2
  rw [wellFormed_iff] at hwf
  obtain ⟨hroot, hok⟩ := hwf
  have hu : UniqueHeap s.heap := by
    intro x
    by_cases hx : x < s.heap.length
    · exact huniq x hx
    · have hnone : s.heap[x]? = none := List.getElem?_eq_none (by omega)
      rw [childrenOf_of_none hnone]
      exact List.nodup_nil
  unfold FindNode at hfo hfn
  rw [hsa, walk_concat] at hfo
  cases hP : walk s.heap s.RootIndexNode (segmentsOf d) with
  | none => simp [hP] at hfo
  | some P =>
    simp only [hP, Option.some_bind] at hfo
    rw [hsb] at hfn
    rw [hsa, hsb] at hnp
    have hcore := move_core s.heap s.RootIndexNode P N (segmentsOf d) (segmentsOf d2)
      (NamePart old) (NamePart new) ((segmentsOf d2).getLastD "") hok hroot
      htree.parent_unique htree.root_not_child (hu P) hP hfo hfn hnp
      _ _ _ _ rfl rfl rfl
    have hframe := move_core_frame s.heap s.RootIndexNode P N (segmentsOf d) (segmentsOf d2)
      (NamePart old) (NamePart new) ((segmentsOf d2).getLastD "") hok hroot
      htree.parent_unique htree.root_not_child hu hP hfo hfn hnp
      _ _ _ _ rfl rfl rfl
    refine ⟨{ heap := AddChild
                (createLoop false ((segmentsOf d2).getLastD "")
                  (setName (RemoveChild s.heap P (NamePart old)) N (NamePart new))
                  s.RootIndexNode (segmentsOf d2)).1
                (createLoop false ((segmentsOf d2).getLastD "")
                  (setName (RemoveChild s.heap P (NamePart old)) N (NamePart new))
                  s.RootIndexNode (segmentsOf d2)).2 N,
              RootIndexNode := s.RootIndexNode,
              StorageAddresses := s.StorageAddresses }, ?_, ?_, ?_, hcore.2.2.1, ?_, ?_, ?_⟩
    · unfold MoveNamespace
      have hP2 : FindNode s d = some P := hP
      simp only [hd, hP2, hfo, hd2]
      rfl
    · unfold FindNode
      rw [hsa]
      exact hcore.1
    · unfold FindNode
      rw [hsb]
      exact hcore.2.1
    · intro p m hm hp
      rw [hsa] at hp
      exact hframe.1 (segmentsOf p) m hm hp
    · intro x _
      exact hframe.2.1 x
    · rw [wellFormed_iff]
      exact ⟨hframe.2.2.2, hframe.2.2.1⟩

/-- Instance of `moveNamespace_on_tree`: `/a` is moved to `/b/c` on the state holding the
directories `/a` and `/b`. -/
theorem moveNamespace_on_tree_witness :
    FindNode twoDirs "/a" = some 1 ∧ FindNode twoDirs "/b/c" = none ∧
    MoveNamespace twoDirs "/a" "/b/c" = Result.ok (some
      ({ heap := [{ Name := "", Typ := 0, Children := [2], Storages := [] },
                  { Name := "c", Typ := DIR, Children := [], Storages := [] },
                  { Name := "b", Typ := DIR, Children := [1], Storages := [] }],
         RootIndexNode := 0, StorageAddresses := [] }, 1)) ∧
    ∃ s2 : NamingServer, MoveNamespace twoDirs "/a" "/b/c" = Result.ok (some (s2, 1)) ∧
      FindNode s2 "/a" = none ∧ FindNode s2 "/b/c" = some 1 ∧
      s2.heap[1]? = (twoDirs.heap[1]?).map (fun nd => { nd with Name := NamePart "/b/c" }) ∧
      (∀ (p : String) (m : Nat), FindNode twoDirs p = some m →
        ¬ segmentsOf "/a" <+: segmentsOf p → FindNode s2 p = some m) ∧
      UniqueSiblings s2 ∧ WellFormed s2 :=
  ⟨by decide, by decide, by decide,
    moveNamespace_on_tree twoDirs "/a" "/b/c" 1 (by decide) (by decide) (by decide)
      (by decide) (by decide) (by decide) (by decide) (by decide)⟩


/-! ## The root is nobody's child (C9) -/

theorem mem_childrenOf_AddChild (h : List Node) (y c x d : Nat)
    (hd : d ∈ childrenOf (AddChild h y c) x) : d ∈ childrenOf h x ∨ d = c := by
  by_cases hx : x = y
  · subst hx
    by_cases hlt : x < h.length
    · rw [childrenOf_AddChild_self h x c hlt] at hd
      rcases List.mem_append.1 hd with h1 | h1
      · exact Or.inl h1
      · exact Or.inr (List.mem_singleton.1 h1)
    · rcases get_of_mem_childrenOf hd with ⟨nd, hg, _⟩
      have hlt2 := lt_of_get hg
      rw [AddChild_length] at hlt2
      exact absurd hlt2 hlt
  · rw [childrenOf_AddChild_ne h y c x hx] at hd
    exact Or.inl hd

theorem mem_childrenOf_RemoveChild (h : List Node) (y : Nat) (s : String) (x d : Nat)
    (hd : d ∈ childrenOf (RemoveChild h y s) x) : d ∈ childrenOf h x := by
  by_cases hx : x = y
  · subst hx
    rw [childrenOf_RemoveChild_self] at hd
    exact removedChildren_subset h s _ d hd
  · rw [childrenOf_RemoveChild_ne h y s x hx] at hd
    exact hd

theorem mem_childrenOf_alloc (h : List Node) (x : Nat) (nd : Node) (hnd : nd.Children = [])
    (y d : Nat) (hd : d ∈ childrenOf (AddChild (h ++ [nd]) x h.length) y) :
    d ∈ childrenOf h y ∨ d = h.length := by
  rcases mem_childrenOf_AddChild _ _ _ _ _ hd with h1 | h1
  · left
    by_cases hy : y < h.length
    · rw [childrenOf_append_old h nd y hy] at h1
      exact h1
    · rw [childrenOf_append_new h nd y (Nat.le_of_not_lt hy) hnd] at h1
      cases h1
  · exact Or.inr h1

/-- Every child pointer of the heap `CreateNodeIfNotExists` leaves is an old child pointer
of the same node or points to a node the call allocated. -/
theorem mem_childrenOf_createLoop (f : Bool) (last : String) (h : List Node) (x : Nat)
    (p : List String) (hok : HeapOK h) (hx : x < h.length) (y d : Nat)
    (hd : d ∈ childrenOf (createLoop f last h x p).1 y) :
    d ∈ childrenOf h y ∨ h.length ≤ d := by
  induction p generalizing h x with
  | nil => exact Or.inl hd
  | cons t p ih =>
    cases hg : GetChild h x t with
    | some c =>
      rw [createLoop_cons_some f last h x c t p hg] at hd
      exact ih h c hok (hok x c (GetChild_mem hg)) hd
    | none =>
      obtain ⟨nd, _, hch, _, _, heq⟩ := createLoop_cons_none f last h x t p hg
      rw [heq] at hd
      have hlen : (AddChild (h ++ [nd]) x h.length).length = h.length + 1 := by
        rw [AddChild_length]; simp
      rcases ih _ h.length (alloc_HeapOK hok x nd hch) (by rw [hlen]; omega) hd with h1 | h1
      · rcases mem_childrenOf_alloc h x nd hch y d h1 with h2 | h2
        · exact Or.inl h2
        · exact Or.inr (by omega)
      · rw [hlen] at h1
        exact Or.inr (by omega)

theorem CreateNodeIfNotExists_root_not_child (s : NamingServer) (p : String) (f : Bool)
    (hwf : WellFormed s) (hr : ∀ x : Nat, s.RootIndexNode ∉ childrenOf s.heap x) :
    ∀ x : Nat, (CreateNodeIfNotExists s p f).1.RootIndexNode ∉
      childrenOf (CreateNodeIfNotExists s p f).1.heap x := by
  rw [wellFormed_iff] at hwf
  intro x hx
  have hx2 : s.RootIndexNode ∈ childrenOf (createLoop f ((segmentsOf p).getLastD "") s.heap
      s.RootIndexNode (segmentsOf p)).1 x := hx
  rcases mem_childrenOf_createLoop _ _ _ _ _ hwf.2 hwf.1 x _ hx2 with h1 | h1
  · exact hr x h1
  · exact absurd hwf.1 (Nat.not_lt.2 h1)

/-- In every reachable state the root node is not a child of any node: the handlers attach
only nodes they have just allocated, or, in `Move`, a node `GetChild` returned, which is a
child already. -/
theorem reachable_root_not_child (s : NamingServer) (hs : Reachable s) :
    ∀ x : Nat, s.RootIndexNode ∉ childrenOf s.heap x := by
  induction hs with
  | init =>
    intro x hx
    rcases get_of_mem_childrenOf hx with ⟨nd, hg, hmem⟩
    have hlt : x < 1 := lt_of_get hg
    have hx0 : x = 0 := by omega
    subst hx0
    simp only [initNamingServer, List.getElem?_cons_zero, Option.some.injEq] at hg
    subst hg
    cases hmem
  | register s a info _ ih => exact ih
  | makeDirectory s p hs ih =>
    exact CreateNodeIfNotExists_root_not_child s p false (reachable_inv s hs).1 ih
  | createFile s keys rands reply p r hs _ hc ih =>
    obtain ⟨servers, _, hr⟩ := CreateFile_ok_cases s keys rands reply p r hc
    subst hr
    intro x hx
    have hx2 : s.RootIndexNode ∈ childrenOf (placeLoop reply (CreateNodeIfNotExists s p true).2
        (CreateNodeIfNotExists s p true).1.heap servers) x := hx
    rw [placeLoop_childrenOf] at hx2
    exact CreateNodeIfNotExists_root_not_child s p true (reachable_inv s hs).1 ih x hx2
  | createFileStuck s p hs ih =>
    exact CreateNodeIfNotExists_root_not_child s p true (reachable_inv s hs).1 ih
  | move s a b r hs hm ih =>
    rcases Move_ok_cases s a b r hm with ⟨d, _, _, hr⟩ | ⟨d, d2, P, n, _, hP, hn, _, hr⟩
    · subst hr
      exact ih
    · obtain ⟨hx, hok⟩ := (wellFormed_iff s).1 (reachable_inv s hs).1
      have hok2 : HeapOK (setName (RemoveChild s.heap P (NamePart a)) n (NamePart b)) :=
        HeapOK_setName (HeapOK_RemoveChild hok P _) n _
      have hlen2 : (setName (RemoveChild s.heap P (NamePart a)) n (NamePart b)).length =
          s.heap.length := by rw [setName_length, RemoveChild_length]
      subst hr
      intro x hmem
      have hmem2 : s.RootIndexNode ∈ childrenOf (AddChild
          (createLoop false ((segmentsOf d2).getLastD "")
            (setName (RemoveChild s.heap P (NamePart a)) n (NamePart b))
            s.RootIndexNode (segmentsOf d2)).1
          (createLoop false ((segmentsOf d2).getLastD "")
            (setName (RemoveChild s.heap P (NamePart a)) n (NamePart b))
            s.RootIndexNode (segmentsOf d2)).2 n) x := hmem
      rcases mem_childrenOf_AddChild _ _ _ _ _ hmem2 with h1 | h1
      · rcases mem_childrenOf_createLoop _ _ _ _ _ hok2 (by rw [hlen2]; exact hx) x _ h1
          with h2 | h2
        · rw [childrenOf_setName] at h2
          exact ih x (mem_childrenOf_RemoveChild _ _ _ _ _ h2)
        · rw [hlen2] at h2
          exact absurd hx (Nat.not_lt.2 h2)
      · have hn2 : n ∈ childrenOf s.heap P := GetChild_mem hn
        rw [← h1] at hn2
        exact ih P hn2
  | deleteFile s p r _ hm ih =>
    obtain ⟨d, _, hcase⟩ := DeleteFile_ok_cases s p r hm
    rcases hcase with ⟨_, hr⟩ | ⟨P, _, hr⟩
    · subst hr
      exact ih
    · subst hr
      intro x hx
      exact ih x (mem_childrenOf_RemoveChild _ _ _ _ _ hx)
  | deleteDirectory s p r _ hm ih =>
    obtain ⟨d, _, hcase⟩ := DeleteDirectory_ok_cases s p r hm
    rcases hcase with ⟨_, hr⟩ | ⟨P, _, hr⟩
    · subst hr
      exact ih
    · subst hr
      intro x hx
      exact ih x (mem_childrenOf_RemoveChild _ _ _ _ _ hx)

/-- C9, amended: in every state the empty string denotes the root (`Find("")` returns the
root node and `ListDirectory("")` returns OK with the children of the root), while
`Find("/")` is the lookup of a child of the root with the empty name: NOT_FOUND exactly
when the root has no such child, else the first such child; in every reachable state that
child is not the root. -/
theorem find_empty_is_root (s : NamingServer) :
    FindNode s "" = some s.RootIndexNode ∧
    ListDirectory s "" =
      ({ Code := 0, Description := "" },
        (childrenOf s.heap s.RootIndexNode).filterMap fun child =>
          match s.heap[child]? with
          | some ch => some (if ch.Typ = DIR then NodeMode.DIRECTORY
              else NodeMode.REGULAR_FILE, ch.Name)
          | none => none) ∧
    FindNode s "/" = GetChild s.heap s.RootIndexNode "" ∧
    (FindNode s "/" = none ↔
      ∀ c ∈ childrenOf s.heap s.RootIndexNode, nameOf s.heap c ≠ some "") ∧
    (∀ m : Nat, FindNode s "/" = some m →
      m ∈ childrenOf s.heap s.RootIndexNode ∧ nameOf s.heap m = some "") ∧
    (Reachable s → ∀ m : Nat, FindNode s "/" = some m → m ≠ s.RootIndexNode) := by
  have h1 : segmentsOf "" = [] := by decide
  have h2 : segmentsOf "/" = [""] := by decide
  have h3 : FindNode s "/" = GetChild s.heap s.RootIndexNode "" := by
    unfold FindNode
    rw [h2, walk_cons]
    cases GetChild s.heap s.RootIndexNode "" <;> rfl
  refine ⟨?_, ?_, h3, ?_, ?_, ?_⟩
  · unfold FindNode
    rw [h1]
    rfl
  · unfold ListDirectory FindNode
    rw [h1]
    rfl
  · rw [h3]
    unfold GetChild
    rw [List.find?_eq_none]
    constructor
    · intro h c hc hname
      exact h c hc ((nameIs_iff s.heap "" c).2 hname)
    · intro h c hc hname
      exact h c hc ((nameIs_iff s.heap "" c).1 hname)
  · intro m hm
    rw [h3] at hm
    exact ⟨GetChild_mem hm, (nameIs_iff s.heap "" m).1 (GetChild_nameIs hm)⟩
  · intro hs m hm hroot
    rw [h3] at hm
    have hmem : m ∈ childrenOf s.heap s.RootIndexNode := GetChild_mem hm
    rw [hroot] at hmem
    exact reachable_root_not_child s hs s.RootIndexNode hmem

/-- Instance of `find_empty_is_root`: after `MakeDirectory("/")` on the initial server
`Find("/")` returns node 1, a child of the root with the empty name, and the root is
node 0. -/
theorem find_empty_is_root_witness :
    Reachable (MakeDirectory initNamingServer "/").1 ∧
    FindNode (MakeDirectory initNamingServer "/").1 "/" = some 1 ∧
    (1 : Nat) ≠ (MakeDirectory initNamingServer "/").1.RootIndexNode :=
  ⟨Reachable.makeDirectory _ "/" Reachable.init, by decide,
    (find_empty_is_root (MakeDirectory initNamingServer "/").1).2.2.2.2.2
      (Reachable.makeDirectory _ "/" Reachable.init) 1 (by decide)⟩

end GoDFS
